import Mathlib

/-!
# Data Matrix ECC200 error-correction encoder

A shallow embedding of `core/src/datamatrix/DMECEncoder.cpp` (namespace
`ZXing::DataMatrix`): the generator table `FACTORS`, the field tables `LOG`
and `ALOG`, the field multiplication `mult`, the block generator
`CreateECCBlock` and the entry point `EncodeECC200`, followed by the
properties established about them.

Conventions.  A byte (`uint8_t`) is a natural number below 256; the XOR of two
bytes is a byte, so no narrowing is needed.  A C++ `int` is an `Int`; the one
conversion of an `int` to `size_t` whose wrap-around changes the outcome (the
search key of `std::lower_bound`) is written with an explicit `% 2 ^ 64`.
Positions are computed in `Int`: a position that would overflow `int` is
beyond every buffer, whose size is an `int`, and is rejected as out of range.
A function that takes a `ByteArray&` returns the new contents of the array.
Element access outside a vector, which C++ leaves undefined, ends the
computation with `Error.undefined`.
-/

namespace ZXing.DataMatrix

/-- Modelled from the spec: `ByteArray.h` is not part of the sources.  A
`ByteArray` is a `std::vector<uint8_t>`: a sequence of bytes. -/
abbrev ByteArray := List Nat

/-- Every element of the array is a byte. -/
def IsBytes (v : ByteArray) : Prop := ∀ x ∈ v, x < 256

instance (v : ByteArray) : Decidable (IsBytes v) := by
  unfold IsBytes; infer_instance

/-- The ways a call can end other than by returning: the two C++ exceptions
that occur (`std::invalid_argument` with its message, and the
`std::length_error` of a `resize` to a negative count converted to `size_t`),
and undefined behaviour (an access outside a vector). -/
inductive Error where
  | invalid_argument (what : String)
  | length_error
  | undefined
  deriving DecidableEq, Repr

/-- Modelled from the spec: `DMSymbolInfo.h` is not part of the sources.  The
symbol descriptor is read only through its six accessors, each returning an
`int`; the descriptor is the record of what they return. -/
structure SymbolInfo where
  dataCapacity : Int
  codewordCount : Int
  interleavedBlockCount : Int
  dataLengthForInterleavedBlock : Int → Int
  errorCodewords : Int
  errorLengthForInterleavedBlock : Int

/-- Precomputed polynomial factors for ECC 200. -/
def FACTORS : List ByteArray := [
  /- set  1 -/ [
    228, 48, 15, 111, 62],
  /- set  2 -/ [
    23, 68, 144, 134, 240, 92, 254],
  /- set  3 -/ [
    28, 24, 185, 166, 223, 248, 116, 255, 110, 61],
  /- set  4 -/ [
    175, 138, 205, 12, 194, 168, 39, 245, 60, 97, 120],
  /- set  5 -/ [
    41, 153, 158, 91, 61, 42, 142, 213, 97, 178, 100, 242],
  /- set  6 -/ [
    156, 97, 192, 252, 95, 9, 157, 119, 138, 45, 18, 186, 83, 185],
  /- set  7 -/ [
    83, 195, 100, 39, 188, 75, 66, 61, 241, 213, 109, 129, 94, 254, 225, 48, 90, 188],
  /- set  8 -/ [
    15, 195, 244, 9, 233, 71, 168, 2, 188, 160, 153, 145, 253, 79, 108, 82, 27, 174, 186, 172],
  /- set  9 -/ [
    52, 190, 88, 205, 109, 39, 176, 21, 155, 197, 251, 223, 155, 21, 5, 172, 254, 124, 12, 181,
    184, 96, 50, 193],
  /- set 10 -/ [
    211, 231, 43, 97, 71, 96, 103, 174, 37, 151, 170, 53, 75, 34, 249, 121, 17, 138, 110, 213,
    141, 136, 120, 151, 233, 168, 93, 255],
  /- set 11 -/ [
    245, 127, 242, 218, 130, 250, 162, 181, 102, 120, 84, 179, 220, 251, 80, 182, 229, 18, 2, 4,
    68, 33, 101, 137, 95, 119, 115, 44, 175, 184, 59, 25, 225, 98, 81, 112],
  /- set 12 -/ [
    77, 193, 137, 31, 19, 38, 22, 153, 247, 105, 122, 2, 245, 133, 242, 8, 175, 95, 100, 9,
    167, 105, 214, 111, 57, 121, 21, 1, 253, 57, 54, 101, 248, 202, 69, 50, 150, 177, 226, 5,
    9, 5],
  /- set 13 -/ [
    245, 132, 172, 223, 96, 32, 117, 22, 238, 133, 238, 231, 205, 188, 237, 87, 191, 106, 16, 147,
    118, 23, 37, 90, 170, 205, 131, 88, 120, 100, 66, 138, 186, 240, 82, 44, 176, 87, 187, 147,
    160, 175, 69, 213, 92, 253, 225, 19],
  /- set 14 -/ [
    175, 9, 223, 238, 12, 17, 220, 208, 100, 29, 175, 170, 230, 192, 215, 235, 150, 159, 36, 223,
    38, 200, 132, 54, 228, 146, 218, 234, 117, 203, 29, 232, 144, 238, 22, 150, 201, 117, 62, 207,
    164, 13, 137, 245, 127, 67, 247, 28, 155, 43, 203, 107, 233, 53, 143, 46],
  /- set 15 -/ [
    242, 93, 169, 50, 144, 210, 39, 118, 202, 188, 201, 189, 143, 108, 196, 37, 185, 112, 134, 230,
    245, 63, 197, 190, 250, 106, 185, 221, 175, 64, 114, 71, 161, 44, 147, 6, 27, 218, 51, 63,
    87, 10, 40, 130, 188, 17, 163, 31, 176, 170, 4, 107, 232, 7, 94, 166, 224, 124, 86, 47,
    11, 204],
  /- set 16 -/ [
    220, 228, 173, 89, 251, 149, 159, 56, 89, 33, 147, 244, 154, 36, 73, 127, 213, 136, 248, 180,
    234, 197, 158, 177, 68, 122, 93, 213, 15, 160, 227, 236, 66, 139, 153, 185, 202, 167, 179, 25,
    220, 232, 96, 210, 231, 136, 223, 239, 181, 241, 59, 52, 172, 25, 49, 232, 211, 189, 64, 54,
    108, 153, 132, 63, 96, 103, 82, 186]
]

def LOG : List Nat := [
    0, 255, 1, 240, 2, 225, 241, 53, 3, 38, 226, 133, 242, 43, 54, 210,
    4, 195, 39, 114, 227, 106, 134, 28, 243, 140, 44, 23, 55, 118, 211, 234,
    5, 219, 196, 96, 40, 222, 115, 103, 228, 78, 107, 125, 135, 8, 29, 162,
    244, 186, 141, 180, 45, 99, 24, 49, 56, 13, 119, 153, 212, 199, 235, 91,
    6, 76, 220, 217, 197, 11, 97, 184, 41, 36, 223, 253, 116, 138, 104, 193,
    229, 86, 79, 171, 108, 165, 126, 145, 136, 34, 9, 74, 30, 32, 163, 84,
    245, 173, 187, 204, 142, 81, 181, 190, 46, 88, 100, 159, 25, 231, 50, 207,
    57, 147, 14, 67, 120, 128, 154, 248, 213, 167, 200, 63, 236, 110, 92, 176,
    7, 161, 77, 124, 221, 102, 218, 95, 198, 90, 12, 152, 98, 48, 185, 179,
    42, 209, 37, 132, 224, 52, 254, 239, 117, 233, 139, 22, 105, 27, 194, 113,
    230, 206, 87, 158, 80, 189, 172, 203, 109, 175, 166, 62, 127, 247, 146, 66,
    137, 192, 35, 252, 10, 183, 75, 216, 31, 83, 33, 73, 164, 144, 85, 170,
    246, 65, 174, 61, 188, 202, 205, 157, 143, 169, 82, 72, 182, 215, 191, 251,
    47, 178, 89, 151, 101, 94, 160, 123, 26, 112, 232, 21, 51, 238, 208, 131,
    58, 69, 148, 18, 15, 16, 68, 17, 121, 149, 129, 19, 155, 59, 249, 70,
    214, 250, 168, 71, 201, 156, 64, 60, 237, 130, 111, 20, 93, 122, 177, 150]

def ALOG : List Nat := [
    1, 2, 4, 8, 16, 32, 64, 128, 45, 90, 180, 69, 138, 57, 114, 228,
    229, 231, 227, 235, 251, 219, 155, 27, 54, 108, 216, 157, 23, 46, 92, 184,
    93, 186, 89, 178, 73, 146, 9, 18, 36, 72, 144, 13, 26, 52, 104, 208,
    141, 55, 110, 220, 149, 7, 14, 28, 56, 112, 224, 237, 247, 195, 171, 123,
    246, 193, 175, 115, 230, 225, 239, 243, 203, 187, 91, 182, 65, 130, 41, 82,
    164, 101, 202, 185, 95, 190, 81, 162, 105, 210, 137, 63, 126, 252, 213, 135,
    35, 70, 140, 53, 106, 212, 133, 39, 78, 156, 21, 42, 84, 168, 125, 250,
    217, 159, 19, 38, 76, 152, 29, 58, 116, 232, 253, 215, 131, 43, 86, 172,
    117, 234, 249, 223, 147, 11, 22, 44, 88, 176, 77, 154, 25, 50, 100, 200,
    189, 87, 174, 113, 226, 233, 255, 211, 139, 59, 118, 236, 245, 199, 163, 107,
    214, 129, 47, 94, 188, 85, 170, 121, 242, 201, 191, 83, 166, 97, 194, 169,
    127, 254, 209, 143, 51, 102, 204, 181, 71, 142, 49, 98, 196, 165, 103, 206,
    177, 79, 158, 17, 34, 68, 136, 61, 122, 244, 197, 167, 99, 198, 161, 111,
    222, 145, 15, 30, 60, 120, 240, 205, 183, 67, 134, 33, 66, 132, 37, 74,
    148, 5, 10, 20, 40, 80, 160, 109, 218, 153, 31, 62, 124, 248, 221, 151,
    3, 6, 12, 24, 48, 96, 192, 173, 119, 238, 241, 207, 179, 75, 150, 1]

/-- The message of the exception thrown when no factor set is found:
the text, then `std::to_string (eccLength)`. -/
def illegalCountMessage (eccLength : Int) : String :=
  "Illegal number of error correction codewords specified: " ++ toString eccLength

/-- The message of the exception thrown by the size test of `EncodeECC200`. -/
def mismatchMessage : String := "The number of codewords does not match the selected symbol"

/-- Field multiplication through the logarithm tables. -/
def mult (a b : Nat) : Nat :=
  if a == 0 || b == 0 then 0
  else ALOG.getD ((LOG.getD a 0 + LOG.getD b 0) % 255) 0

/-- Conversion of an `int` to the 64-bit `size_t`. -/
def toSizeT (n : Int) : Nat := (n % 2 ^ 64).toNat

/-- The loop of `std::lower_bound`: halve the range `[first, first + len)`
until it is empty. -/
def lower_bound_loop {α β : Type} (v : List α) (value : β) (comp : α → β → Bool) :
    Nat → Nat → Nat → Nat
  | 0, first, _ => first
  | fuel + 1, first, len =>
    if len = 0 then first
    else
      let half := len / 2
      let middle := first + half
      match v.get? middle with
      | none => first
      | some x =>
        if comp x value then lower_bound_loop v value comp fuel (middle + 1) (len - half - 1)
        else lower_bound_loop v value comp fuel first half

/-- Binary search `std::lower_bound (v.begin (), v.end (), value, comp)`; the
iterator is returned as an index, `v.length` standing for `v.end ()`. -/
def lower_bound {α β : Type} (v : List α) (value : β) (comp : α → β → Bool) : Nat :=
  lower_bound_loop v value comp v.length 0 v.length

/-- Read `data[idx]`. -/
def readAt (data : ByteArray) (idx : Int) : Except Error Nat :=
  if 0 ≤ idx ∧ idx < data.length then .ok (data.getD idx.toNat 0) else .error .undefined

/-- Assign `data[idx] = value`. -/
def writeAt (data : ByteArray) (idx : Int) (value : Nat) : Except Error ByteArray :=
  if 0 ≤ idx ∧ idx < data.length then .ok (data.set idx.toNat value) else .error .undefined

/-- The loop `for (size_t k = ecc.size () - 1; k > 0; k--)
ecc[k] = ecc[k - 1] ^ mult (m, poly[k])`, started at its first argument. -/
def shiftLoop (poly : ByteArray) (m : Nat) : Nat → ByteArray → ByteArray
  | 0, ecc => ecc
  | k + 1, ecc =>
    shiftLoop poly m k (ecc.set (k + 1) (ecc.getD k 0 ^^^ mult m (poly.getD (k + 1) 0)))

/-- The body of the loop over the data codewords of `CreateECCBlock`, for
the index `i`. -/
def dataStep (data poly : ByteArray) (codeOffset stride : Int) (ecc : ByteArray) (i : Nat) :
    Except Error ByteArray :=
  match ecc.getLast? with
  | none => .error .undefined
  | some back =>
    match readAt data (codeOffset + i * stride) with
    | .error e => .error e
    | .ok d =>
      let m := back ^^^ d
      let ecc := shiftLoop poly m (ecc.length - 1) ecc
      .ok (ecc.set 0 (mult m (poly.getD 0 0)))

/-- The loop over the data codewords: the register `ecc` after it. -/
def dataLoop (data poly : ByteArray) (codeOffset codeLength eccLength stride : Int) :
    Except Error ByteArray :=
  (List.range codeLength.toNat).foldlM (dataStep data poly codeOffset stride)
    (List.replicate eccLength.toNat 0)

/-- The body of the loop that stores the register, for the index `i`. -/
def writeStep (ecc : ByteArray) (eccOffset eccLength stride : Int) (data : ByteArray) (i : Nat) :
    Except Error ByteArray :=
  writeAt data (eccOffset + i * stride) (ecc.getD (eccLength - 1 - i).toNat 0)

/-- The loop that stores the register at the error-correction positions. -/
def writeLoop (ecc : ByteArray) (eccOffset eccLength stride : Int) (data : ByteArray) :
    Except Error ByteArray :=
  (List.range eccLength.toNat).foldlM (writeStep ecc eccOffset eccLength stride) data

/-- The search of `CreateECCBlock` for the factor set: the index into
`FACTORS`, or the exception. -/
def findFactors (eccLength : Int) : Except Error Nat :=
  let iter := lower_bound FACTORS (toSizeT eccLength) (fun vec size => decide (vec.length < size))
  if iter = FACTORS.length then
    .error (.invalid_argument (illegalCountMessage eccLength))
  else .ok iter

/-- The function `CreateECCBlock`: the contents of `data` after the call.  When
the exception is thrown `data` has not been touched. -/
def CreateECCBlock (data : ByteArray) (codeOffset codeLength eccOffset eccLength stride : Int) :
    Except Error ByteArray :=
  match findFactors eccLength with
  | .error e => .error e
  | .ok iter =>
    let poly := FACTORS.getD iter []
    match dataLoop data poly codeOffset codeLength eccLength stride with
    | .error e => .error e
    | .ok ecc => writeLoop ecc eccOffset eccLength stride data

/-- The call `v.resize (count, 0)` with an `int` count: a negative count
converts to a `size_t` above `max_size ()`. -/
def resize (v : ByteArray) (count : Int) : Except Error ByteArray :=
  if count < 0 then .error .length_error
  else .ok (v.take count.toNat ++ List.replicate (count.toNat - v.length) 0)

/-- The loop over the interleaved blocks of `EncodeECC200`, for the block
numbers listed: how it ends, and the contents of `codewords` then. -/
def blockLoop (symbolInfo : SymbolInfo) (blockCount : Int) :
    List Nat → ByteArray → Except Error Unit × ByteArray
  | [], codewords => (.ok (), codewords)
  | block :: rest, codewords =>
    match CreateECCBlock codewords block (symbolInfo.dataLengthForInterleavedBlock (block + 1))
        (symbolInfo.dataCapacity + block) symbolInfo.errorLengthForInterleavedBlock blockCount with
    | .error e => (.error e, codewords)
    | .ok codewords => blockLoop symbolInfo blockCount rest codewords

/-- The function `EncodeECC200`: how the call ends, and the contents of
`codewords` then.  The size test compares a vector size, which is below
`2 ^ 63`, with an `int` converted to `size_t`; a negative `int` converts to a
value no size reaches, so the two differ exactly when the integers do. -/
def EncodeECC200 (codewords : ByteArray) (symbolInfo : SymbolInfo) :
    Except Error Unit × ByteArray :=
  if (codewords.length : Int) ≠ symbolInfo.dataCapacity then
    (.error (.invalid_argument mismatchMessage), codewords)
  else
    match resize codewords symbolInfo.codewordCount with
    | .error e => (.error e, codewords)
    | .ok codewords =>
      let blockCount := symbolInfo.interleavedBlockCount
      if blockCount = 1 then
        match CreateECCBlock codewords 0 symbolInfo.dataCapacity symbolInfo.dataCapacity
            symbolInfo.errorCodewords 1 with
        | .error e => (.error e, codewords)
        | .ok codewords => (.ok (), codewords)
      else
        blockLoop symbolInfo blockCount (List.range blockCount.toNat) codewords

/-- One round of the shift register of `CreateECCBlock` on the data byte `d`:
the value of `ecc` after the round. -/
def lfsrStep (poly ecc : ByteArray) (d : Nat) : ByteArray :=
  (shiftLoop poly (ecc.getLastD 0 ^^^ d) (ecc.length - 1) ecc).set 0
    (mult (ecc.getLastD 0 ^^^ d) (poly.getD 0 0))

/-- The shift register after the bytes `ds` have been fed into it, starting
from `eccLength` zeros. -/
def lfsr (poly : ByteArray) (eccLength : Nat) (ds : ByteArray) : ByteArray :=
  ds.foldl (lfsrStep poly) (List.replicate eccLength 0)

/-- The bytes `data[codeOffset + i * stride]` for `i < count`, in order. -/
def strided (data : ByteArray) (codeOffset stride : Int) (count : Nat) : ByteArray :=
  (List.range count).map (fun (i : Nat) => data.getD (codeOffset + (i : Int) * stride).toNat 0)


/-! ## The field GF(256) of Data Matrix, stated independently of the tables

A byte stands for the polynomial over GF(2) whose coefficient of `x ^ i` is
bit `i`.  The field is GF(2)[x] modulo `x^8 + x^5 + x^3 + x^2 + 1`, the
polynomial written 301 (0x12D). -/

/-- The carry-less product of `a` by the low `n` bits of `b`: the XOR of the
`a <<< i` over the bits `i < n` set in `b`. -/
def clmulLoop (a b : Nat) : Nat → Nat
  | 0 => 0
  | i + 1 => clmulLoop a b i ^^^ (if b.testBit i then a <<< i else 0)

/-- The carry-less product of `a` by the byte `b`. -/
def clmul (a b : Nat) : Nat := clmulLoop a b 8

/-- Reduction modulo 301 of a polynomial of degree below `n + 8`: from the
top, each set bit `i + 8` is cancelled by adding `301 <<< i`. -/
def reduceLoop : Nat → Nat → Nat
  | 0, x => x
  | i + 1, x => reduceLoop i (if x.testBit (i + 8) then x ^^^ (301 <<< i) else x)

/-- The product in GF(256) of two bytes: their carry-less product, of degree at
most 14, reduced modulo 301. -/
def gfMul (a b : Nat) : Nat := reduceLoop 7 (clmul a b)

/-- The power `g ^ i` in GF(256). -/
def gfPow (g i : Nat) : Nat := (gfMul g)^[i] 1

/-- The XOR of the `f i` over the bits `i < n` set in `b`. -/
def xorBits (f : Nat → Nat) (b : Nat) : Nat → Nat
  | 0 => 0
  | i + 1 => xorBits f b i ^^^ (if b.testBit i then f i else 0)

/-- Each element of the list after the first is `gfMul 2` of the one before. -/
def doublingChain : List Nat → Bool
  | a :: b :: rest => (b == gfMul 2 a) && doublingChain (b :: rest)
  | _ => true

/-! ## Polynomials over GF(256), and the remainder of a division

A polynomial is the list of its coefficients, the coefficient of `x ^ k` at
index `k`; coefficients are added with XOR and multiplied with `mult`. -/

/-- A polynomial over GF(256): the coefficient of `x ^ k` is at index `k`. -/
abbrev Poly := List Nat

/-- The sum of two polynomials. -/
def polyAdd (p q : Poly) : Poly :=
  (List.range (max p.length q.length)).map (fun k => p.getD k 0 ^^^ q.getD k 0)

/-- The product of a polynomial by the constant `c`. -/
def polyScale (c : Nat) (p : Poly) : Poly := p.map (mult c)

/-- The product of a polynomial by `x ^ n`. -/
def polyShift (n : Nat) (p : Poly) : Poly := List.replicate n 0 ++ p

/-- The polynomial `D(x)` of the data bytes `d_0 .. d_(m-1)`: the sum of the
`d_i x ^ (m - 1 - i)`. -/
def dataPoly (d : ByteArray) : Poly := d.reverse

/-- The polynomial `g(x)` of a factor set: `x ^ n` plus the sum of the
`poly[k] x ^ k`. -/
def generator (poly : ByteArray) : Poly := poly ++ [1]

/-- One step of the long division of `a` by the monic polynomial `g`: with `c`
the leading coefficient of `a`, add `c x ^ s g` to `a`, where `s` is the
difference of the degrees, and drop the leading term, which this cancels. -/
def polyModStep (g a : Poly) : Poly :=
  (polyAdd a (polyShift (a.length - g.length) (polyScale (a.getLastD 0) g))).dropLast

/-- The remainder of the division of `a` by the monic polynomial `g`: the
division step is taken once for each term of `a` of degree at least that of
`g`. -/
def polyMod (a g : Poly) : Poly := (polyModStep g)^[a.length + 1 - g.length] a

/-- The product of two polynomials. -/
def polyMul : Poly → Poly → Poly
  | [], _ => []
  | c :: q, g => polyAdd (polyScale c g) (polyShift 1 (polyMul q g))

/-! ## Table reads of `mult`, and the first entry not shorter -/

/-- A read of one of the two field tables, with the index read. -/
inductive TableRead where
  | LOG (index : Nat)
  | ALOG (index : Nat)
  deriving DecidableEq, Repr

/-- The function `mult` with the table reads it performs, in order: none when
an operand is 0, else `LOG[a]`, `LOG[b]` and the entry of `ALOG`. -/
def multTraced (a b : Nat) : Nat × List TableRead :=
  if a == 0 || b == 0 then (0, [])
  else
    (ALOG.getD ((LOG.getD a 0 + LOG.getD b 0) % 255) 0,
      [.LOG a, .LOG b, .ALOG ((LOG.getD a 0 + LOG.getD b 0) % 255)])

/-- The index of the first entry of `FACTORS` whose length is at least `n`. -/
def firstNotShorter (n : Nat) : Nat := FACTORS.findIdx (fun vec => decide (n ≤ vec.length))

/-- The bytewise XOR of two buffers. -/
def xorBytes (u v : ByteArray) : ByteArray := List.zipWith (fun a b => a ^^^ b) u v

/-! ## Powers, products of linear factors and values of polynomials -/

/-- The power `g ^ j` under `mult`. -/
def powMult (g j : Nat) : Nat := (mult g)^[j] 1

/-- The product of the `x + 2 ^ j` for `j` from 1 to `n`, the powers of 2 and
the product of polynomials being those of `mult`. -/
def rsGenerator (n : Nat) : Poly :=
  (List.range n).foldl (fun p j => polyMul p [powMult 2 (j + 1), 1]) [1]

/-- The product of the polynomial `p` by `x + α`, coefficient by coefficient. -/
def mulLinear (α : Nat) (p : Poly) : Poly :=
  List.zipWith (fun a b => a ^^^ b) (0 :: p) (p.map (fun c => mult c α) ++ [0])

/-- A table of bytes packed into one number, entry `i` in bits `8 i` to
`8 i + 7`. -/
def packTable (table : List Nat) : Nat := table.foldr (fun x acc => x + 256 * acc) 0

/-- Entry `i` of a packed table. -/
def packedEntry (packed i : Nat) : Nat := (packed >>> (8 * i)) % 256

/-- The product of the coefficient `c` by `2 ^ j`, through the logarithm of
`c`, on the packed tables. -/
def scaleByPow (log alog j c : Nat) : Nat :=
  if c = 0 then 0 else packedEntry alog ((packedEntry log c + j) % 255)

/-- The product of the polynomial `p` by `x + 2 ^ j`, coefficient by
coefficient, through the logarithms. -/
def mulLinearLog (log alog j : Nat) (p : Poly) : Poly :=
  List.zipWith (fun a b => a ^^^ b) (0 :: p) (p.map (scaleByPow log alog j) ++ [0])

/-- A single pass over the table: starting from the polynomial `p`, the
product of the `x + 2 ^ i` for `i` from 1 to `j`, multiply by the next factors
in turn and compare with each entry when the degrees agree. -/
def generatorChain (log alog : Nat) : Nat → Nat → Poly → List ByteArray → Bool
  | 0, _, _, entries => entries.isEmpty
  | _ + 1, _, _, [] => true
  | fuel + 1, j, p, e :: rest =>
    if p.length = e.length + 1 then (p == generator e) && generatorChain log alog fuel j p rest
    else generatorChain log alog fuel (j + 1) (mulLinearLog log alog (j + 1) p) (e :: rest)

/-- The value at `x` of the polynomial `p`, by Horner's rule. -/
def polyEval : Poly → Nat → Nat
  | [], _ => 0
  | c :: p, x => c ^^^ mult x (polyEval p x)

/-- The value at `x` of a codeword `c_0 .. c_(N-1)` read as the polynomial
`C(x)`, the sum of the `c_i x ^ (N - 1 - i)`. -/
def codewordEval : ByteArray → Nat → Nat
  | [], _ => 0
  | c :: rest, x => mult c (powMult x rest.length) ^^^ codewordEval rest x

/-! ## The encoder with every table and register access checked

The same functions, in which a read of `LOG`, `ALOG` or `FACTORS`, and a read
or an assignment of the register `ecc`, outside the bounds of the table or of
the register ends the computation with `Error.undefined`, as an access outside
the buffer does. -/

/-- Read `table[i]`, checked. -/
def tableAt (table : List Nat) (i : Nat) : Except Error Nat :=
  match table.get? i with
  | some x => .ok x
  | none => .error .undefined

/-- The function `mult`, its three table reads checked. -/
def multChecked (a b : Nat) : Except Error Nat :=
  if a == 0 || b == 0 then .ok 0
  else
    match tableAt LOG a with
    | .error e => .error e
    | .ok la =>
      match tableAt LOG b with
      | .error e => .error e
      | .ok lb => tableAt ALOG ((la + lb) % 255)

/-- The inner loop of `CreateECCBlock`, its reads of `ecc[k - 1]` and
`poly[k]` and its assignment of `ecc[k]` checked. -/
def shiftLoopChecked (poly : ByteArray) (m : Nat) : Nat → ByteArray → Except Error ByteArray
  | 0, ecc => .ok ecc
  | k + 1, ecc =>
    match tableAt ecc k with
    | .error e => .error e
    | .ok prev =>
      match tableAt poly (k + 1) with
      | .error e => .error e
      | .ok coeff =>
        match multChecked m coeff with
        | .error e => .error e
        | .ok prod =>
          match writeAt ecc ((k + 1 : Nat) : Int) (prev ^^^ prod) with
          | .error e => .error e
          | .ok ecc => shiftLoopChecked poly m k ecc

/-- The body of the loop over the data codewords, every access checked. -/
def dataStepChecked (data poly : ByteArray) (codeOffset stride : Int) (ecc : ByteArray)
    (i : Nat) : Except Error ByteArray :=
  match ecc.getLast? with
  | none => .error .undefined
  | some back =>
    match readAt data (codeOffset + i * stride) with
    | .error e => .error e
    | .ok d =>
      match shiftLoopChecked poly (back ^^^ d) (ecc.length - 1) ecc with
      | .error e => .error e
      | .ok ecc =>
        match tableAt poly 0 with
        | .error e => .error e
        | .ok coeff =>
          match multChecked (back ^^^ d) coeff with
          | .error e => .error e
          | .ok prod => writeAt ecc 0 prod

/-- The loop over the data codewords, every access checked. -/
def dataLoopChecked (data poly : ByteArray) (codeOffset codeLength eccLength stride : Int) :
    Except Error ByteArray :=
  (List.range codeLength.toNat).foldlM (dataStepChecked data poly codeOffset stride)
    (List.replicate eccLength.toNat 0)

/-- The body of the storing loop, its read of `ecc[eccLength - 1 - i]`
checked. -/
def writeStepChecked (ecc : ByteArray) (eccOffset eccLength stride : Int) (data : ByteArray)
    (i : Nat) : Except Error ByteArray :=
  match readAt ecc (eccLength - 1 - i) with
  | .error e => .error e
  | .ok r => writeAt data (eccOffset + i * stride) r

/-- The storing loop, every access checked. -/
def writeLoopChecked (ecc : ByteArray) (eccOffset eccLength stride : Int) (data : ByteArray) :
    Except Error ByteArray :=
  (List.range eccLength.toNat).foldlM (writeStepChecked ecc eccOffset eccLength stride) data

/-- The function `CreateECCBlock`, every access checked. -/
def CreateECCBlockChecked (data : ByteArray)
    (codeOffset codeLength eccOffset eccLength stride : Int) : Except Error ByteArray :=
  match findFactors eccLength with
  | .error e => .error e
  | .ok iter =>
    match FACTORS.get? iter with
    | none => .error .undefined
    | some poly =>
      match dataLoopChecked data poly codeOffset codeLength eccLength stride with
      | .error e => .error e
      | .ok ecc => writeLoopChecked ecc eccOffset eccLength stride data

/-- The loop over the interleaved blocks, every access checked. -/
def blockLoopChecked (symbolInfo : SymbolInfo) (blockCount : Int) :
    List Nat → ByteArray → Except Error Unit × ByteArray
  | [], codewords => (.ok (), codewords)
  | block :: rest, codewords =>
    match CreateECCBlockChecked codewords block
        (symbolInfo.dataLengthForInterleavedBlock (block + 1))
        (symbolInfo.dataCapacity + block) symbolInfo.errorLengthForInterleavedBlock blockCount with
    | .error e => (.error e, codewords)
    | .ok codewords => blockLoopChecked symbolInfo blockCount rest codewords

/-- The function `EncodeECC200`, every access checked. -/
def EncodeECC200Checked (codewords : ByteArray) (symbolInfo : SymbolInfo) :
    Except Error Unit × ByteArray :=
  if (codewords.length : Int) ≠ symbolInfo.dataCapacity then
    (.error (.invalid_argument mismatchMessage), codewords)
  else
    match resize codewords symbolInfo.codewordCount with
    | .error e => (.error e, codewords)
    | .ok codewords =>
      let blockCount := symbolInfo.interleavedBlockCount
      if blockCount = 1 then
        match CreateECCBlockChecked codewords 0 symbolInfo.dataCapacity symbolInfo.dataCapacity
            symbolInfo.errorCodewords 1 with
        | .error e => (.error e, codewords)
        | .ok codewords => (.ok (), codewords)
      else
        blockLoopChecked symbolInfo blockCount (List.range blockCount.toNat) codewords

/-! ## Outcomes can be compared -/

deriving instance DecidableEq for Except

/-! ## Basic facts about the buffer operations -/

theorem readAt_eq_ok {data : ByteArray} {idx : Int} {x : Nat} (h : readAt data idx = .ok x) :
    0 ≤ idx ∧ idx < data.length ∧ x = data.getD idx.toNat 0 := by
  unfold readAt at h
  split at h
  · rename_i hr
    simp only [Except.ok.injEq] at h
    exact ⟨hr.1, hr.2, h.symm⟩
  · simp at h

theorem readAt_of_lt {data : ByteArray} {idx : Int} (h0 : 0 ≤ idx) (h1 : idx < data.length) :
    readAt data idx = .ok (data.getD idx.toNat 0) := by
  simp [readAt, h0, h1]

theorem writeAt_eq_ok {data out : ByteArray} {idx : Int} {x : Nat} (h : writeAt data idx x = .ok out) :
    0 ≤ idx ∧ idx < data.length ∧ out = data.set idx.toNat x := by
  unfold writeAt at h
  split at h
  · rename_i hr
    simp only [Except.ok.injEq] at h
    exact ⟨hr.1, hr.2, h.symm⟩
  · simp at h

theorem writeAt_of_lt {data : ByteArray} {idx : Int} (x : Nat) (h0 : 0 ≤ idx)
    (h1 : idx < data.length) : writeAt data idx x = .ok (data.set idx.toNat x) := by
  simp [writeAt, h0, h1]

theorem writeAt_ne_invalid {data : ByteArray} {idx : Int} {x : Nat} {s : String} :
    writeAt data idx x ≠ .error (.invalid_argument s) := by
  unfold writeAt
  split <;> simp

theorem foldlM_range_succ {α : Type} (f : α → Nat → Except Error α) (n : Nat) (a : α) :
    (List.range (n + 1)).foldlM f a = (List.range n).foldlM f a >>= fun b => f b n := by
  rw [List.range_succ, List.foldlM_append]
  simp



theorem getD_set (l : List Nat) (i j v : Nat) :
    (l.set i v).getD j 0 = if i = j ∧ i < l.length then v else l.getD j 0 := by
  simp only [List.getD_eq_getElem?_getD, List.getElem?_set]
  by_cases hij : i = j
  · subst hij
    by_cases hl : i < l.length
    · simp [hl]
    · simp [hl, List.getElem?_eq_none (Nat.le_of_not_lt hl)]
  · simp [hij]

/-! ## The loop that stores the register -/

/-- What is known of the buffer once the first `n` rounds of the storing loop
have succeeded. -/
theorem writeLoop_prefix_ok (ecc : ByteArray) (eccOffset eccLength stride : Int) (data : ByteArray) :
    ∀ (n : Nat) (out : ByteArray),
      (List.range n).foldlM (writeStep ecc eccOffset eccLength stride) data = .ok out →
      out.length = data.length ∧
      (∀ i : Nat, i < n → 0 ≤ eccOffset + i * stride ∧ eccOffset + i * stride < data.length) ∧
      (∀ p : Nat, (∀ i : Nat, i < n → eccOffset + i * stride ≠ p) → out.getD p 0 = data.getD p 0) ∧
      (stride ≠ 0 → ∀ i : Nat, i < n →
        out.getD (eccOffset + i * stride).toNat 0 = ecc.getD (eccLength - 1 - i).toNat 0) := by
  intro n
  induction n with
  | zero =>
    intro out h
    simp only [List.range_zero, List.foldlM_nil, pure, Except.pure, Except.ok.injEq] at h
    subst h
    simp
  | succ n ih =>
    intro out h
    rw [foldlM_range_succ] at h
    cases hprev : (List.range n).foldlM (writeStep ecc eccOffset eccLength stride) data with
    | error e => rw [hprev] at h; simp [bind, Except.bind] at h
    | ok mid =>
      rw [hprev] at h
      simp only [bind, Except.bind, writeStep] at h
      obtain ⟨hlen, hrange, hframe, hval⟩ := ih mid hprev
      obtain ⟨h0, h1, hout⟩ := writeAt_eq_ok h
      subst hout
      refine ⟨by simp [hlen], ?_, ?_, ?_⟩
      · intro i hi
        rcases Nat.lt_succ_iff_lt_or_eq.mp hi with hi | hi
        · exact hrange i hi
        · subst hi; rw [hlen] at h1; exact ⟨h0, h1⟩
      · intro p hp
        rw [getD_set]
        have hne : ¬ ((eccOffset + (n : Int) * stride).toNat = p) := by
          intro hc
          apply hp n (Nat.lt_succ_self n)
          omega
        simp only [hne, false_and, if_false]
        exact hframe p (fun i hi => hp i (Nat.lt_succ_of_lt hi))
      · intro hs i hi
        rw [getD_set]
        rcases Nat.lt_succ_iff_lt_or_eq.mp hi with hi | hi
        · have hne : ¬ ((eccOffset + (n : Int) * stride).toNat = (eccOffset + (i : Int) * stride).toNat) := by
            intro hc
            have hr := hrange i hi
            have hmul : (n : Int) * stride = (i : Int) * stride := by omega
            have := mul_right_cancel₀ hs hmul
            omega
          simp only [hne, false_and, if_false]
          exact hval hs i hi
        · subst hi
          have hlt : (eccOffset + (i : Int) * stride).toNat < mid.length := by omega
          simp [hlt]

/-- The storing loop succeeds when every position it assigns is inside the
buffer. -/
theorem writeLoop_prefix_succeeds (ecc : ByteArray) (eccOffset eccLength stride : Int)
    (data : ByteArray) :
    ∀ n : Nat,
      (∀ i : Nat, i < n → 0 ≤ eccOffset + i * stride ∧ eccOffset + i * stride < data.length) →
      ∃ out, (List.range n).foldlM (writeStep ecc eccOffset eccLength stride) data = .ok out := by
  intro n
  induction n with
  | zero => intro _; exact ⟨data, rfl⟩
  | succ n ih =>
    intro hr
    obtain ⟨mid, hmid⟩ := ih (fun i hi => hr i (Nat.lt_succ_of_lt hi))
    have hlen := (writeLoop_prefix_ok ecc eccOffset eccLength stride data n mid hmid).1
    have hn := hr n (Nat.lt_succ_self n)
    rw [foldlM_range_succ, hmid]
    simp only [bind, Except.bind, writeStep]
    rw [← hlen] at hn
    exact ⟨_, writeAt_of_lt _ hn.1 hn.2⟩

theorem writeLoop_ne_invalid (ecc : ByteArray) (eccOffset eccLength stride : Int)
    (data : ByteArray) (s : String) :
    ∀ n : Nat, (List.range n).foldlM (writeStep ecc eccOffset eccLength stride) data
      ≠ .error (.invalid_argument s) := by
  intro n
  induction n with
  | zero => simp [pure, Except.pure]
  | succ n ih =>
    rw [foldlM_range_succ]
    cases hprev : (List.range n).foldlM (writeStep ecc eccOffset eccLength stride) data with
    | error e =>
      simp only [bind, Except.bind]
      intro hc
      rw [hprev] at ih
      exact ih hc
    | ok mid =>
      simp only [bind, Except.bind, writeStep]
      exact writeAt_ne_invalid

/-! ## The loop over the data codewords -/

theorem shiftLoop_length (poly : ByteArray) (m : Nat) :
    ∀ (k : Nat) (ecc : ByteArray), (shiftLoop poly m k ecc).length = ecc.length := by
  intro k
  induction k with
  | zero => intro ecc; rfl
  | succ k ih => intro ecc; simp [shiftLoop, ih]

theorem lfsrStep_length (poly ecc : ByteArray) (d : Nat) :
    (lfsrStep poly ecc d).length = ecc.length := by
  simp [lfsrStep, shiftLoop_length]

theorem lfsr_length (poly : ByteArray) (eccLength : Nat) (ds : ByteArray) :
    (lfsr poly eccLength ds).length = eccLength := by
  unfold lfsr
  have h : ∀ (ds ecc : ByteArray), (ds.foldl (lfsrStep poly) ecc).length = ecc.length := by
    intro ds
    induction ds with
    | nil => intro ecc; rfl
    | cons d ds ih => intro ecc; simp [List.foldl_cons, ih, lfsrStep_length]
  rw [h]; simp

theorem strided_succ (data : ByteArray) (codeOffset stride : Int) (n : Nat) :
    strided data codeOffset stride (n + 1)
      = strided data codeOffset stride n ++ [data.getD (codeOffset + (n : Int) * stride).toNat 0] := by
  simp [strided, List.range_succ]

theorem dataStep_of_read {data poly ecc : ByteArray} {codeOffset stride : Int} {i : Nat}
    (hecc : ecc ≠ [])
    (h0 : 0 ≤ codeOffset + (i : Int) * stride) (h1 : codeOffset + (i : Int) * stride < data.length) :
    dataStep data poly codeOffset stride ecc i
      = .ok (lfsrStep poly ecc (data.getD (codeOffset + (i : Int) * stride).toNat 0)) := by
  unfold dataStep
  obtain ⟨x, hx⟩ : ∃ x, ecc.getLast? = some x := by
    cases h : ecc.getLast? with
    | none => exact absurd (List.getLast?_eq_none_iff.mp h) hecc
    | some x => exact ⟨x, rfl⟩
  have hD : ecc.getLastD 0 = x := by
    rw [List.getLastD_eq_getLast?, hx]; rfl
  rw [hx, readAt_of_lt h0 h1]
  simp only [lfsrStep, hD]

/-- The data loop succeeds when the register is not empty and every position it
reads is inside the buffer; the register it leaves is that of `lfsr` on the
bytes read. -/
theorem dataLoop_prefix (data poly : ByteArray) (codeOffset stride : Int) (eccLength : Nat)
    (he : 0 < eccLength) :
    ∀ n : Nat,
      (∀ i : Nat, i < n → 0 ≤ codeOffset + i * stride ∧ codeOffset + i * stride < data.length) →
      (List.range n).foldlM (dataStep data poly codeOffset stride) (List.replicate eccLength 0)
        = .ok (lfsr poly eccLength (strided data codeOffset stride n)) := by
  intro n
  induction n with
  | zero => intro _; rfl
  | succ n ih =>
    intro hr
    rw [foldlM_range_succ, ih (fun i hi => hr i (Nat.lt_succ_of_lt hi))]
    simp only [bind, Except.bind]
    have hne : lfsr poly eccLength (strided data codeOffset stride n) ≠ [] := by
      intro hc
      have := lfsr_length poly eccLength (strided data codeOffset stride n)
      rw [hc] at this
      simp at this
      omega
    have hn := hr n (Nat.lt_succ_self n)
    rw [dataStep_of_read hne hn.1 hn.2, strided_succ]
    simp [lfsr, List.foldl_append]

theorem dataStep_ne_invalid (data poly : ByteArray) (codeOffset stride : Int) (ecc : ByteArray)
    (i : Nat) (s : String) :
    dataStep data poly codeOffset stride ecc i ≠ .error (.invalid_argument s) := by
  unfold dataStep
  cases ecc.getLast? with
  | none => simp
  | some back =>
    simp only
    unfold readAt
    by_cases hr : 0 ≤ codeOffset + (i : Int) * stride ∧
        codeOffset + (i : Int) * stride < (data.length : Int)
    · simp [hr]
    · simp [hr]

theorem dataLoop_ne_invalid (data poly : ByteArray) (codeOffset stride : Int) (init : ByteArray)
    (s : String) :
    ∀ n : Nat, (List.range n).foldlM (dataStep data poly codeOffset stride) init
      ≠ .error (.invalid_argument s) := by
  intro n
  induction n with
  | zero => simp [pure, Except.pure]
  | succ n ih =>
    rw [foldlM_range_succ]
    cases hprev : (List.range n).foldlM (dataStep data poly codeOffset stride) init with
    | error e =>
      simp only [bind, Except.bind]
      intro hc
      rw [hprev] at ih
      exact ih hc
    | ok mid =>
      simp only [bind, Except.bind]
      exact dataStep_ne_invalid _ _ _ _ _ _ _

/-! ## The factor search and `CreateECCBlock` -/

theorem findFactors_error {eccLength : Int} {err : Error} (h : findFactors eccLength = .error err) :
    err = .invalid_argument (illegalCountMessage eccLength) := by
  unfold findFactors at h
  simp only at h
  split at h
  · simp only [Except.error.injEq] at h
    exact h.symm
  · simp at h

theorem mismatchMessage_ne_illegal (n : Int) : mismatchMessage ≠ illegalCountMessage n := by
  intro h
  have h2 := congrArg String.data h
  simp [mismatchMessage, illegalCountMessage] at h2

theorem CreateECCBlock_ok_inv {data out : ByteArray} {codeOffset codeLength eccOffset eccLength stride : Int}
    (h : CreateECCBlock data codeOffset codeLength eccOffset eccLength stride = .ok out) :
    out.length = data.length ∧
    (∀ i : Nat, i < eccLength.toNat →
      0 ≤ eccOffset + i * stride ∧ eccOffset + i * stride < data.length) ∧
    (∀ p : Nat, (∀ i : Nat, i < eccLength.toNat → eccOffset + i * stride ≠ p) →
      out.getD p 0 = data.getD p 0) ∧
    ∃ iter, findFactors eccLength = .ok iter := by
  unfold CreateECCBlock at h
  cases hf : findFactors eccLength with
  | error e => rw [hf] at h; simp at h
  | ok iter =>
    rw [hf] at h
    simp only at h
    cases hd : dataLoop data (FACTORS.getD iter []) codeOffset codeLength eccLength stride with
    | error e => rw [hd] at h; simp at h
    | ok ecc =>
      rw [hd] at h
      simp only [writeLoop] at h
      obtain ⟨h1, h2, h3, _⟩ := writeLoop_prefix_ok ecc eccOffset eccLength stride data _ out h
      exact ⟨h1, h2, h3, iter, rfl⟩

theorem CreateECCBlock_invalid {data : ByteArray} {codeOffset codeLength eccOffset eccLength stride : Int}
    {s : String}
    (h : CreateECCBlock data codeOffset codeLength eccOffset eccLength stride
      = .error (.invalid_argument s)) :
    findFactors eccLength = .error (.invalid_argument s) := by
  unfold CreateECCBlock at h
  cases hf : findFactors eccLength with
  | error e => rw [hf] at h; simpa using h
  | ok iter =>
    rw [hf] at h
    simp only at h
    cases hd : dataLoop data (FACTORS.getD iter []) codeOffset codeLength eccLength stride with
    | error e =>
      rw [hd] at h
      simp only [Except.error.injEq] at h
      subst h
      exact absurd hd (dataLoop_ne_invalid _ _ _ _ _ _ _)
    | ok ecc =>
      rw [hd] at h
      exact absurd h (writeLoop_ne_invalid _ _ _ _ _ _ _)

/-- The outcome of `CreateECCBlock` when the factor set is found, the register
is not empty, and every position read or assigned is inside the buffer. -/
theorem CreateECCBlock_spec (data : ByteArray) (codeOffset codeLength eccOffset stride : Int)
    (eccLength iter : Nat)
    (hf : findFactors eccLength = .ok iter) (he : 0 < eccLength)
    (hreads : ∀ i : Nat, i < codeLength.toNat →
      0 ≤ codeOffset + i * stride ∧ codeOffset + i * stride < data.length)
    (hwrites : ∀ i : Nat, i < eccLength →
      0 ≤ eccOffset + i * stride ∧ eccOffset + i * stride < data.length) :
    ∃ out, CreateECCBlock data codeOffset codeLength eccOffset eccLength stride = .ok out ∧
      out.length = data.length ∧
      (∀ p : Nat, (∀ i : Nat, i < eccLength → eccOffset + i * stride ≠ p) →
        out.getD p 0 = data.getD p 0) ∧
      (stride ≠ 0 → ∀ i : Nat, i < eccLength →
        out.getD (eccOffset + i * stride).toNat 0
          = (lfsr (FACTORS.getD iter []) eccLength
              (strided data codeOffset stride codeLength.toNat)).getD (eccLength - 1 - i) 0) := by
  have hd := dataLoop_prefix data (FACTORS.getD iter []) codeOffset stride eccLength he
    codeLength.toNat hreads
  obtain ⟨out, hout⟩ := writeLoop_prefix_succeeds
    (lfsr (FACTORS.getD iter []) eccLength (strided data codeOffset stride codeLength.toNat))
    eccOffset eccLength stride data eccLength hwrites
  obtain ⟨h1, _, h3, h4⟩ := writeLoop_prefix_ok _ _ _ _ _ _ _ hout
  refine ⟨out, ?_, h1, h3, ?_⟩
  · unfold CreateECCBlock
    rw [hf]
    simp only [dataLoop, writeLoop, Int.toNat_ofNat]
    rw [hd]
    exact hout
  · intro hs i hi
    rw [h4 hs i hi]
    congr 1
    omega

/-! ## `resize` and the loop over the interleaved blocks -/

theorem resize_eq_ok {v w : ByteArray} {count : Int} (h : resize v count = .ok w) :
    0 ≤ count ∧ w = v.take count.toNat ++ List.replicate (count.toNat - v.length) 0 := by
  unfold resize at h
  split at h
  · simp at h
  · simp only [Except.ok.injEq] at h
    exact ⟨by omega, h.symm⟩

theorem resize_length {v w : ByteArray} {count : Int} (h : resize v count = .ok w) :
    (w.length : Int) = count := by
  obtain ⟨h0, rfl⟩ := resize_eq_ok h
  simp only [List.length_append, List.length_take, List.length_replicate]
  omega

theorem resize_getD {v w : ByteArray} {count : Int} (h : resize v count = .ok w) (p : Nat)
    (hp : p < v.length) (hc : (v.length : Int) ≤ count) : w.getD p 0 = v.getD p 0 := by
  obtain ⟨h0, rfl⟩ := resize_eq_ok h
  have : v.take count.toNat = v := List.take_of_length_le (by omega)
  rw [this]
  simp [List.getD_eq_getElem?_getD, List.getElem?_append_left hp]

theorem resize_ne_invalid (v : ByteArray) (count : Int) (s : String) :
    resize v count ≠ .error (.invalid_argument s) := by
  unfold resize
  split <;> simp

/-- What a successful run of the block loop leaves: the length is kept, and
nothing below `dataCapacity` is assigned. -/
theorem blockLoop_ok_inv (symbolInfo : SymbolInfo) (blockCount : Int) (hB : 0 < blockCount) :
    ∀ (blocks : List Nat) (codewords out : ByteArray),
      blockLoop symbolInfo blockCount blocks codewords = (.ok (), out) →
      out.length = codewords.length ∧
      ∀ p : Nat, (p : Int) < symbolInfo.dataCapacity → out.getD p 0 = codewords.getD p 0 := by
  intro blocks
  induction blocks with
  | nil =>
    intro codewords out h
    simp only [blockLoop, Prod.mk.injEq, true_and] at h
    subst h
    exact ⟨rfl, fun _ _ => rfl⟩
  | cons block rest ih =>
    intro codewords out h
    unfold blockLoop at h
    cases hc : CreateECCBlock codewords block
        (symbolInfo.dataLengthForInterleavedBlock (block + 1))
        (symbolInfo.dataCapacity + block) symbolInfo.errorLengthForInterleavedBlock blockCount with
    | error e => rw [hc] at h; simp at h
    | ok mid =>
      rw [hc] at h
      simp only at h
      obtain ⟨hlen, _, hframe, _⟩ := CreateECCBlock_ok_inv hc
      obtain ⟨hlen2, hframe2⟩ := ih mid out h
      refine ⟨by rw [hlen2, hlen], ?_⟩
      intro p hp
      rw [hframe2 p hp]
      apply hframe
      intro i _
      have : 0 ≤ (i : Int) * blockCount := mul_nonneg (Int.ofNat_nonneg i) (le_of_lt hB)
      omega

/-- When the block loop ends with `std::invalid_argument`, it is the first
call that threw, and the buffer is as the loop found it. -/
theorem blockLoop_invalid (symbolInfo : SymbolInfo) (blockCount : Int) (s : String) :
    ∀ (blocks : List Nat) (codewords out : ByteArray),
      blockLoop symbolInfo blockCount blocks codewords = (.error (.invalid_argument s), out) →
      out = codewords ∧
      findFactors symbolInfo.errorLengthForInterleavedBlock = .error (.invalid_argument s) := by
  intro blocks
  induction blocks with
  | nil =>
    intro codewords out h
    simp [blockLoop] at h
  | cons block rest ih =>
    intro codewords out h
    unfold blockLoop at h
    cases hc : CreateECCBlock codewords block
        (symbolInfo.dataLengthForInterleavedBlock (block + 1))
        (symbolInfo.dataCapacity + block) symbolInfo.errorLengthForInterleavedBlock blockCount with
    | error e =>
      rw [hc] at h
      simp only [Prod.mk.injEq, Except.error.injEq] at h
      obtain ⟨he, hout⟩ := h
      subst he
      exact ⟨hout.symm, CreateECCBlock_invalid hc⟩
    | ok mid =>
      rw [hc] at h
      simp only at h
      obtain ⟨_, _, _, iter, hiter⟩ := CreateECCBlock_ok_inv hc
      obtain ⟨_, hbad⟩ := ih mid out h
      rw [hiter] at hbad
      simp at hbad

/-! ## `EncodeECC200` -/

theorem EncodeECC200_mismatch (codewords : ByteArray) (symbolInfo : SymbolInfo)
    (h : (codewords.length : Int) ≠ symbolInfo.dataCapacity) :
    EncodeECC200 codewords symbolInfo
      = (.error (.invalid_argument mismatchMessage), codewords) := by
  unfold EncodeECC200
  rw [if_pos h]

/-- The three things a successful call of `EncodeECC200` ensures. -/
theorem EncodeECC200_ok_inv {codewords out : ByteArray} {symbolInfo : SymbolInfo}
    (h : EncodeECC200 codewords symbolInfo = (.ok (), out)) :
    (codewords.length : Int) = symbolInfo.dataCapacity ∧
    (out.length : Int) = symbolInfo.codewordCount ∧
    (symbolInfo.dataCapacity ≤ symbolInfo.codewordCount →
      ∀ p : Nat, p < codewords.length → out.getD p 0 = codewords.getD p 0) := by
  unfold EncodeECC200 at h
  by_cases hlen : (codewords.length : Int) ≠ symbolInfo.dataCapacity
  · rw [if_pos hlen] at h
    simp at h
  · rw [if_neg hlen] at h
    have hlen2 : (codewords.length : Int) = symbolInfo.dataCapacity := not_not.mp hlen
    cases hr : resize codewords symbolInfo.codewordCount with
    | error e => rw [hr] at h; simp at h
    | ok grown =>
      rw [hr] at h
      simp only at h
      have hg := resize_length hr
      by_cases hB : symbolInfo.interleavedBlockCount = 1
      · rw [if_pos hB] at h
        cases hc : CreateECCBlock grown 0 symbolInfo.dataCapacity symbolInfo.dataCapacity
            symbolInfo.errorCodewords 1 with
        | error e => rw [hc] at h; simp at h
        | ok res =>
          rw [hc] at h
          simp only [Prod.mk.injEq, true_and] at h
          subst h
          obtain ⟨hl, _, hframe, _⟩ := CreateECCBlock_ok_inv hc
          refine ⟨hlen2, by rw [hl]; exact hg, ?_⟩
          intro hcap p hp
          rw [hframe p (by intro i _; omega)]
          exact resize_getD hr p hp (by omega)
      · rw [if_neg hB] at h
        by_cases hpos : 0 < symbolInfo.interleavedBlockCount
        · obtain ⟨hl, hframe⟩ := blockLoop_ok_inv symbolInfo _ hpos _ _ _ h
          refine ⟨hlen2, by rw [hl]; exact hg, ?_⟩
          intro hcap p hp
          rw [hframe p (by omega)]
          exact resize_getD hr p hp (by omega)
        · have hz : symbolInfo.interleavedBlockCount.toNat = 0 := by omega
          rw [hz] at h
          simp only [List.range_zero, blockLoop, Prod.mk.injEq, true_and] at h
          subst h
          refine ⟨hlen2, hg, ?_⟩
          intro hcap p hp
          exact resize_getD hr p hp (by omega)

/-- When `EncodeECC200` ends with the exception of the factor search, the
buffer is the input resized: no position has been assigned since. -/
theorem EncodeECC200_illegal_inv {codewords out : ByteArray} {symbolInfo : SymbolInfo} {n : Int}
    (h : EncodeECC200 codewords symbolInfo
      = (.error (.invalid_argument (illegalCountMessage n)), out)) :
    resize codewords symbolInfo.codewordCount = .ok out := by
  unfold EncodeECC200 at h
  by_cases hlen : (codewords.length : Int) ≠ symbolInfo.dataCapacity
  · rw [if_pos hlen] at h
    simp only [Prod.mk.injEq, Except.error.injEq, Error.invalid_argument.injEq] at h
    exact absurd h.1 (mismatchMessage_ne_illegal n)
  · rw [if_neg hlen] at h
    cases hr : resize codewords symbolInfo.codewordCount with
    | error e =>
      rw [hr] at h
      simp only [Prod.mk.injEq, Except.error.injEq] at h
      rw [h.1] at hr
      exact absurd hr (resize_ne_invalid _ _ _)
    | ok grown =>
      rw [hr] at h
      simp only at h
      by_cases hB : symbolInfo.interleavedBlockCount = 1
      · rw [if_pos hB] at h
        cases hc : CreateECCBlock grown 0 symbolInfo.dataCapacity symbolInfo.dataCapacity
            symbolInfo.errorCodewords 1 with
        | error e =>
          rw [hc] at h
          simp only [Prod.mk.injEq] at h
          rw [h.2]
        | ok res => rw [hc] at h; simp at h
      · rw [if_neg hB] at h
        obtain ⟨ho, _⟩ := blockLoop_invalid symbolInfo _ _ _ _ _ h
        rw [ho]

/-! ## Facts checked by evaluation over the bytes and the tables -/

theorem basis_shift_step :
    ∀ t, t < 7 → ∀ i, i < 8 →
      reduceLoop 7 ((1 <<< i) <<< (t + 1)) = gfMul 2 (reduceLoop 7 ((1 <<< i) <<< t)) := by
  decide!

theorem byte_bits : ∀ b, b < 256 → xorBits (fun i => 1 <<< i) b 8 = b := by
  decide!

theorem gfMul_two_lt : ∀ a, a < 256 → gfMul 2 a < 256 := by
  decide!

theorem ALOG_zero : ALOG.getD 0 0 = 1 := by
  decide

theorem ALOG_last : ALOG.getD 255 0 = 1 := by
  decide!

theorem ALOG_length : ALOG.length = 256 := by
  decide!

theorem ALOG_doublingChain : doublingChain ALOG = true := by
  decide!

theorem ALOG_LOG_zip :
    ∀ p ∈ List.zip (List.range 256) LOG, p.1 ≠ 0 → ALOG.getD (p.2 % 255) 0 = p.1 := by
  decide!

theorem LOG_length : LOG.length = 256 := by
  decide!

theorem findFactors_catalog_check :
    ∀ n ∈ [5, 7, 10, 11, 12, 14, 18, 20, 24, 28, 36, 42, 48, 56, 62, 68],
      (match findFactors ((n : Nat) : Int) with
        | .ok iter => decide ((FACTORS.getD iter []).length = n)
        | .error _ => false) = true := by
  decide!

theorem findFactors_small_check :
    ∀ n, n < 69 →
      (match findFactors ((n : Nat) : Int) with
        | .ok iter => decide (n ≤ (FACTORS.getD iter []).length)
        | .error _ => false) = true := by
  decide!


/-! ## Linearity of the carry-less product and of the reduction -/

theorem xor_cancel_right (x y c : Nat) : (x ^^^ c) ^^^ (y ^^^ c) = x ^^^ y := by
  rw [Nat.xor_assoc, ← Nat.xor_assoc c, Nat.xor_comm c y, Nat.xor_assoc y, Nat.xor_self,
    Nat.xor_zero]

theorem xor_xor_xor_swap (a b c d : Nat) : (a ^^^ b) ^^^ (c ^^^ d) = (a ^^^ c) ^^^ (b ^^^ d) := by
  rw [Nat.xor_assoc, ← Nat.xor_assoc b, Nat.xor_comm b c, Nat.xor_assoc c, ← Nat.xor_assoc a]

theorem reduceLoop_xor : ∀ (n x y : Nat),
    reduceLoop n (x ^^^ y) = reduceLoop n x ^^^ reduceLoop n y := by
  intro n
  induction n with
  | zero => intro x y; rfl
  | succ n ih =>
    intro x y
    simp only [reduceLoop, Nat.testBit_xor]
    cases hx : x.testBit (n + 8) <;> cases hy : y.testBit (n + 8) <;>
      simp only [Bool.xor_false, Bool.xor_true, Bool.not_false, Bool.not_true, if_true,
        Bool.false_eq_true, if_false, bne_self_eq_false, Bool.bne_false, Bool.bne_true,
        Bool.false_bne, Bool.true_bne] <;> rw [← ih]
    · rw [Nat.xor_assoc]
    · rw [Nat.xor_assoc, Nat.xor_comm y, ← Nat.xor_assoc]
    · rw [xor_cancel_right]

theorem reduceLoop_zero : ∀ n : Nat, reduceLoop n 0 = 0 := by
  intro n
  induction n with
  | zero => rfl
  | succ n ih => simp [reduceLoop, ih]

theorem clmulLoop_eq_xorBits (a b : Nat) :
    ∀ n : Nat, clmulLoop a b n = xorBits (fun i => a <<< i) b n := by
  intro n
  induction n with
  | zero => rfl
  | succ n ih => simp only [clmulLoop, xorBits, ih]

theorem xorBits_congr {f g : Nat → Nat} (b : Nat) :
    ∀ n : Nat, (∀ i, i < n → f i = g i) → xorBits f b n = xorBits g b n := by
  intro n
  induction n with
  | zero => intro _; rfl
  | succ n ih =>
    intro h
    simp only [xorBits]
    rw [ih (fun i hi => h i (Nat.lt_succ_of_lt hi)), h n (Nat.lt_succ_self n)]

/-- A map that preserves XOR and 0 goes inside `xorBits`. -/
theorem map_xorBits (h : Nat → Nat) (hx : ∀ x y, h (x ^^^ y) = h x ^^^ h y) (h0 : h 0 = 0)
    (f : Nat → Nat) (b : Nat) :
    ∀ n : Nat, h (xorBits f b n) = xorBits (fun i => h (f i)) b n := by
  intro n
  induction n with
  | zero => exact h0
  | succ n ih =>
    simp only [xorBits]
    rw [hx, ih]
    cases b.testBit n <;> simp [h0]

theorem xorBits_xor (f : Nat → Nat) (u v : Nat) :
    ∀ n : Nat, xorBits f (u ^^^ v) n = xorBits f u n ^^^ xorBits f v n := by
  intro n
  induction n with
  | zero => simp [xorBits]
  | succ n ih =>
    simp only [xorBits, ih, Nat.testBit_xor]
    rw [xor_xor_xor_swap]
    congr 1
    cases u.testBit n <;> cases v.testBit n <;> simp

theorem xorBits_zero (f : Nat → Nat) : ∀ n : Nat, xorBits f 0 n = 0 := by
  intro n
  induction n with
  | zero => rfl
  | succ n ih => simp [xorBits, ih]

theorem gfMul_xor_right (a u v : Nat) : gfMul a (u ^^^ v) = gfMul a u ^^^ gfMul a v := by
  simp only [gfMul, clmul, clmulLoop_eq_xorBits, xorBits_xor, reduceLoop_xor]

theorem gfMul_zero_right (a : Nat) : gfMul a 0 = 0 := by
  simp only [gfMul, clmul, clmulLoop_eq_xorBits, xorBits_zero, reduceLoop_zero]

/-! ## Multiplication by `x`, and the powers of 2 -/

theorem shiftLeft_xor (x y t : Nat) : (x ^^^ y) <<< t = x <<< t ^^^ y <<< t := by
  apply Nat.eq_of_testBit_eq
  intro j
  simp only [Nat.testBit_shiftLeft, Nat.testBit_xor]
  cases decide (j ≥ t) <;> simp

theorem reduce_byte (a : Nat) (ha : a < 256) : ∀ n : Nat, reduceLoop n a = a := by
  intro n
  induction n with
  | zero => rfl
  | succ n ih =>
    have hlt : a < 2 ^ (n + 8) :=
      lt_of_lt_of_le ha (by
        have : 2 ^ 8 ≤ 2 ^ (n + 8) := Nat.pow_le_pow_right (by decide) (by omega)
        simpa using this)
    simp only [reduceLoop, Nat.testBit_lt_two_pow hlt, Bool.false_eq_true, if_false]
    exact ih

theorem reduce_shift_step (t : Nat) (ht : t < 7) (a : Nat) (ha : a < 256) :
    reduceLoop 7 (a <<< (t + 1)) = gfMul 2 (reduceLoop 7 (a <<< t)) := by
  have hbits := byte_bits a ha
  have hl := map_xorBits (fun x => reduceLoop 7 (x <<< (t + 1)))
    (fun x y => by simp only [shiftLeft_xor, reduceLoop_xor])
    (by simp only [Nat.zero_shiftLeft, reduceLoop_zero]) (fun i => 1 <<< i) a 8
  have hr := map_xorBits (fun x => gfMul 2 (reduceLoop 7 (x <<< t)))
    (fun x y => by simp only [shiftLeft_xor, reduceLoop_xor, gfMul_xor_right])
    (by simp only [Nat.zero_shiftLeft, reduceLoop_zero, gfMul_zero_right]) (fun i => 1 <<< i) a 8
  simp only [hbits] at hl hr
  rw [hl, hr]
  exact xorBits_congr a 8 (fun i hi => basis_shift_step t ht i hi)

theorem clmulLoop_zero_left (b : Nat) : ∀ n : Nat, clmulLoop 0 b n = 0 := by
  intro n
  induction n with
  | zero => rfl
  | succ n ih => simp [clmulLoop, ih]

theorem gfMul_zero_left (b : Nat) : gfMul 0 b = 0 := by
  simp only [gfMul, clmul, clmulLoop_zero_left, reduceLoop_zero]

theorem gfMul_one_left (b : Nat) (hb : b < 256) : gfMul 1 b = b := by
  simp only [gfMul, clmul, clmulLoop_eq_xorBits]
  rw [byte_bits b hb]
  exact reduce_byte b hb 7

theorem doublingChain_getD : ∀ (l : List Nat), doublingChain l = true →
    ∀ i : Nat, i + 1 < l.length → l.getD (i + 1) 0 = gfMul 2 (l.getD i 0) := by
  intro l
  induction l with
  | nil => intro _ i hi; simp at hi
  | cons a rest ih =>
    intro h i hi
    cases rest with
    | nil => simp at hi
    | cons b rest' =>
      simp only [doublingChain, Bool.and_eq_true, beq_iff_eq] at h
      cases i with
      | zero => simpa using h.1
      | succ i =>
        have := ih h.2 i (by simpa using hi)
        simpa using this

theorem ALOG_succ (i : Nat) (hi : i < 255) : ALOG.getD (i + 1) 0 = gfMul 2 (ALOG.getD i 0) :=
  doublingChain_getD ALOG ALOG_doublingChain i (by rw [ALOG_length]; omega)

theorem ALOG_LOG (a : Nat) (ha : a < 256) (h0 : a ≠ 0) :
    ALOG.getD (LOG.getD a 0 % 255) 0 = a := by
  have hmem : (a, LOG.getD a 0) ∈ List.zip (List.range 256) LOG := by
    have hl : a < LOG.length := by rw [LOG_length]; exact ha
    have h1 : (List.zip (List.range 256) LOG)[a]? = some (a, LOG.getD a 0) := by
      rw [List.getElem?_zip_eq_some]
      constructor
      · rw [List.getElem?_range ha]
      · rw [List.getD_eq_getElem?_getD, List.getElem?_eq_getElem hl]
        rfl
    exact List.getElem?_mem h1
  exact ALOG_LOG_zip _ hmem h0

theorem reduce_shift (a : Nat) (ha : a < 256) :
    ∀ t : Nat, t < 8 → reduceLoop 7 (a <<< t) = (gfMul 2)^[t] a := by
  intro t
  induction t with
  | zero => intro _; simpa using reduce_byte a ha 7
  | succ t ih =>
    intro ht
    rw [reduce_shift_step t (by omega) a ha, ih (by omega), Function.iterate_succ_apply']

/-- The product by a byte `a` as a sum of repeated doublings of `a`. -/
theorem gfMul_eq_xorBits (a b : Nat) (ha : a < 256) :
    gfMul a b = xorBits (fun i => (gfMul 2)^[i] a) b 8 := by
  simp only [gfMul, clmul, clmulLoop_eq_xorBits]
  rw [map_xorBits (reduceLoop 7) (reduceLoop_xor 7) (reduceLoop_zero 7)]
  exact xorBits_congr b 8 (fun i hi => reduce_shift a ha i hi)

theorem gfMul_double_left (a b : Nat) (ha : a < 256) :
    gfMul (gfMul 2 a) b = gfMul 2 (gfMul a b) := by
  rw [gfMul_eq_xorBits (gfMul 2 a) b (gfMul_two_lt a ha), gfMul_eq_xorBits a b ha,
    map_xorBits (gfMul 2) (gfMul_xor_right 2) (gfMul_zero_right 2)]
  apply xorBits_congr
  intro i _
  rw [← Function.iterate_succ_apply, Function.iterate_succ_apply']

theorem gfPow_two_lt : ∀ i : Nat, gfPow 2 i < 256 := by
  intro i
  induction i with
  | zero => simp [gfPow]
  | succ i ih =>
    simp only [gfPow, Function.iterate_succ_apply'] at ih ⊢
    exact gfMul_two_lt _ ih

theorem gfMul_gfPow_two (b : Nat) (hb : b < 256) :
    ∀ i : Nat, gfMul (gfPow 2 i) b = (gfMul 2)^[i] b := by
  intro i
  induction i with
  | zero => simpa [gfPow] using gfMul_one_left b hb
  | succ i ih =>
    have hlt := gfPow_two_lt i
    simp only [gfPow, Function.iterate_succ_apply'] at ih hlt ⊢
    rw [gfMul_double_left _ b hlt, ih]

theorem gfPow_two_add (i j : Nat) : gfMul (gfPow 2 i) (gfPow 2 j) = gfPow 2 (i + j) := by
  rw [gfMul_gfPow_two _ (gfPow_two_lt j)]
  simp only [gfPow, Function.iterate_add_apply]

theorem ALOG_eq_gfPow : ∀ i : Nat, i < 256 → ALOG.getD i 0 = gfPow 2 i := by
  intro i
  induction i with
  | zero => intro _; exact ALOG_zero
  | succ i ih =>
    intro hi
    rw [ALOG_succ i (by omega), ih (by omega)]
    simp only [gfPow, Function.iterate_succ_apply']

theorem gfPow_two_period : gfPow 2 255 = 1 := by
  rw [← ALOG_eq_gfPow 255 (by omega)]
  exact ALOG_last

theorem gfPow_two_mod (k : Nat) : gfPow 2 k = gfPow 2 (k % 255) := by
  induction k using Nat.strong_induction_on with
  | _ k ih =>
    by_cases hk : k < 255
    · rw [Nat.mod_eq_of_lt hk]
    · have hk2 : k = (k - 255) + 255 := by omega
      have h1 : gfPow 2 k = gfPow 2 (k - 255) := by
        conv_lhs => rw [hk2]
        rw [← gfPow_two_add, gfPow_two_period]
        have hlt := gfPow_two_lt (k - 255)
        rw [gfMul_eq_xorBits _ 1 hlt]
        simp [xorBits, Nat.testBit]
      have hmod : (k - 255) % 255 = k % 255 := by omega
      rw [h1, ih (k - 255) (by omega), hmod]

theorem gfPow_two_LOG (a : Nat) (ha : a < 256) (h0 : a ≠ 0) : gfPow 2 (LOG.getD a 0) = a := by
  rw [gfPow_two_mod, ← ALOG_eq_gfPow _ (by omega)]
  exact ALOG_LOG a ha h0

/-- On bytes, `mult` is the product in GF(256). -/
theorem mult_eq_gfMul (a b : Nat) (ha : a < 256) (hb : b < 256) : mult a b = gfMul a b := by
  unfold mult
  by_cases ha0 : a = 0
  · subst ha0
    simpa using (gfMul_zero_left b).symm
  by_cases hb0 : b = 0
  · subst hb0
    simpa using (gfMul_zero_right a).symm
  have hc : (a == 0 || b == 0) = false := by simp [ha0, hb0]
  rw [hc]
  simp only [Bool.false_eq_true, if_false]
  rw [ALOG_eq_gfPow _ (by omega), ← gfPow_two_mod, ← gfPow_two_add,
    gfPow_two_LOG a ha ha0, gfPow_two_LOG b hb hb0]

/-! ## The shift register computes the remainder of the division -/

theorem ext_getD {l₁ l₂ : List Nat} (hlen : l₁.length = l₂.length)
    (h : ∀ k : Nat, k < l₁.length → l₁.getD k 0 = l₂.getD k 0) : l₁ = l₂ := by
  apply List.ext_getElem hlen
  intro k h1 h2
  have := h k h1
  simpa [List.getD_eq_getElem?_getD, List.getElem?_eq_getElem h1, List.getElem?_eq_getElem h2]
    using this

theorem getD_of_le (l : List Nat) (k : Nat) (h : l.length ≤ k) : l.getD k 0 = 0 := by
  simp [List.getD_eq_getElem?_getD, List.getElem?_eq_none h]

theorem getD_append (l₁ l₂ : List Nat) (k : Nat) :
    (l₁ ++ l₂).getD k 0 = if k < l₁.length then l₁.getD k 0 else l₂.getD (k - l₁.length) 0 := by
  simp only [List.getD_eq_getElem?_getD]
  split
  · rename_i h; rw [List.getElem?_append_left h]
  · rename_i h; rw [List.getElem?_append_right (Nat.le_of_not_lt h)]

theorem getD_replicate_zero (n k : Nat) : (List.replicate n 0).getD k 0 = 0 := by
  simp only [List.getD_eq_getElem?_getD, List.getElem?_replicate]
  split <;> rfl

theorem getD_dropLast (l : List Nat) (k : Nat) :
    l.dropLast.getD k 0 = if k < l.length - 1 then l.getD k 0 else 0 := by
  split
  · rename_i h
    simp only [List.getD_eq_getElem?_getD]
    rw [List.dropLast_eq_take, List.getElem?_take_of_lt h]
  · rename_i h
    exact getD_of_le _ _ (by simp; omega)

theorem getLastD_eq_getD (l : List Nat) : l.getLastD 0 = l.getD (l.length - 1) 0 := by
  cases l with
  | nil => rfl
  | cons x xs =>
    rw [List.getLastD_eq_getLast?, List.getLast?_eq_getElem?]
    simp [List.getD_eq_getElem?_getD]

theorem mult_zero_right (c : Nat) : mult c 0 = 0 := by
  simp [mult]

theorem polyAdd_length (p q : Poly) : (polyAdd p q).length = max p.length q.length := by
  simp [polyAdd]

theorem polyAdd_getD (p q : Poly) (k : Nat) :
    (polyAdd p q).getD k 0 = p.getD k 0 ^^^ q.getD k 0 := by
  by_cases hk : k < max p.length q.length
  · simp only [polyAdd, List.getD_eq_getElem?_getD]
    rw [List.getElem?_map, List.getElem?_range hk]
    rfl
  · have h1 : p.length ≤ k := by omega
    have h2 : q.length ≤ k := by omega
    rw [getD_of_le _ _ (by rw [polyAdd_length]; omega), getD_of_le _ _ h1, getD_of_le _ _ h2]
    rfl

theorem polyShift_length (n : Nat) (p : Poly) : (polyShift n p).length = n + p.length := by
  simp [polyShift]

theorem polyShift_getD (n : Nat) (p : Poly) (k : Nat) :
    (polyShift n p).getD k 0 = if k < n then 0 else p.getD (k - n) 0 := by
  simp only [polyShift, getD_append, List.length_replicate, getD_replicate_zero]

theorem polyScale_getD (c : Nat) (p : Poly) (k : Nat) :
    (polyScale c p).getD k 0 = mult c (p.getD k 0) := by
  by_cases hk : k < p.length
  · simp [polyScale, List.getD_eq_getElem?_getD, List.getElem?_map, List.getElem?_eq_getElem hk]
  · rw [getD_of_le _ _ (by simp [polyScale]; omega), getD_of_le _ _ (by omega), mult_zero_right]

/-- The register after the inner loop started at `j`: the positions `1 .. j`
have taken the value of their lower neighbour, with the feedback added. -/
theorem shiftLoop_getD (poly : ByteArray) (m : Nat) :
    ∀ (j : Nat) (ecc : ByteArray) (k : Nat), j < ecc.length →
      (shiftLoop poly m j ecc).getD k 0
        = if 1 ≤ k ∧ k ≤ j then ecc.getD (k - 1) 0 ^^^ mult m (poly.getD k 0)
          else ecc.getD k 0 := by
  intro j
  induction j with
  | zero =>
    intro ecc k _
    have : ¬ (1 ≤ k ∧ k ≤ 0) := by omega
    rw [if_neg this]
    rfl
  | succ j ih =>
    intro ecc k hj
    simp only [shiftLoop]
    rw [ih _ k (by simp; omega)]
    by_cases hk : 1 ≤ k ∧ k ≤ j
    · have hk2 : 1 ≤ k ∧ k ≤ j + 1 := by omega
      rw [if_pos hk, if_pos hk2, getD_set]
      have : ¬ (j + 1 = k - 1 ∧ j + 1 < ecc.length) := by omega
      rw [if_neg this]
    · rw [if_neg hk, getD_set]
      by_cases hk3 : k = j + 1
      · subst hk3
        have h1 : 1 ≤ j + 1 ∧ j + 1 ≤ j + 1 := by omega
        rw [if_pos ⟨rfl, hj⟩, if_pos h1]
        rfl
      · have h1 : ¬ (1 ≤ k ∧ k ≤ j + 1) := by omega
        have h2 : ¬ (j + 1 = k ∧ j + 1 < ecc.length) := by omega
        rw [if_neg h1, if_neg h2]

/-- One round of the register, coefficient by coefficient. -/
theorem lfsrStep_getD (poly ecc : ByteArray) (d k : Nat) (hk : k < ecc.length) :
    (lfsrStep poly ecc d).getD k 0
      = (if k = 0 then 0 else ecc.getD (k - 1) 0)
          ^^^ mult (ecc.getD (ecc.length - 1) 0 ^^^ d) (poly.getD k 0) := by
  unfold lfsrStep
  rw [getD_set, shiftLoop_length, getLastD_eq_getD]
  by_cases h0 : k = 0
  · subst h0
    rw [if_pos ⟨rfl, hk⟩]
    simp
  · have h1 : ¬ (0 = k ∧ 0 < ecc.length) := by omega
    have h2 : 1 ≤ k ∧ k ≤ ecc.length - 1 := by omega
    rw [if_neg h1, shiftLoop_getD _ _ _ _ _ (by omega), if_pos h2, if_neg h0]

theorem generator_getD (poly : ByteArray) (k : Nat) (hk : k < poly.length) :
    (generator poly).getD k 0 = poly.getD k 0 := by
  unfold generator
  rw [getD_append, if_pos hk]

theorem dataPoly_cons_getD (d : Nat) (ds : ByteArray) (k : Nat) (hk : k < ds.length) :
    (dataPoly (d :: ds)).getD k 0 = (dataPoly ds).getD k 0 := by
  unfold dataPoly
  rw [List.reverse_cons, getD_append, if_pos (by simpa using hk)]

theorem dataPoly_cons_getD_last (d : Nat) (ds : ByteArray) :
    (dataPoly (d :: ds)).getD ds.length 0 = d := by
  simp [dataPoly, getD_append]

/-- One step of the long division is one round of the register: with the
register `r` standing for the terms of degree `ds.length + 1` and above of what
is left of the dividend, the step on the next data byte `d` leaves the register
`lfsrStep poly r d` one degree lower. -/
theorem polyModStep_lfsrStep (poly r ds : ByteArray) (d : Nat) (hn : 0 < poly.length)
    (hr : r.length = poly.length) :
    polyModStep (generator poly)
        (polyAdd (polyShift poly.length (dataPoly (d :: ds))) (polyShift (ds.length + 1) r))
      = polyAdd (polyShift poly.length (dataPoly ds))
          (polyShift ds.length (lfsrStep poly r d)) := by
  have hlenA : (polyAdd (polyShift poly.length (dataPoly (d :: ds)))
      (polyShift (ds.length + 1) r)).length = poly.length + ds.length + 1 := by
    simp [polyAdd_length, polyShift_length, dataPoly, hr]
    omega
  have hlenG : (generator poly).length = poly.length + 1 := by simp [generator]
  have hlead : (polyAdd (polyShift poly.length (dataPoly (d :: ds)))
      (polyShift (ds.length + 1) r)).getLastD 0 = d ^^^ r.getD (r.length - 1) 0 := by
    rw [getLastD_eq_getD, hlenA, polyAdd_getD, polyShift_getD, polyShift_getD]
    have h1 : ¬ (poly.length + ds.length + 1 - 1 < poly.length) := by omega
    have h2 : ¬ (poly.length + ds.length + 1 - 1 < ds.length + 1) := by omega
    have h3 : poly.length + ds.length + 1 - 1 - poly.length = ds.length := by omega
    have h4 : poly.length + ds.length + 1 - 1 - (ds.length + 1) = r.length - 1 := by omega
    rw [if_neg h1, if_neg h2, h3, h4, dataPoly_cons_getD_last]
  unfold polyModStep
  rw [hlead, hlenA, hlenG]
  have hs : poly.length + ds.length + 1 - (poly.length + 1) = ds.length := by omega
  rw [hs]
  apply ext_getD
  · simp [polyAdd_length, polyShift_length, polyScale, generator, dataPoly, lfsrStep_length, hr]
    omega
  · intro k hk
    have hk' : k < poly.length + ds.length := by
      simp [polyAdd_length, polyShift_length, polyScale, generator, dataPoly, hr] at hk
      omega
    rw [getD_dropLast]
    have hk2 : k < (polyAdd (polyAdd (polyShift poly.length (dataPoly (d :: ds)))
        (polyShift (ds.length + 1) r))
        (polyShift ds.length (polyScale (d ^^^ r.getD (r.length - 1) 0) (generator poly)))).length
        - 1 := by
      simp [polyAdd_length, polyShift_length, polyScale, generator, dataPoly, hr]
      omega
    rw [if_pos hk2]
    simp only [polyAdd_getD, polyShift_getD, polyScale_getD]
    have hdata : (if k < poly.length then 0 else (dataPoly (d :: ds)).getD (k - poly.length) 0)
        = (if k < poly.length then 0 else (dataPoly ds).getD (k - poly.length) 0) := by
      by_cases hkn : k < poly.length
      · rw [if_pos hkn, if_pos hkn]
      · rw [if_neg hkn, if_neg hkn, dataPoly_cons_getD _ _ _ (by omega)]
    rw [hdata]
    by_cases hkl : k < ds.length
    · have hkl1 : k < ds.length + 1 := by omega
      simp only [hkl, hkl1, if_true, Nat.xor_zero]
    · simp only [hkl, if_false]
      rw [lfsrStep_getD _ _ _ _ (by omega), generator_getD _ _ (by omega), Nat.xor_comm d]
      by_cases hkl1 : k < ds.length + 1
      · have h0 : k - ds.length = 0 := by omega
        simp only [hkl1, if_true, h0, Nat.xor_zero, Nat.zero_xor]
      · have h0 : ¬ (k - ds.length = 0) := by omega
        have h5 : k - (ds.length + 1) = k - ds.length - 1 := by omega
        simp only [hkl1, if_false, h0, h5, Nat.xor_assoc]

/-- The long division, with the register `r` standing for the top of the
dividend, ends on the register after the bytes `ds` have been fed into it. -/
theorem polyMod_lfsr_from (poly : ByteArray) (hn : 0 < poly.length) :
    ∀ (ds r : ByteArray), r.length = poly.length →
      polyMod (polyAdd (polyShift poly.length (dataPoly ds)) (polyShift ds.length r))
          (generator poly)
        = ds.foldl (lfsrStep poly) r := by
  intro ds
  induction ds with
  | nil =>
    intro r hr
    have ha : polyAdd (polyShift poly.length (dataPoly [])) (polyShift 0 r) = r := by
      apply ext_getD
      · simp [polyAdd_length, polyShift_length, dataPoly, hr]
      · intro k _
        rw [polyAdd_getD, polyShift_getD, polyShift_getD]
        simp [dataPoly]
    simp only [List.length_nil, List.foldl_nil]
    rw [ha]
    unfold polyMod
    have : r.length + 1 - (generator poly).length = 0 := by simp [generator, hr]
    rw [this]
    rfl
  | cons d ds ih =>
    intro r hr
    have hlenA : (polyAdd (polyShift poly.length (dataPoly (d :: ds)))
        (polyShift (ds.length + 1) r)).length = poly.length + ds.length + 1 := by
      simp [polyAdd_length, polyShift_length, dataPoly, hr]
      omega
    have hlenA2 : (polyAdd (polyShift poly.length (dataPoly ds))
        (polyShift ds.length (lfsrStep poly r d))).length = poly.length + ds.length := by
      simp [polyAdd_length, polyShift_length, dataPoly, lfsrStep_length, hr]
      omega
    have hlenG : (generator poly).length = poly.length + 1 := by simp [generator]
    have hih := ih (lfsrStep poly r d) (by rw [lfsrStep_length]; exact hr)
    unfold polyMod at hih ⊢
    simp only [List.length_cons, List.foldl_cons]
    rw [hlenA, hlenG]
    rw [hlenA2, hlenG] at hih
    have h1 : poly.length + ds.length + 1 + 1 - (poly.length + 1) = ds.length + 1 := by omega
    have h2 : poly.length + ds.length + 1 - (poly.length + 1) = ds.length := by omega
    rw [h1, Function.iterate_succ_apply, polyModStep_lfsrStep poly r ds d hn hr]
    rw [h2] at hih
    exact hih

/-- The register after the data loop is the remainder of the division of
`D(x) x ^ n` by the generator, `n` being the number of coefficients of the
factor set. -/
theorem lfsr_eq_polyMod (poly : ByteArray) (hn : 0 < poly.length) (ds : ByteArray) :
    lfsr poly poly.length ds
      = polyMod (polyShift poly.length (dataPoly ds)) (generator poly) := by
  have h := polyMod_lfsr_from poly hn ds (List.replicate poly.length 0) (by simp)
  have ha : polyAdd (polyShift poly.length (dataPoly ds))
      (polyShift ds.length (List.replicate poly.length 0))
      = polyShift poly.length (dataPoly ds) := by
    apply ext_getD
    · simp [polyAdd_length, polyShift_length, dataPoly]
      omega
    · intro k _
      rw [polyAdd_getD, polyShift_getD _ (List.replicate _ _), getD_replicate_zero]
      simp
  rw [ha] at h
  rw [h]
  rfl

/-! ## `polyMod` is a remainder

For polynomials with byte coefficients, `a = q g + polyMod a g` for a quotient
`q`, and `polyMod a g` has as many coefficients as the degree of `g`. -/

theorem ALOG_bytes : ∀ x ∈ ALOG, x < 256 := by
  decide!

theorem mult_lt (a b : Nat) : mult a b < 256 := by
  unfold mult
  split
  · decide
  · rw [List.getD_eq_getElem?_getD]
    cases h : ALOG[(LOG.getD a 0 + LOG.getD b 0) % 255]? with
    | none => simp
    | some x => exact ALOG_bytes x (List.getElem?_mem h)

theorem gfMul_one_right (c : Nat) (hc : c < 256) : gfMul c 1 = c := by
  rw [gfMul_eq_xorBits c 1 hc]
  simp [xorBits, Nat.testBit]

theorem mult_one_right (c : Nat) (hc : c < 256) : mult c 1 = c := by
  rw [mult_eq_gfMul c 1 hc (by decide), gfMul_one_right c hc]

theorem isBytes_getD {v : ByteArray} (hv : IsBytes v) (k : Nat) : v.getD k 0 < 256 := by
  rw [List.getD_eq_getElem?_getD]
  cases h : v[k]? with
  | none => simp
  | some x => exact hv x (List.getElem?_mem h)

theorem isBytes_of_getD {v : ByteArray} (h : ∀ k : Nat, v.getD k 0 < 256) : IsBytes v := by
  intro x hx
  obtain ⟨k, hk⟩ := List.mem_iff_getElem?.mp hx
  have := h k
  rw [List.getD_eq_getElem?_getD, hk] at this
  exact this

theorem xor_lt_256 {x y : Nat} (hx : x < 256) (hy : y < 256) : x ^^^ y < 256 :=
  Nat.xor_lt_two_pow (n := 8) hx hy

theorem polyMul_snoc_getD (g : Poly) (c : Nat) :
    ∀ (q : Poly) (k : Nat),
      (polyMul (q ++ [c]) g).getD k 0
        = (polyMul q g).getD k 0 ^^^ (polyShift q.length (polyScale c g)).getD k 0 := by
  intro q
  induction q with
  | nil =>
    intro k
    simp only [List.nil_append, polyMul, polyAdd_getD, polyShift_getD, polyScale_getD,
      List.length_nil]
    simp
  | cons d q ih =>
    intro k
    simp only [List.cons_append, polyMul, polyAdd_getD, polyShift_getD, polyScale_getD,
      List.length_cons, List.append_eq]
    by_cases hk : k < 1
    · have hk2 : k < q.length + 1 := by omega
      simp only [hk, hk2, if_true, Nat.xor_zero]
    · simp only [hk, if_false]
      rw [ih (k - 1), polyShift_getD, polyScale_getD]
      by_cases hk2 : k < q.length + 1
      · have hk3 : k - 1 < q.length := by omega
        simp only [hk2, hk3, if_true, Nat.xor_zero]
      · have hk3 : ¬ (k - 1 < q.length) := by omega
        have hk4 : k - 1 - q.length = k - (q.length + 1) := by omega
        simp only [hk2, hk3, if_false, hk4, Nat.xor_assoc]

/-- One step of the division removes the multiple `c x ^ s g` of the
generator, `c` being the leading coefficient. -/
theorem polyModStep_getD (poly a : Poly) (s : Nat) (ha : a.length = poly.length + s + 1)
    (hbytes : IsBytes a) (k : Nat) :
    a.getD k 0
      = (polyModStep (generator poly) a).getD k 0
        ^^^ (polyShift s (polyScale (a.getLastD 0) (generator poly))).getD k 0 := by
  have hlenG : (generator poly).length = poly.length + 1 := by simp [generator]
  have hs : a.length - (generator poly).length = s := by omega
  have hlenS : (polyAdd a (polyShift s (polyScale (a.getLastD 0) (generator poly)))).length
      = poly.length + s + 1 := by
    simp [polyAdd_length, polyShift_length, polyScale, hlenG, ha]
    omega
  unfold polyModStep
  rw [hs, getD_dropLast, hlenS]
  by_cases hk : k < poly.length + s + 1 - 1
  · rw [if_pos hk, polyAdd_getD, Nat.xor_assoc, Nat.xor_self, Nat.xor_zero]
  · rw [if_neg hk, Nat.zero_xor, polyShift_getD, polyScale_getD]
    by_cases hk2 : k = poly.length + s
    · have h1 : ¬ (k < s) := by omega
      have h2 : k - s = poly.length := by omega
      rw [if_neg h1, h2]
      have hg : (generator poly).getD poly.length 0 = 1 := by
        unfold generator
        rw [getD_append, if_neg (by omega)]
        simp
      rw [hg, getLastD_eq_getD, ha, mult_one_right _ (isBytes_getD hbytes _), hk2]
      rfl
    · have h1 : ¬ (k < s) := by omega
      rw [if_neg h1, getD_of_le a k (by omega),
        getD_of_le (generator poly) (k - s) (by rw [hlenG]; omega), mult_zero_right]

theorem polyModStep_bytes (poly a : Poly) (hbytes : IsBytes a) :
    IsBytes (polyModStep (generator poly) a) := by
  apply isBytes_of_getD
  intro k
  unfold polyModStep
  rw [getD_dropLast]
  split
  · rw [polyAdd_getD, polyShift_getD, polyScale_getD]
    apply xor_lt_256 (isBytes_getD hbytes k)
    split
    · decide
    · exact mult_lt _ _
  · decide

theorem polyModStep_length (poly a : Poly) (s : Nat) (ha : a.length = poly.length + s + 1) :
    (polyModStep (generator poly) a).length = poly.length + s := by
  unfold polyModStep
  simp [polyAdd_length, polyShift_length, polyScale, generator, ha]
  omega

/-- The division identity: `a = q g + polyMod a g`, the quotient `q` having one
coefficient for each step, and the remainder as many as the degree of `g`. -/
theorem polyMod_division (poly : ByteArray) :
    ∀ (s : Nat) (a : Poly), a.length = poly.length + s → IsBytes a →
      ∃ q : Poly, q.length = s ∧
        (polyMod a (generator poly)).length = poly.length ∧
        ∀ k : Nat, a.getD k 0
          = (polyMul q (generator poly)).getD k 0 ^^^ (polyMod a (generator poly)).getD k 0 := by
  intro s
  induction s with
  | zero =>
    intro a ha _
    have h0 : a.length + 1 - (generator poly).length = 0 := by simp [generator, ha]
    refine ⟨[], rfl, ?_, ?_⟩
    · unfold polyMod
      rw [h0]
      simpa using ha
    · intro k
      unfold polyMod
      rw [h0]
      simp [polyMul]
  | succ s ih =>
    intro a ha hbytes
    have ha' : a.length = poly.length + s + 1 := by omega
    have hlenG : (generator poly).length = poly.length + 1 := by simp [generator]
    have hsteps : a.length + 1 - (generator poly).length = s + 1 := by
      rw [hlenG, ha]
      omega
    have hlen' := polyModStep_length poly a s ha'
    have hsteps' : (polyModStep (generator poly) a).length + 1 - (generator poly).length = s := by
      rw [hlenG, hlen']
      omega
    obtain ⟨q, hq, hrlen, hdiv⟩ := ih (polyModStep (generator poly) a) hlen'
      (polyModStep_bytes poly a hbytes)
    have hmod : polyMod a (generator poly)
        = polyMod (polyModStep (generator poly) a) (generator poly) := by
      unfold polyMod
      rw [hsteps, hsteps', Function.iterate_succ_apply]
    refine ⟨q ++ [a.getLastD 0], by simp [hq], by rw [hmod]; exact hrlen, ?_⟩
    intro k
    rw [hmod, polyMul_snoc_getD, hq, polyModStep_getD poly a s ha' hbytes k, hdiv k]
    rw [Nat.xor_assoc, Nat.xor_assoc, Nat.xor_comm ((polyMod _ _).getD k 0)]

theorem strided_bytes (data : ByteArray) (hbytes : IsBytes data) (codeOffset stride : Int)
    (count : Nat) : IsBytes (strided data codeOffset stride count) := by
  intro x hx
  unfold strided at hx
  obtain ⟨i, _, hi⟩ := List.mem_map.mp hx
  rw [← hi]
  exact isBytes_getD hbytes _

theorem dividend_bytes (n : Nat) (ds : ByteArray) (hbytes : IsBytes ds) :
    IsBytes (polyShift n (dataPoly ds)) := by
  intro x hx
  unfold polyShift dataPoly at hx
  rcases List.mem_append.mp hx with h | h
  · rw [List.eq_of_mem_replicate h]
    decide
  · exact hbytes x (List.mem_reverse.mp h)

/-! ## The factor search on the lengths of the table -/

theorem findFactors_catalog (n : Nat)
    (hn : n ∈ [5, 7, 10, 11, 12, 14, 18, 20, 24, 28, 36, 42, 48, 56, 62, 68]) :
    ∃ iter, findFactors (n : Int) = .ok iter ∧ (FACTORS.getD iter []).length = n := by
  have h := findFactors_catalog_check n hn
  cases hf : findFactors (n : Int) with
  | error e => rw [hf] at h; simp at h
  | ok iter =>
    rw [hf] at h
    exact ⟨iter, rfl, by simpa using h⟩

theorem findFactors_small (n : Nat) (hn : n ≤ 68) :
    ∃ iter, findFactors (n : Int) = .ok iter ∧ n ≤ (FACTORS.getD iter []).length := by
  have h := findFactors_small_check n (by omega)
  cases hf : findFactors (n : Int) with
  | error e => rw [hf] at h; simp at h
  | ok iter =>
    rw [hf] at h
    exact ⟨iter, rfl, by simpa using h⟩

theorem catalog_pos (n : Nat)
    (hn : n ∈ [5, 7, 10, 11, 12, 14, 18, 20, 24, 28, 36, 42, 48, 56, 62, 68]) : 0 < n := by
  simp only [List.mem_cons, List.mem_singleton, List.not_mem_nil, or_false] at hn
  omega


/-! ## Interleaved blocks -/

theorem strided_length (data : ByteArray) (codeOffset stride : Int) (count : Nat) :
    (strided data codeOffset stride count).length = count := by
  simp [strided]

theorem strided_congr (data₁ data₂ : ByteArray) (codeOffset stride : Int) (count : Nat)
    (h : ∀ i : Nat, i < count →
      data₁.getD (codeOffset + (i : Int) * stride).toNat 0
        = data₂.getD (codeOffset + (i : Int) * stride).toNat 0) :
    strided data₁ codeOffset stride count = strided data₂ codeOffset stride count := by
  unfold strided
  apply List.map_congr_left
  intro i hi
  exact h i (List.mem_range.mp hi)

/-- Reading a sequence back with stride 1 from the front of a buffer. -/
theorem strided_prefix (ds rest : ByteArray) :
    strided (ds ++ rest) 0 1 ds.length = ds := by
  apply ext_getD (by simp [strided])
  intro k hk
  rw [strided_length] at hk
  unfold strided
  simp only [List.getD_eq_getElem?_getD, List.getElem?_map, List.getElem?_range hk,
    Option.map_some']
  have : ((0 : Int) + (k : Int) * 1).toNat = k := by omega
  rw [this, List.getElem?_append_left hk]
  rfl

theorem block_position_ne {B b b' i i' : Nat} (hb : b < B) (hb' : b' < B) (hne : b ≠ b')
    (c : Nat) : c + b + i * B ≠ c + b' + i' * B := by
  intro h
  have h1 : (b + i * B) % B = (b' + i' * B) % B := by
    have : b + i * B = b' + i' * B := by omega
    rw [this]
  rw [Nat.add_mul_mod_self_right, Nat.add_mul_mod_self_right, Nat.mod_eq_of_lt hb,
    Nat.mod_eq_of_lt hb'] at h1
  exact hne h1

/-- The block loop on a list of distinct block numbers, on a buffer that agrees
with the input below `dataCapacity`: it succeeds, and the error-correction
positions of each block hold the register of that block's own data. -/
theorem blockLoop_spec (symbolInfo : SymbolInfo) (input : ByteArray) (B e iter total : Nat)
    (hcap : symbolInfo.dataCapacity = input.length)
    (hecc : symbolInfo.errorLengthForInterleavedBlock = e)
    (hf : findFactors (e : Int) = .ok iter) (he : 0 < e) (hB : 0 < B) :
    ∀ (blocks : List Nat) (codewords : ByteArray),
      blocks.Nodup →
      (∀ b ∈ blocks, b < B) →
      (∀ b ∈ blocks, ∀ i : Nat, (i : Int) < symbolInfo.dataLengthForInterleavedBlock (b + 1) →
        b + i * B < input.length) →
      (∀ b ∈ blocks, ∀ i : Nat, i < e → input.length + b + i * B < total) →
      codewords.length = total →
      (∀ p : Nat, p < input.length → codewords.getD p 0 = input.getD p 0) →
      ∃ out, blockLoop symbolInfo (B : Int) blocks codewords = (.ok (), out) ∧
        out.length = total ∧
        (∀ p : Nat, (∀ b ∈ blocks, ∀ i : Nat, i < e → input.length + b + i * B ≠ p) →
          out.getD p 0 = codewords.getD p 0) ∧
        ∀ b ∈ blocks, ∀ i : Nat, i < e →
          out.getD (input.length + b + i * B) 0
            = (lfsr (FACTORS.getD iter []) e
                (strided input b B
                  (symbolInfo.dataLengthForInterleavedBlock (b + 1)).toNat)).getD (e - 1 - i) 0 := by
  intro blocks
  induction blocks with
  | nil =>
    intro codewords _ _ _ _ hlen _
    exact ⟨codewords, rfl, hlen, fun _ _ => rfl, fun b hb => absurd hb (List.not_mem_nil b)⟩
  | cons block rest ih =>
    intro codewords hnd hlt hreads hwrites hlen hagree
    have hblock : block < B := hlt block (List.mem_cons_self _ _)
    have hnd' := List.nodup_cons.mp hnd
    -- the call for this block
    have hr : ∀ i : Nat, i < (symbolInfo.dataLengthForInterleavedBlock (block + 1)).toNat →
        0 ≤ (block : Int) + i * (B : Int) ∧ (block : Int) + i * (B : Int) < codewords.length := by
      intro i hi
      have h1 := hreads block (List.mem_cons_self _ _) i (by omega)
      have h2 := hwrites block (List.mem_cons_self _ _) 0 he
      constructor
      · positivity
      · rw [hlen]
        have : ((block + i * B : Nat) : Int) < (total : Int) := by
          exact_mod_cast (by omega : block + i * B < total)
        push_cast at this
        exact this
    have hw : ∀ i : Nat, i < e →
        0 ≤ (symbolInfo.dataCapacity + block) + i * (B : Int) ∧
        (symbolInfo.dataCapacity + block) + i * (B : Int) < codewords.length := by
      intro i hi
      have h2 := hwrites block (List.mem_cons_self _ _) i hi
      rw [hcap, hlen]
      constructor
      · positivity
      · have : ((input.length + block + i * B : Nat) : Int) < (total : Int) := by
          exact_mod_cast h2
        push_cast at this
        exact this
    obtain ⟨mid, hmid, hmidlen, hmidframe, hmidval⟩ :=
      CreateECCBlock_spec codewords (block : Int)
        (symbolInfo.dataLengthForInterleavedBlock (block + 1))
        (symbolInfo.dataCapacity + block) (B : Int) e iter hf he hr hw
    have hpos : ∀ i : Nat, (symbolInfo.dataCapacity + block + (i : Int) * (B : Int)).toNat
        = input.length + block + i * B := by
      intro i
      rw [hcap]
      have : ((input.length : Int) + block + (i : Int) * (B : Int))
          = ((input.length + block + i * B : Nat) : Int) := by push_cast; rfl
      rw [this, Int.toNat_ofNat]
    have hposne : ∀ (i p : Nat), input.length + block + i * B ≠ p →
        symbolInfo.dataCapacity + block + (i : Int) * (B : Int) ≠ (p : Int) := by
      intro i p hne hc
      apply hne
      have := hpos i
      rw [hc, Int.toNat_ofNat] at this
      exact this.symm
    have hmidagree : ∀ p : Nat, p < input.length → mid.getD p 0 = input.getD p 0 := by
      intro p hp
      rw [hmidframe p (fun i _ => hposne i p (by omega))]
      exact hagree p hp
    obtain ⟨out, hout, houtlen, houtframe, houtval⟩ := ih mid hnd'.2
      (fun b hb => hlt b (List.mem_cons_of_mem _ hb))
      (fun b hb => hreads b (List.mem_cons_of_mem _ hb))
      (fun b hb => hwrites b (List.mem_cons_of_mem _ hb))
      (by rw [hmidlen, hlen]) hmidagree
    refine ⟨out, ?_, houtlen, ?_, ?_⟩
    · unfold blockLoop
      rw [hecc, hmid]
      exact hout
    · intro p hp
      rw [houtframe p (fun b hb => hp b (List.mem_cons_of_mem _ hb))]
      exact hmidframe p (fun i hi => hposne i p (hp block (List.mem_cons_self _ _) i hi))
    · intro b hb i hi
      rcases List.mem_cons.mp hb with hbb | hbr
      · subst hbb
        rw [houtframe _ (fun b' hb' i' _ => by
          have hne : b' ≠ b := fun hc => hnd'.1 (hc ▸ hb')
          exact block_position_ne (hlt b' (List.mem_cons_of_mem _ hb')) hblock hne _)]
        have hB0 : (B : Int) ≠ 0 := by exact_mod_cast (by omega : B ≠ 0)
        have := hmidval hB0 i hi
        rw [hpos i] at this
        rw [this]
        congr 2
        apply strided_congr
        intro j hj
        have h1 := hreads b (List.mem_cons_self _ _) j (by omega)
        have h3 : ((b : Int) + (j : Int) * (B : Int)).toNat = b + j * B := by
          have : ((b : Int) + (j : Int) * (B : Int)) = ((b + j * B : Nat) : Int) := by push_cast; rfl
          rw [this, Int.toNat_ofNat]
        rw [h3]
        exact hagree _ h1
      · exact houtval b hbr i hi

/-- The block generator with stride 1 on the sequence `ds` followed by `e`
placeholders: it succeeds, and byte `i` of the error correction is coefficient
`e - 1 - i` of the register. -/
theorem CreateECCBlock_reference (ds : ByteArray) (e iter : Nat)
    (hf : findFactors (e : Int) = .ok iter) (he : 0 < e) :
    ∃ blk, CreateECCBlock (ds ++ List.replicate e 0) 0 ds.length ds.length e 1 = .ok blk ∧
      ∀ i : Nat, i < e →
        blk.getD (ds.length + i) 0 = (lfsr (FACTORS.getD iter []) e ds).getD (e - 1 - i) 0 := by
  have hr : ∀ i : Nat, i < ((ds.length : Nat) : Int).toNat →
      0 ≤ (0 : Int) + i * 1 ∧ (0 : Int) + i * 1 < (ds ++ List.replicate e 0).length := by
    intro i hi
    simp only [Int.toNat_ofNat] at hi
    simp only [List.length_append, List.length_replicate]
    omega
  have hw : ∀ i : Nat, i < e →
      0 ≤ ((ds.length : Nat) : Int) + i * 1 ∧
      ((ds.length : Nat) : Int) + i * 1 < (ds ++ List.replicate e 0).length := by
    intro i hi
    simp only [List.length_append, List.length_replicate]
    omega
  obtain ⟨blk, hblk, _, _, hval⟩ :=
    CreateECCBlock_spec (ds ++ List.replicate e 0) 0 ((ds.length : Nat) : Int)
      ((ds.length : Nat) : Int) 1 e iter hf he hr hw
  refine ⟨blk, hblk, ?_⟩
  intro i hi
  have h := hval (by decide) i hi
  have h1 : (((ds.length : Nat) : Int) + (i : Int) * 1).toNat = ds.length + i := by omega
  rw [h1, Int.toNat_ofNat, strided_prefix] at h
  exact h

/-- The interleaved case of `EncodeECC200`, in terms of the register. -/
theorem EncodeECC200_blocks (input : ByteArray) (symbolInfo : SymbolInfo) (B e iter : Nat)
    (hcap : symbolInfo.dataCapacity = input.length)
    (hblocks : symbolInfo.interleavedBlockCount = B) (hB : 1 < B)
    (hecc : symbolInfo.errorLengthForInterleavedBlock = e) (he : 0 < e)
    (hf : findFactors (e : Int) = .ok iter)
    (hreads : ∀ b i : Nat, b < B →
      (i : Int) < symbolInfo.dataLengthForInterleavedBlock (b + 1) → b + i * B < input.length)
    (hwrites : ∀ b i : Nat, b < B → i < e →
      ((input.length + b + i * B : Nat) : Int) < symbolInfo.codewordCount) :
    ∃ out, EncodeECC200 input symbolInfo = (.ok (), out) ∧
      ∀ b i : Nat, b < B → i < e →
        out.getD (input.length + b + i * B) 0
          = (lfsr (FACTORS.getD iter []) e
              (strided input b B
                (symbolInfo.dataLengthForInterleavedBlock (b + 1)).toNat)).getD (e - 1 - i) 0 := by
  have hcc := hwrites 0 0 (by omega) he
  have hcount : (input.length : Int) ≤ symbolInfo.codewordCount := by
    have : (((input.length + 0 + 0 * B : Nat) : Int)) = (input.length : Int) := by simp
    omega
  obtain ⟨grown, hgrown⟩ : ∃ grown, resize input symbolInfo.codewordCount = .ok grown := by
    unfold resize
    rw [if_neg (by omega)]
    exact ⟨_, rfl⟩
  have hglen := resize_length hgrown
  obtain ⟨out, hout, _, _, hval⟩ := blockLoop_spec symbolInfo input B e iter
    symbolInfo.codewordCount.toNat hcap hecc hf he (by omega) (List.range B) grown
    (List.nodup_range B) (fun b hb => List.mem_range.mp hb)
    (fun b hb i hi => hreads b i (List.mem_range.mp hb) hi)
    (fun b hb i hi => by
      have := hwrites b i (List.mem_range.mp hb) hi
      omega)
    (by omega)
    (fun p hp => resize_getD hgrown p hp hcount)
  refine ⟨out, ?_, fun b i hb hi => hval b (List.mem_range.mpr hb) i hi⟩
  unfold EncodeECC200
  rw [if_neg (by rw [hcap]; simp), hgrown]
  simp only
  rw [if_neg (by rw [hblocks]; exact_mod_cast (by omega : B ≠ 1)), hblocks, Int.toNat_ofNat]
  exact hout

/-! ## The known vector -/

theorem CreateECCBlock_sample :
    CreateECCBlock [142, 164, 186, 0, 0, 0, 0, 0] 0 3 3 5 1
      = .ok [142, 164, 186, 114, 25, 5, 88, 102] := by
  decide!

/-- C1: for a descriptor with dataCapacity 3, codewordCount 8, one interleaved
block and 5 error codewords, `EncodeECC200` on the buffer 142, 164, 186
returns, and leaves the buffer 142, 164, 186, 114, 25, 5, 88, 102. -/
theorem EncodeECC200_known_vector (symbolInfo : SymbolInfo)
    (hcap : symbolInfo.dataCapacity = 3) (hcount : symbolInfo.codewordCount = 8)
    (hblocks : symbolInfo.interleavedBlockCount = 1) (hecc : symbolInfo.errorCodewords = 5) :
    EncodeECC200 [142, 164, 186] symbolInfo
      = (.ok (), [142, 164, 186, 114, 25, 5, 88, 102]) := by
  unfold EncodeECC200
  rw [hcap, hcount, hblocks, hecc]
  have hr : resize [142, 164, 186] 8 = .ok [142, 164, 186, 0, 0, 0, 0, 0] := by decide
  rw [if_neg (by decide), hr]
  simp only [if_true]
  rw [CreateECCBlock_sample]

theorem EncodeECC200_known_vector_witness :
    EncodeECC200 [142, 164, 186] ⟨3, 8, 1, fun _ => 0, 5, 0⟩
      = (.ok (), [142, 164, 186, 114, 25, 5, 88, 102]) :=
  EncodeECC200_known_vector ⟨3, 8, 1, fun _ => 0, 5, 0⟩ rfl rfl rfl rfl

/-! ## Capacity enforcement -/

/-- C4: when the length of the buffer differs from dataCapacity,
`EncodeECC200` throws `std::invalid_argument` with the message "The number of
codewords does not match the selected symbol", and the buffer is as it was
passed in. -/
theorem EncodeECC200_capacity_enforced (codewords : ByteArray) (symbolInfo : SymbolInfo)
    (h : (codewords.length : Int) ≠ symbolInfo.dataCapacity) :
    EncodeECC200 codewords symbolInfo
      = (.error (.invalid_argument "The number of codewords does not match the selected symbol"),
          codewords) :=
  EncodeECC200_mismatch codewords symbolInfo h

theorem EncodeECC200_capacity_enforced_witness :
    EncodeECC200 [142, 164] ⟨3, 8, 1, fun _ => 0, 5, 0⟩
      = (.error (.invalid_argument "The number of codewords does not match the selected symbol"),
          [142, 164]) :=
  EncodeECC200_capacity_enforced [142, 164] ⟨3, 8, 1, fun _ => 0, 5, 0⟩ (by decide)

/-! ## The factor search at a length outside the table -/

/-- C5: at the requested length 6, which is none of the sixteen lengths of the
table, the search of `CreateECCBlock` throws nothing: it selects the second
factor set, of seven coefficients, and `EncodeECC200` with 6 error codewords
returns. -/
theorem findFactors_six_selects_longer_set :
    findFactors 6 = .ok 1 ∧
    FACTORS.getD 1 [] = [23, 68, 144, 134, 240, 92, 254] ∧
    EncodeECC200 [142, 164, 186] ⟨3, 9, 1, fun _ => 0, 6, 0⟩
      = (.ok (), [142, 164, 186, 105, 192, 213, 117, 74, 203]) := by
  decide!

/-! ## Frame and length of the result -/

/-- C6: when codewordCount is at least dataCapacity and `EncodeECC200`
returns, every position below dataCapacity holds the byte it held in the
input: no data codeword is assigned. -/
theorem EncodeECC200_keeps_data (codewords out : ByteArray) (symbolInfo : SymbolInfo)
    (hcount : symbolInfo.dataCapacity ≤ symbolInfo.codewordCount)
    (h : EncodeECC200 codewords symbolInfo = (.ok (), out)) :
    (codewords.length : Int) = symbolInfo.dataCapacity ∧
    ∀ j : Nat, (j : Int) < symbolInfo.dataCapacity →
      j < out.length ∧ out[j]? = codewords[j]? := by
  obtain ⟨hlen, hout, hframe⟩ := EncodeECC200_ok_inv h
  refine ⟨hlen, ?_⟩
  intro j hj
  have hj1 : j < codewords.length := by omega
  have hj2 : j < out.length := by omega
  have := hframe hcount j hj1
  simp only [List.getD_eq_getElem?_getD, List.getElem?_eq_getElem hj1,
    List.getElem?_eq_getElem hj2, Option.getD_some] at this
  exact ⟨hj2, by rw [List.getElem?_eq_getElem hj1, List.getElem?_eq_getElem hj2, this]⟩

theorem EncodeECC200_keeps_data_witness :
    ((3 : Int) = 3) ∧
    ∀ j : Nat, (j : Int) < 3 →
      j < [142, 164, 186, 114, 25, 5, 88, 102].length ∧
      [142, 164, 186, 114, 25, 5, 88, 102][j]? = [142, 164, 186][j]? :=
  EncodeECC200_keeps_data [142, 164, 186] [142, 164, 186, 114, 25, 5, 88, 102]
    ⟨3, 8, 1, fun _ => 0, 5, 0⟩ (by decide) (by decide!)

/-- C8: when `EncodeECC200` returns, the length of the buffer is
codewordCount. -/
theorem EncodeECC200_output_length (codewords out : ByteArray) (symbolInfo : SymbolInfo)
    (h : EncodeECC200 codewords symbolInfo = (.ok (), out)) :
    (out.length : Int) = symbolInfo.codewordCount :=
  (EncodeECC200_ok_inv h).2.1

theorem EncodeECC200_output_length_witness :
    (([142, 164, 186, 114, 25, 5, 88, 102] : ByteArray).length : Int) = 8 :=
  EncodeECC200_output_length [142, 164, 186] [142, 164, 186, 114, 25, 5, 88, 102]
    ⟨3, 8, 1, fun _ => 0, 5, 0⟩ (by decide!)

/-! ## The exception of the factor search -/

/-- C7, as stated, fails: with 100 error codewords the call ends with the
exception of the factor search, and the buffer, passed in with three bytes, is
left with eight. -/
theorem EncodeECC200_illegal_count_grows_buffer :
    EncodeECC200 [142, 164, 186] ⟨3, 8, 1, fun _ => 0, 100, 0⟩
      = (.error (.invalid_argument
          "Illegal number of error correction codewords specified: 100"),
        [142, 164, 186, 0, 0, 0, 0, 0]) ∧
    (EncodeECC200 [142, 164, 186] ⟨3, 8, 1, fun _ => 0, 100, 0⟩).2 ≠ [142, 164, 186] := by
  decide!

/-- C7, amended: when `EncodeECC200` ends with the exception of the factor
search, the buffer is the input resized to codewordCount, the new positions
holding 0: it has been resized, and no position has been assigned since. -/
theorem EncodeECC200_illegal_count_leaves_resized (codewords out : ByteArray)
    (symbolInfo : SymbolInfo) (n : Int)
    (h : EncodeECC200 codewords symbolInfo
      = (.error (.invalid_argument (illegalCountMessage n)), out)) :
    (out.length : Int) = symbolInfo.codewordCount ∧
    out = codewords.take symbolInfo.codewordCount.toNat
      ++ List.replicate (symbolInfo.codewordCount.toNat - codewords.length) 0 := by
  have hr := EncodeECC200_illegal_inv h
  exact ⟨resize_length hr, (resize_eq_ok hr).2⟩

theorem EncodeECC200_illegal_count_leaves_resized_witness :
    ((([142, 164, 186, 0, 0, 0, 0, 0] : ByteArray).length : Int) = 8) ∧
    ([142, 164, 186, 0, 0, 0, 0, 0] : ByteArray)
      = List.take (8 : Int).toNat [142, 164, 186]
        ++ List.replicate ((8 : Int).toNat - [142, 164, 186].length) 0 :=
  EncodeECC200_illegal_count_leaves_resized [142, 164, 186] [142, 164, 186, 0, 0, 0, 0, 0]
    ⟨3, 8, 1, fun _ => 0, 100, 0⟩ 100 (by decide!)

/-! ## The register holds the remainder -/

/-- C2: for each of the sixteen lengths `n` of the table, and every sequence
of data bytes read in range (the bytes `data[codeOffset + i * stride]`,
`i < codeLength`), the factor search selects a set of `n` coefficients, and the
register after the data loop is the remainder of `D(x) x ^ n` by the generator
`g(x)`, coefficient of `x ^ k` at index `k`: it is what the long division
`polyMod` leaves, it has `n` coefficients, and `D(x) x ^ n` is a multiple of
`g(x)` plus it; and when the `n` positions assigned are in range,
`CreateECCBlock` returns with coefficient `n - 1 - i` of that remainder at
error-correction position `i`. -/
theorem CreateECCBlock_register_is_remainder (data : ByteArray)
    (codeOffset codeLength eccOffset stride : Int) (n : Nat)
    (hn : n ∈ [5, 7, 10, 11, 12, 14, 18, 20, 24, 28, 36, 42, 48, 56, 62, 68])
    (hbytes : IsBytes data)
    (hreads : ∀ i : Nat, i < codeLength.toNat →
      0 ≤ codeOffset + i * stride ∧ codeOffset + i * stride < data.length) :
    ∃ iter, findFactors (n : Int) = .ok iter ∧ (FACTORS.getD iter []).length = n ∧
      dataLoop data (FACTORS.getD iter []) codeOffset codeLength n stride
        = .ok (polyMod (polyShift n (dataPoly (strided data codeOffset stride codeLength.toNat)))
            (generator (FACTORS.getD iter []))) ∧
      (polyMod (polyShift n (dataPoly (strided data codeOffset stride codeLength.toNat)))
        (generator (FACTORS.getD iter []))).length = n ∧
      (∃ q : Poly, ∀ k : Nat,
        (polyShift n (dataPoly (strided data codeOffset stride codeLength.toNat))).getD k 0
          = (polyMul q (generator (FACTORS.getD iter []))).getD k 0
            ^^^ (polyMod
                (polyShift n (dataPoly (strided data codeOffset stride codeLength.toNat)))
                (generator (FACTORS.getD iter []))).getD k 0) ∧
      (stride ≠ 0 →
        (∀ i : Nat, i < n → 0 ≤ eccOffset + i * stride ∧ eccOffset + i * stride < data.length) →
        ∃ out, CreateECCBlock data codeOffset codeLength eccOffset n stride = .ok out ∧
          ∀ i : Nat, i < n →
            out.getD (eccOffset + i * stride).toNat 0
              = (polyMod
                  (polyShift n (dataPoly (strided data codeOffset stride codeLength.toNat)))
                  (generator (FACTORS.getD iter []))).getD (n - 1 - i) 0) := by

  obtain ⟨iter, hf, hlen⟩ := findFactors_catalog n hn
  have hpos := catalog_pos n hn
  have hreg : lfsr (FACTORS.getD iter []) n (strided data codeOffset stride codeLength.toNat)
      = polyMod (polyShift n (dataPoly (strided data codeOffset stride codeLength.toNat)))
          (generator (FACTORS.getD iter [])) := by
    have := lfsr_eq_polyMod (FACTORS.getD iter []) (by omega)
      (strided data codeOffset stride codeLength.toNat)
    rw [hlen] at this
    exact this
  have hdiv := polyMod_division (FACTORS.getD iter [])
    (strided data codeOffset stride codeLength.toNat).length
    (polyShift n (dataPoly (strided data codeOffset stride codeLength.toNat)))
    (by rw [polyShift_length, hlen]; simp [dataPoly])
    (dividend_bytes n _ (strided_bytes data hbytes codeOffset stride codeLength.toNat))
  obtain ⟨q, _, hrlen, hq⟩ := hdiv
  refine ⟨iter, hf, hlen, ?_, by rw [hrlen, hlen], ⟨q, hq⟩, ?_⟩
  · have hd := dataLoop_prefix data (FACTORS.getD iter []) codeOffset stride n hpos
      codeLength.toNat hreads
    unfold dataLoop
    rw [Int.toNat_ofNat, hd, hreg]
  · intro hs hwrites
    obtain ⟨out, hout, _, _, hval⟩ := CreateECCBlock_spec data codeOffset codeLength eccOffset
      stride n iter hf hpos hreads hwrites
    refine ⟨out, hout, ?_⟩
    intro i hi
    rw [hval hs i hi, hreg]

theorem CreateECCBlock_register_is_remainder_witness :
    ∃ iter, findFactors ((5 : Nat) : Int) = .ok iter ∧ (FACTORS.getD iter []).length = 5 ∧
      dataLoop [142, 164, 186, 0, 0, 0, 0, 0] (FACTORS.getD iter []) 0 3 (5 : Nat) 1
        = .ok (polyMod
            (polyShift 5 (dataPoly (strided [142, 164, 186, 0, 0, 0, 0, 0] 0 1 (3 : Int).toNat)))
            (generator (FACTORS.getD iter []))) ∧
      (polyMod
        (polyShift 5 (dataPoly (strided [142, 164, 186, 0, 0, 0, 0, 0] 0 1 (3 : Int).toNat)))
        (generator (FACTORS.getD iter []))).length = 5 ∧
      (∃ q : Poly, ∀ k : Nat,
        (polyShift 5
            (dataPoly (strided [142, 164, 186, 0, 0, 0, 0, 0] 0 1 (3 : Int).toNat))).getD k 0
          = (polyMul q (generator (FACTORS.getD iter []))).getD k 0
            ^^^ (polyMod
                (polyShift 5
                  (dataPoly (strided [142, 164, 186, 0, 0, 0, 0, 0] 0 1 (3 : Int).toNat)))
                (generator (FACTORS.getD iter []))).getD k 0) ∧
      ((1 : Int) ≠ 0 →
        (∀ i : Nat, i < 5 → 0 ≤ (3 : Int) + i * 1 ∧
          (3 : Int) + i * 1 < ([142, 164, 186, 0, 0, 0, 0, 0] : ByteArray).length) →
        ∃ out, CreateECCBlock [142, 164, 186, 0, 0, 0, 0, 0] 0 3 3 (5 : Nat) 1 = .ok out ∧
          ∀ i : Nat, i < 5 →
            out.getD ((3 : Int) + i * 1).toNat 0
              = (polyMod
                  (polyShift 5
                    (dataPoly (strided [142, 164, 186, 0, 0, 0, 0, 0] 0 1 (3 : Int).toNat)))
                  (generator (FACTORS.getD iter []))).getD (5 - 1 - i) 0) :=
  CreateECCBlock_register_is_remainder [142, 164, 186, 0, 0, 0, 0, 0] 0 3 3 1 5 (by decide)
    (by decide)
    (by
      intro i hi
      have h3 : (3 : Int).toNat = 3 := rfl
      rw [h3] at hi
      simp only [List.length_cons, List.length_nil]
      omega)

/-! ## Interleaving -/

/-- C3: for a descriptor with `B > 1` interleaved blocks and a per-block
error-correction length `e` between 1 and 68, an input of length dataCapacity,
data positions `b + i * B` inside the input and error-correction positions
`dataCapacity + b + i * B` below codewordCount, `EncodeECC200` returns, and
the byte at `dataCapacity + b + i * B` is byte `i` of the error correction
that `CreateECCBlock` computes with stride 1 on the de-interleaved data of
block `b` alone (`input[b]`, `input[b + B]`, ...), followed by `e`
placeholders. -/
theorem EncodeECC200_interleaving (input : ByteArray) (symbolInfo : SymbolInfo) (B e : Nat)
    (hcap : symbolInfo.dataCapacity = input.length)
    (hblocks : symbolInfo.interleavedBlockCount = B) (hB : 1 < B)
    (hecc : symbolInfo.errorLengthForInterleavedBlock = e) (he1 : 1 ≤ e) (he2 : e ≤ 68)
    (hreads : ∀ b i : Nat, b < B →
      (i : Int) < symbolInfo.dataLengthForInterleavedBlock (b + 1) → b + i * B < input.length)
    (hwrites : ∀ b i : Nat, b < B → i < e →
      ((input.length + b + i * B : Nat) : Int) < symbolInfo.codewordCount) :
    ∃ out, EncodeECC200 input symbolInfo = (.ok (), out) ∧
      ∀ b i : Nat, b < B → i < e →
        ∃ blk,
          CreateECCBlock
              (strided input b B (symbolInfo.dataLengthForInterleavedBlock (b + 1)).toNat
                ++ List.replicate e 0)
              0 (symbolInfo.dataLengthForInterleavedBlock (b + 1)).toNat
              (symbolInfo.dataLengthForInterleavedBlock (b + 1)).toNat e 1 = .ok blk ∧
          out.getD (input.length + b + i * B) 0
            = blk.getD ((symbolInfo.dataLengthForInterleavedBlock (b + 1)).toNat + i) 0 := by
  obtain ⟨iter, hf, _⟩ := findFactors_small e he2
  obtain ⟨out, hout, hval⟩ := EncodeECC200_blocks input symbolInfo B e iter hcap hblocks hB hecc
    (by omega) hf hreads hwrites
  refine ⟨out, hout, ?_⟩
  intro b i hb hi
  obtain ⟨blk, hblk, hblkval⟩ := CreateECCBlock_reference
    (strided input b B (symbolInfo.dataLengthForInterleavedBlock (b + 1)).toNat) e iter hf
    (by omega)
  rw [strided_length] at hblk hblkval
  exact ⟨blk, hblk, by rw [hval b i hb hi, hblkval i hi]⟩

theorem EncodeECC200_interleaving_witness :
    ∃ out, EncodeECC200 [1, 2, 3, 4, 5, 6] ⟨6, 16, 2, fun _ => 3, 100, 5⟩ = (.ok (), out) ∧
      ∀ b i : Nat, b < 2 → i < 5 →
        ∃ blk,
          CreateECCBlock
              (strided [1, 2, 3, 4, 5, 6] b (2 : Nat) ((3 : Int)).toNat ++ List.replicate 5 0)
              0 ((3 : Int)).toNat ((3 : Int)).toNat (5 : Nat) 1 = .ok blk ∧
          out.getD (([1, 2, 3, 4, 5, 6] : ByteArray).length + b + i * 2) 0
            = blk.getD (((3 : Int)).toNat + i) 0 :=
  EncodeECC200_interleaving [1, 2, 3, 4, 5, 6] ⟨6, 16, 2, fun _ => 3, 100, 5⟩ 2 5 rfl rfl
    (by decide) rfl (by decide) (by decide)
    (by
      intro b i hb hi
      have hi3 : (i : Int) < 3 := hi
      simp only [List.length_cons, List.length_nil]
      omega)
    (by
      intro b i hb hi
      simp only [List.length_cons, List.length_nil]
      omega)

/-! ## The field multiplication -/

/-- C9: on bytes, `mult` is the multiplication of GF(256) as Data Matrix
defines it, the carry-less product reduced modulo 301 (0x12D,
`x^8 + x^5 + x^3 + x^2 + 1`); `ALOG[i]` is the power `2 ^ i` in that field for
every index `i` of the table, and `LOG[a]` is an exponent of 2 giving `a`, for
every nonzero byte `a`. -/
theorem mult_is_field_multiplication :
    (∀ a b : Nat, a < 256 → b < 256 → mult a b = gfMul a b) ∧
    (∀ i : Nat, i < 256 → ALOG.getD i 0 = gfPow 2 i) ∧
    (∀ a : Nat, a < 256 → a ≠ 0 → gfPow 2 (LOG.getD a 0) = a) := by
  refine ⟨?_, ALOG_eq_gfPow, gfPow_two_LOG⟩
  intro a b ha hb
  unfold mult
  by_cases ha0 : a = 0
  · subst ha0
    simpa using (gfMul_zero_left b).symm
  by_cases hb0 : b = 0
  · subst hb0
    simpa using (gfMul_zero_right a).symm
  have hc : (a == 0 || b == 0) = false := by simp [ha0, hb0]
  rw [hc]
  simp only [Bool.false_eq_true, if_false]
  rw [ALOG_eq_gfPow _ (by omega), ← gfPow_two_mod, ← gfPow_two_add,
    gfPow_two_LOG a ha ha0, gfPow_two_LOG b hb hb0]

theorem mult_is_field_multiplication_witness : mult 2 128 = gfMul 2 128 ∧ gfMul 2 128 = 45 :=
  ⟨mult_is_field_multiplication.1 2 128 (by decide) (by decide), by decide⟩

/-- C10: `mult` is commutative on bytes. -/
theorem mult_commutative (a b : Nat) (ha : a < 256) (hb : b < 256) : mult a b = mult b a := by
  have _ := ha
  have _ := hb
  unfold mult
  rw [Bool.or_comm, Nat.add_comm]

theorem mult_commutative_witness : mult 142 25 = mult 25 142 :=
  mult_commutative 142 25 (by decide) (by decide)

/-! ## The zero operand of `mult` -/

theorem multTraced_fst (a b : Nat) : (multTraced a b).1 = mult a b := by
  unfold multTraced mult
  split <;> rfl

/-- C11: for every byte `a`, `mult a 0` and `mult 0 a` are 0 and are returned
without any table read; and whatever the operands, `mult` never reads `LOG[0]`:
it reads the tables only when both operands are nonzero. -/
theorem mult_zero_operand (a : Nat) (ha : a < 256) :
    mult a 0 = 0 ∧ mult 0 a = 0 ∧
    multTraced a 0 = (0, []) ∧ multTraced 0 a = (0, []) ∧
    ∀ b : Nat, b < 256 →
      (multTraced a b).1 = mult a b ∧
      TableRead.LOG 0 ∉ (multTraced a b).2 ∧
      ((multTraced a b).2 ≠ [] → a ≠ 0 ∧ b ≠ 0) := by
  have _ := ha
  refine ⟨by simp [mult], by simp [mult], by simp [multTraced], by simp [multTraced], ?_⟩
  intro b _
  refine ⟨multTraced_fst a b, ?_, ?_⟩
  · unfold multTraced
    by_cases h : (a == 0 || b == 0) = true
    · rw [if_pos h]
      simp
    · rw [if_neg h]
      simp only [Bool.or_eq_true, beq_iff_eq, not_or] at h
      simp only [List.mem_cons, TableRead.LOG.injEq, List.mem_singleton, List.not_mem_nil,
        or_false, not_or]
      exact ⟨fun hc => h.1 hc.symm, fun hc => h.2 hc.symm, by simp⟩
  · unfold multTraced
    by_cases h : (a == 0 || b == 0) = true
    · rw [if_pos h]
      simp
    · rw [if_neg h]
      simp only [Bool.or_eq_true, beq_iff_eq, not_or] at h
      intro _
      exact h

theorem mult_zero_operand_witness :
    mult 142 0 = 0 ∧ mult 0 142 = 0 ∧
    multTraced 142 0 = (0, []) ∧ multTraced 0 142 = (0, []) ∧
    ∀ b : Nat, b < 256 →
      (multTraced 142 b).1 = mult 142 b ∧
      TableRead.LOG 0 ∉ (multTraced 142 b).2 ∧
      ((multTraced 142 b).2 ≠ [] → 142 ≠ 0 ∧ b ≠ 0) :=
  mult_zero_operand 142 (by decide)

/-! ## The shape of the generator table -/

/-- C12: the lengths of the sixteen entries of `FACTORS`, in order, are 5, 7,
10, 11, 12, 14, 18, 20, 24, 28, 36, 42, 48, 56, 62, 68: strictly ascending, and
no length occurs twice. -/
theorem FACTORS_lengths :
    FACTORS.map List.length = [5, 7, 10, 11, 12, 14, 18, 20, 24, 28, 36, 42, 48, 56, 62, 68] ∧
    List.Pairwise (fun m n => m < n) (FACTORS.map List.length) ∧
    (FACTORS.map List.length).Nodup := by
  have h : FACTORS.map List.length
      = [5, 7, 10, 11, 12, 14, 18, 20, 24, 28, 36, 42, 48, 56, 62, 68] := by decide!
  rw [h]
  exact ⟨rfl, by decide, by decide⟩

/-! ## The range of the logarithm table -/

theorem LOG_range_zip :
    ∀ p ∈ List.zip (List.range 256) LOG,
      (p.1 ≠ 0 → p.1 ≠ 1 → p.2 ≤ 254) ∧ (p.1 = 1 → p.2 = 255) := by
  decide!

theorem LOG_zip_mem (a : Nat) (ha : a < 256) :
    (a, LOG.getD a 0) ∈ List.zip (List.range 256) LOG := by
  have hl : a < LOG.length := by rw [LOG_length]; exact ha
  have h1 : (List.zip (List.range 256) LOG)[a]? = some (a, LOG.getD a 0) := by
    rw [List.getElem?_zip_eq_some]
    constructor
    · rw [List.getElem?_range ha]
    · rw [List.getD_eq_getElem?_getD, List.getElem?_eq_getElem hl]
      rfl
  exact List.getElem?_mem h1

/-- C13, as stated, fails: the nonzero element 1 has `LOG[1] = 255`, outside
0 .. 254. -/
theorem LOG_one_out_of_range : LOG.getD 1 0 = 255 ∧ ¬ (LOG.getD 1 0 ≤ 254) := by
  decide

/-- C13, amended: for every nonzero field element `a` other than 1, `LOG[a]`
lies in 0 .. 254; and `LOG[1]` is 255. -/
theorem LOG_range (a : Nat) (h1 : 1 ≤ a) (h2 : a ≤ 255) :
    (a ≠ 1 → LOG.getD a 0 ≤ 254) ∧ (a = 1 → LOG.getD a 0 = 255) := by
  have h := LOG_range_zip _ (LOG_zip_mem a (by omega))
  exact ⟨fun hne => h.1 (by omega) hne, h.2⟩

theorem LOG_range_witness :
    ((2 : Nat) ≠ 1 → LOG.getD 2 0 ≤ 254) ∧ ((2 : Nat) = 1 → LOG.getD 2 0 = 255) :=
  LOG_range 2 (by decide) (by decide)

/-! ## The search returns the first entry not shorter than the request -/

/-- When every element compares below the value, `std::lower_bound` returns the
end of the range. -/
theorem lower_bound_loop_all_less {α β : Type} (v : List α) (value : β) (comp : α → β → Bool)
    (h : ∀ x ∈ v, comp x value = true) :
    ∀ (fuel first len : Nat), len ≤ fuel → first + len ≤ v.length →
      lower_bound_loop v value comp fuel first len = first + len := by
  intro fuel
  induction fuel with
  | zero =>
    intro first len hlen _
    have : len = 0 := by omega
    subst this
    rfl
  | succ fuel ih =>
    intro first len hlen hbound
    unfold lower_bound_loop
    by_cases h0 : len = 0
    · rw [if_pos h0, h0]
      rfl
    · rw [if_neg h0]
      simp only
      have hmid : first + len / 2 < v.length := by
        have : len / 2 < len := Nat.div_lt_self (by omega) (by decide)
        omega
      have hget : v.get? (first + len / 2) = some (v.get ⟨first + len / 2, hmid⟩) :=
        List.get?_eq_get hmid
      rw [hget]
      simp only
      rw [h _ (List.get_mem _ _ _), if_pos rfl]
      have hdiv : len / 2 < len := Nat.div_lt_self (by omega) (by decide)
      rw [ih (first + len / 2 + 1) (len - len / 2 - 1) (by omega) (by omega)]
      omega

theorem FACTORS_length_le : ∀ vec ∈ FACTORS, vec.length ≤ 68 := by
  decide!

theorem FACTORS_length : FACTORS.length = 16 := by
  decide

theorem findFactors_above (n : Int) (h1 : 68 < n) (h2 : n < 2 ^ 31) :
    findFactors n = .error (.invalid_argument (illegalCountMessage n)) := by
  have hsize : toSizeT n = n.toNat := by
    unfold toSizeT
    rw [Int.emod_eq_of_lt (by omega) (by omega)]
  have hall : ∀ vec ∈ FACTORS,
      (fun (vec : ByteArray) (size : Nat) => decide (vec.length < size)) vec (toSizeT n) = true := by
    intro vec hvec
    have := FACTORS_length_le vec hvec
    simp only [decide_eq_true_eq, hsize]
    omega
  have hlb := lower_bound_loop_all_less FACTORS (toSizeT n)
    (fun (vec : ByteArray) (size : Nat) => decide (vec.length < size)) hall
    FACTORS.length 0 FACTORS.length (le_refl _) (by omega)
  unfold findFactors
  simp only [lower_bound]
  rw [hlb, Nat.zero_add, if_pos rfl]

theorem findFactors_first_check :
    ∀ n, n < 69 → findFactors ((n : Nat) : Int) = .ok (firstNotShorter n) := by
  decide!

/-- C14: for a requested length `n` from 1 to 68 the search throws nothing and
returns the first entry of `FACTORS` whose length is at least `n`, so that
`CreateECCBlock` never ends with `std::invalid_argument`; at 6 the entry has
length 7.  For a length above 68 (an `int`, so below `2 ^ 31`) the search
throws, `CreateECCBlock` ends with that exception whatever its other arguments,
and `EncodeECC200` on one block leaves the buffer as `resize` made it. -/
theorem findFactors_first_not_shorter (n : Int) (hint : n < 2 ^ 31) :
    (1 ≤ n → n ≤ 68 →
      findFactors n = .ok (firstNotShorter n.toNat) ∧
      firstNotShorter n.toNat < FACTORS.length ∧
      n.toNat ≤ (FACTORS.getD (firstNotShorter n.toNat) []).length ∧
      (∀ k : Nat, k < firstNotShorter n.toNat → (FACTORS.getD k []).length < n.toNat) ∧
      ∀ (data : ByteArray) (codeOffset codeLength eccOffset stride : Int) (what : String),
        CreateECCBlock data codeOffset codeLength eccOffset n stride
          ≠ .error (.invalid_argument what)) ∧
    (FACTORS.getD (firstNotShorter 6) []).length = 7 ∧
    (68 < n →
      (∀ (data : ByteArray) (codeOffset codeLength eccOffset stride : Int),
        CreateECCBlock data codeOffset codeLength eccOffset n stride
          = .error (.invalid_argument (illegalCountMessage n))) ∧
      ∀ (codewords grown : ByteArray) (symbolInfo : SymbolInfo),
        (codewords.length : Int) = symbolInfo.dataCapacity →
        symbolInfo.interleavedBlockCount = 1 →
        symbolInfo.errorCodewords = n →
        resize codewords symbolInfo.codewordCount = .ok grown →
        EncodeECC200 codewords symbolInfo
          = (.error (.invalid_argument (illegalCountMessage n)), grown)) := by
  refine ⟨?_, by decide!, ?_⟩
  · intro h1 h68
    obtain ⟨m, rfl⟩ : ∃ m : Nat, n = (m : Int) := ⟨n.toNat, by omega⟩
    rw [Int.toNat_ofNat]
    have hm : m < 69 := by omega
    have hf := findFactors_first_check m hm
    obtain ⟨iter, hiter, hle⟩ := findFactors_small m (by omega)
    rw [hf] at hiter
    have heq : firstNotShorter m = iter := by
      simpa using hiter
    have hlt : firstNotShorter m < FACTORS.length := by
      unfold firstNotShorter
      apply List.findIdx_lt_length_of_exists
      refine ⟨FACTORS.getD iter [], ?_, by simpa using hle⟩
      have hne : FACTORS.getD iter [] ≠ [] := by
        intro hc
        rw [hc] at hle
        simp at hle
        omega
      rw [List.getD_eq_getElem?_getD] at hne ⊢
      cases hget : FACTORS[iter]? with
      | none => rw [hget] at hne; simp at hne
      | some x => simpa using List.getElem?_mem hget
    refine ⟨hf, hlt, by rw [heq]; exact hle, ?_, ?_⟩
    · intro k hk
      have hk2 : k < FACTORS.length := by omega
      have hk' : k < FACTORS.findIdx (fun (vec : ByteArray) => decide (m ≤ vec.length)) := hk
      have := List.not_of_lt_findIdx hk'
      rw [List.getD_eq_getElem?_getD, List.getElem?_eq_getElem hk2]
      simpa using this
    · intro data codeOffset codeLength eccOffset stride what hc
      have := CreateECCBlock_invalid hc
      rw [hf] at this
      simp at this
  · intro h68
    have hf := findFactors_above n h68 hint
    constructor
    · intro data codeOffset codeLength eccOffset stride
      unfold CreateECCBlock
      rw [hf]
    · intro codewords grown symbolInfo hlen hB hE hr
      unfold EncodeECC200
      rw [if_neg (by simpa using hlen), hr]
      simp only
      rw [if_pos hB, hE]
      unfold CreateECCBlock
      rw [hf]

theorem findFactors_first_not_shorter_witness :
    findFactors 6 = .ok (firstNotShorter (6 : Int).toNat) ∧
    firstNotShorter (6 : Int).toNat < FACTORS.length :=
  ⟨((findFactors_first_not_shorter 6 (by decide)).1 (by decide) (by decide)).1,
    ((findFactors_first_not_shorter 6 (by decide)).1 (by decide) (by decide)).2.1⟩

/-! ## `mult` is linear on bytes -/

theorem mult_swap (a b : Nat) : mult a b = mult b a := by
  unfold mult
  rw [Bool.or_comm, Nat.add_comm]

theorem mult_xor_right (c a b : Nat) (hc : c < 256) (ha : a < 256) (hb : b < 256) :
    mult c (a ^^^ b) = mult c a ^^^ mult c b := by
  rw [mult_eq_gfMul c _ hc (xor_lt_256 ha hb), mult_eq_gfMul c a hc ha, mult_eq_gfMul c b hc hb,
    gfMul_xor_right]

theorem mult_xor_left (a b c : Nat) (ha : a < 256) (hb : b < 256) (hc : c < 256) :
    mult (a ^^^ b) c = mult a c ^^^ mult b c := by
  rw [mult_swap (a ^^^ b) c, mult_swap a c, mult_swap b c, mult_xor_right c a b hc ha hb]

theorem FACTORS_bytes : ∀ vec ∈ FACTORS, IsBytes vec := by
  decide!

theorem FACTORS_getD_bytes (iter : Nat) : IsBytes (FACTORS.getD iter []) := by
  rw [List.getD_eq_getElem?_getD]
  cases h : FACTORS[iter]? with
  | none => intro x hx; simp at hx
  | some vec => exact FACTORS_bytes vec (List.getElem?_mem h)

/-! ## The bytewise XOR of buffers -/

theorem xorBytes_length (u v : ByteArray) (h : u.length = v.length) :
    (xorBytes u v).length = u.length := by
  simp [xorBytes, h]

theorem xorBytes_getD (u v : ByteArray) (h : u.length = v.length) (k : Nat) :
    (xorBytes u v).getD k 0 = u.getD k 0 ^^^ v.getD k 0 := by
  by_cases hk : k < u.length
  · have hk2 : k < v.length := by omega
    simp only [xorBytes, List.getD_eq_getElem?_getD, List.getElem?_zipWith,
      List.getElem?_eq_getElem hk, List.getElem?_eq_getElem hk2]
    rfl
  · rw [getD_of_le _ _ (by rw [xorBytes_length u v h]; omega), getD_of_le _ _ (by omega),
      getD_of_le _ _ (by omega)]
    rfl

theorem xorBytes_bytes (u v : ByteArray) (hu : IsBytes u) (hv : IsBytes v) :
    IsBytes (xorBytes u v) := by
  apply isBytes_of_getD
  intro k
  simp only [xorBytes, List.getD_eq_getElem?_getD, List.getElem?_zipWith]
  cases hu' : u[k]? with
  | none => simp
  | some a =>
    cases hv' : v[k]? with
    | none => simp
    | some b =>
      simp only [Option.getD_some]
      exact xor_lt_256 (hu a (List.getElem?_mem hu')) (hv b (List.getElem?_mem hv'))

theorem xorBytes_set (u v : ByteArray) (h : u.length = v.length) (i a b : Nat) :
    xorBytes (u.set i a) (v.set i b) = (xorBytes u v).set i (a ^^^ b) := by
  apply ext_getD
  · simp [xorBytes]
  · intro k _
    rw [xorBytes_getD _ _ (by simp [h]), getD_set, getD_set, getD_set, xorBytes_getD _ _ h,
      xorBytes_length _ _ h]
    by_cases hik : i = k
    · subst hik
      by_cases hi : i < u.length
      · have hi2 : i < v.length := by omega
        simp [hi, hi2]
      · have hi2 : ¬ i < v.length := by omega
        simp [hi, hi2]
    · simp [hik]

theorem xorBytes_self (u : ByteArray) : xorBytes u u = List.replicate u.length 0 := by
  apply ext_getD
  · simp [xorBytes]
  · intro k _
    rw [xorBytes_getD _ _ rfl, Nat.xor_self, getD_replicate_zero]

theorem xorBytes_replicate_zero (n : Nat) :
    xorBytes (List.replicate n 0) (List.replicate n 0) = List.replicate n 0 := by
  have := xorBytes_self (List.replicate n 0)
  simpa using this

/-! ## The shift register is linear -/

theorem lfsrStep_bytes (poly r : ByteArray) (d : Nat) (hr : IsBytes r) :
    IsBytes (lfsrStep poly r d) := by
  apply isBytes_of_getD
  intro k
  by_cases hk : k < r.length
  · rw [lfsrStep_getD poly r d k hk]
    apply xor_lt_256 _ (mult_lt _ _)
    split
    · decide
    · exact isBytes_getD hr _
  · rw [getD_of_le _ _ (by rw [lfsrStep_length]; omega)]
    decide

theorem lfsrStep_xor (poly r₁ r₂ : ByteArray) (d₁ d₂ : Nat) (hlen : r₁.length = r₂.length)
    (hpoly : IsBytes poly) (h₁ : IsBytes r₁) (h₂ : IsBytes r₂) (hd₁ : d₁ < 256) (hd₂ : d₂ < 256) :
    lfsrStep poly (xorBytes r₁ r₂) (d₁ ^^^ d₂)
      = xorBytes (lfsrStep poly r₁ d₁) (lfsrStep poly r₂ d₂) := by
  have hl := xorBytes_length r₁ r₂ hlen
  apply ext_getD
  · rw [lfsrStep_length, hl, xorBytes_length _ _ (by simp [lfsrStep_length, hlen]),
      lfsrStep_length]
  · intro k hk
    rw [lfsrStep_length, hl] at hk
    have hL := lfsrStep_getD poly (xorBytes r₁ r₂) (d₁ ^^^ d₂) k (by rw [hl]; exact hk)
    have hR := xorBytes_getD (lfsrStep poly r₁ d₁) (lfsrStep poly r₂ d₂)
      (by simp [lfsrStep_length, hlen]) k
    rw [lfsrStep_getD poly r₁ d₁ k hk, lfsrStep_getD poly r₂ d₂ k (by omega)] at hR
    rw [hL, hR, hl, ← hlen, xorBytes_getD r₁ r₂ hlen (r₁.length - 1),
      xor_xor_xor_swap (r₁.getD (r₁.length - 1) 0),
      mult_xor_left _ _ _ (xor_lt_256 (isBytes_getD h₁ _) hd₁)
        (xor_lt_256 (isBytes_getD h₂ _) hd₂) (isBytes_getD hpoly _)]
    by_cases h0 : k = 0
    · simp only [h0, if_true, Nat.zero_xor]
    · simp only [h0, if_false]
      rw [xorBytes_getD r₁ r₂ hlen (k - 1), xor_xor_xor_swap]

/-! ## `CreateECCBlock` and `EncodeECC200` are linear -/

theorem dataStep_eq_ok {data poly ecc r : ByteArray} {codeOffset stride : Int} {i : Nat}
    (h : dataStep data poly codeOffset stride ecc i = .ok r) :
    ecc ≠ [] ∧ 0 ≤ codeOffset + (i : Int) * stride ∧
      codeOffset + (i : Int) * stride < data.length ∧
      r = lfsrStep poly ecc (data.getD (codeOffset + (i : Int) * stride).toNat 0) := by
  have hne : ecc ≠ [] := by
    intro hc
    subst hc
    simp [dataStep] at h
  by_cases hr : 0 ≤ codeOffset + (i : Int) * stride ∧
      codeOffset + (i : Int) * stride < (data.length : Int)
  · rw [dataStep_of_read hne hr.1 hr.2] at h
    simp only [Except.ok.injEq] at h
    exact ⟨hne, hr.1, hr.2, h.symm⟩
  · exfalso
    unfold dataStep at h
    cases hl : ecc.getLast? with
    | none => rw [hl] at h; simp at h
    | some back =>
      rw [hl] at h
      simp only [readAt, hr, if_false] at h
      simp at h

theorem foldlM_range_succ_ok {α : Type} (f : α → Nat → Except Error α) (n : Nat) (a r : α)
    (h : (List.range (n + 1)).foldlM f a = .ok r) :
    ∃ mid, (List.range n).foldlM f a = .ok mid ∧ f mid n = .ok r := by
  rw [foldlM_range_succ] at h
  cases hm : (List.range n).foldlM f a with
  | error e => rw [hm] at h; simp [bind, Except.bind] at h
  | ok mid =>
    rw [hm] at h
    exact ⟨mid, rfl, by simpa [bind, Except.bind] using h⟩

/-- The data loop on the XOR of two buffers leaves the XOR of the registers. -/
theorem dataLoop_prefix_xor (x y poly : ByteArray) (codeOffset stride : Int) (e : Nat)
    (hlen : x.length = y.length) (hx : IsBytes x) (hy : IsBytes y) (hpoly : IsBytes poly) :
    ∀ (n : Nat) (rx ry : ByteArray),
      (List.range n).foldlM (dataStep x poly codeOffset stride) (List.replicate e 0) = .ok rx →
      (List.range n).foldlM (dataStep y poly codeOffset stride) (List.replicate e 0) = .ok ry →
      (List.range n).foldlM (dataStep (xorBytes x y) poly codeOffset stride)
          (List.replicate e 0) = .ok (xorBytes rx ry) ∧
        rx.length = e ∧ ry.length = e ∧ IsBytes rx ∧ IsBytes ry := by
  intro n
  induction n with
  | zero =>
    intro rx ry h1 h2
    simp only [List.range_zero, List.foldlM_nil, pure, Except.pure, Except.ok.injEq] at h1 h2
    subst h1 h2
    refine ⟨?_, by simp, by simp, ?_, ?_⟩
    · rw [xorBytes_replicate_zero]
      rfl
    · intro a ha; rw [List.eq_of_mem_replicate ha]; decide
    · intro a ha; rw [List.eq_of_mem_replicate ha]; decide
  | succ n ih =>
    intro rx ry h1 h2
    obtain ⟨mx, hmx, hsx⟩ := foldlM_range_succ_ok _ _ _ _ h1
    obtain ⟨my, hmy, hsy⟩ := foldlM_range_succ_ok _ _ _ _ h2
    obtain ⟨hxor, hlx, hly, hbx, hby⟩ := ih mx my hmx hmy
    obtain ⟨hnex, h0, h1x, hrx⟩ := dataStep_eq_ok hsx
    obtain ⟨_, _, _, hry⟩ := dataStep_eq_ok hsy
    have hmlen : mx.length = my.length := by rw [hlx, hly]
    have hne : xorBytes mx my ≠ [] := by
      intro hc
      have := xorBytes_length mx my hmlen
      rw [hc] at this
      have : mx = [] := List.length_eq_zero.mp this.symm
      exact hnex this
    have hstep := @dataStep_of_read (xorBytes x y) poly (xorBytes mx my) codeOffset stride n
      hne h0 (by rw [xorBytes_length x y hlen]; exact h1x)
    rw [foldlM_range_succ, hxor]
    simp only [bind, Except.bind]
    rw [hstep, xorBytes_getD x y hlen,
      lfsrStep_xor poly mx my _ _ hmlen hpoly hbx hby (isBytes_getD hx _) (isBytes_getD hy _),
      hrx, hry]
    exact ⟨rfl, by rw [lfsrStep_length]; exact hlx, by rw [lfsrStep_length]; exact hly,
      lfsrStep_bytes _ _ _ hbx, lfsrStep_bytes _ _ _ hby⟩

/-- The storing loop on the XOR of two buffers, with the XOR of the registers,
leaves the XOR of the results. -/
theorem writeLoop_prefix_xor (ex ey : ByteArray) (eccOffset eccLength stride : Int)
    (x y : ByteArray) (hlen : x.length = y.length) (helen : ex.length = ey.length) :
    ∀ (n : Nat) (ox oy : ByteArray),
      (List.range n).foldlM (writeStep ex eccOffset eccLength stride) x = .ok ox →
      (List.range n).foldlM (writeStep ey eccOffset eccLength stride) y = .ok oy →
      (List.range n).foldlM (writeStep (xorBytes ex ey) eccOffset eccLength stride)
          (xorBytes x y) = .ok (xorBytes ox oy) ∧
        ox.length = x.length ∧ oy.length = y.length := by
  intro n
  induction n with
  | zero =>
    intro ox oy h1 h2
    simp only [List.range_zero, List.foldlM_nil, pure, Except.pure, Except.ok.injEq] at h1 h2
    subst h1 h2
    exact ⟨rfl, rfl, rfl⟩
  | succ n ih =>
    intro ox oy h1 h2
    obtain ⟨mx, hmx, hsx⟩ := foldlM_range_succ_ok _ _ _ _ h1
    obtain ⟨my, hmy, hsy⟩ := foldlM_range_succ_ok _ _ _ _ h2
    obtain ⟨hxor, hlx, hly⟩ := ih mx my hmx hmy
    unfold writeStep at hsx hsy
    obtain ⟨h0, h1x, hox⟩ := writeAt_eq_ok hsx
    obtain ⟨_, _, hoy⟩ := writeAt_eq_ok hsy
    have hmlen : mx.length = my.length := by rw [hlx, hly, hlen]
    rw [foldlM_range_succ, hxor]
    simp only [bind, Except.bind, writeStep]
    rw [writeAt_of_lt _ h0 (by rw [xorBytes_length mx my hmlen]; exact h1x),
      xorBytes_getD ex ey helen, ← xorBytes_set mx my hmlen, ← hox, ← hoy]
    refine ⟨rfl, ?_, ?_⟩
    · rw [hox]; simp [hlx]
    · rw [hoy]; simp [hly]

theorem writeLoop_bytes (ecc : ByteArray) (eccOffset eccLength stride : Int) (data : ByteArray)
    (hecc : IsBytes ecc) (hdata : IsBytes data) :
    ∀ (n : Nat) (out : ByteArray),
      (List.range n).foldlM (writeStep ecc eccOffset eccLength stride) data = .ok out →
      IsBytes out := by
  intro n
  induction n with
  | zero =>
    intro out h
    simp only [List.range_zero, List.foldlM_nil, pure, Except.pure, Except.ok.injEq] at h
    subst h
    exact hdata
  | succ n ih =>
    intro out h
    obtain ⟨mid, hmid, hs⟩ := foldlM_range_succ_ok _ _ _ _ h
    unfold writeStep at hs
    obtain ⟨_, _, hout⟩ := writeAt_eq_ok hs
    have hb := ih mid hmid
    subst hout
    apply isBytes_of_getD
    intro k
    rw [getD_set]
    split
    · exact isBytes_getD hecc _
    · exact isBytes_getD hb _

theorem CreateECCBlock_eq_ok {data out : ByteArray}
    {codeOffset codeLength eccOffset eccLength stride : Int}
    (h : CreateECCBlock data codeOffset codeLength eccOffset eccLength stride = .ok out) :
    ∃ iter ecc, findFactors eccLength = .ok iter ∧
      dataLoop data (FACTORS.getD iter []) codeOffset codeLength eccLength stride = .ok ecc ∧
      writeLoop ecc eccOffset eccLength stride data = .ok out := by
  unfold CreateECCBlock at h
  cases hf : findFactors eccLength with
  | error e => rw [hf] at h; simp at h
  | ok iter =>
    rw [hf] at h
    simp only at h
    cases hd : dataLoop data (FACTORS.getD iter []) codeOffset codeLength eccLength stride with
    | error e => rw [hd] at h; simp at h
    | ok ecc =>
      rw [hd] at h
      exact ⟨iter, ecc, rfl, hd, h⟩

/-- `CreateECCBlock` on the XOR of two buffers of bytes, of the same length, on
which it returns: it returns, with the XOR of the two results. -/
theorem CreateECCBlock_xor (x y ox oy : ByteArray)
    (codeOffset codeLength eccOffset eccLength stride : Int)
    (hlen : x.length = y.length) (hx : IsBytes x) (hy : IsBytes y)
    (h1 : CreateECCBlock x codeOffset codeLength eccOffset eccLength stride = .ok ox)
    (h2 : CreateECCBlock y codeOffset codeLength eccOffset eccLength stride = .ok oy) :
    CreateECCBlock (xorBytes x y) codeOffset codeLength eccOffset eccLength stride
        = .ok (xorBytes ox oy) ∧
      ox.length = x.length ∧ oy.length = y.length ∧ IsBytes ox ∧ IsBytes oy := by
  obtain ⟨iter, ex, hf, hdx, hwx⟩ := CreateECCBlock_eq_ok h1
  obtain ⟨iter', ey, hf', hdy, hwy⟩ := CreateECCBlock_eq_ok h2
  rw [hf] at hf'
  simp only [Except.ok.injEq] at hf'
  subst hf'
  unfold dataLoop at hdx hdy
  unfold writeLoop at hwx hwy
  obtain ⟨hd, hlx, hly, hbx, hby⟩ := dataLoop_prefix_xor x y (FACTORS.getD iter []) codeOffset
    stride eccLength.toNat hlen hx hy (FACTORS_getD_bytes iter) codeLength.toNat ex ey hdx hdy
  obtain ⟨hw, hox, hoy⟩ := writeLoop_prefix_xor ex ey eccOffset eccLength stride x y hlen
    (by rw [hlx, hly]) eccLength.toNat ox oy hwx hwy
  refine ⟨?_, hox, hoy, writeLoop_bytes _ _ _ _ _ hbx hx _ _ hwx,
    writeLoop_bytes _ _ _ _ _ hby hy _ _ hwy⟩
  unfold CreateECCBlock
  rw [hf]
  simp only [dataLoop, writeLoop]
  rw [hd]
  exact hw

theorem blockLoop_xor (symbolInfo : SymbolInfo) (blockCount : Int) :
    ∀ (blocks : List Nat) (x y ox oy : ByteArray),
      x.length = y.length → IsBytes x → IsBytes y →
      blockLoop symbolInfo blockCount blocks x = (.ok (), ox) →
      blockLoop symbolInfo blockCount blocks y = (.ok (), oy) →
      blockLoop symbolInfo blockCount blocks (xorBytes x y) = (.ok (), xorBytes ox oy) := by
  intro blocks
  induction blocks with
  | nil =>
    intro x y ox oy _ _ _ h1 h2
    simp only [blockLoop, Prod.mk.injEq, true_and] at h1 h2
    subst h1 h2
    rfl
  | cons block rest ih =>
    intro x y ox oy hlen hx hy h1 h2
    unfold blockLoop at h1 h2 ⊢
    cases hcx : CreateECCBlock x block (symbolInfo.dataLengthForInterleavedBlock (block + 1))
        (symbolInfo.dataCapacity + block) symbolInfo.errorLengthForInterleavedBlock blockCount with
    | error e => rw [hcx] at h1; simp at h1
    | ok mx =>
      cases hcy : CreateECCBlock y block (symbolInfo.dataLengthForInterleavedBlock (block + 1))
          (symbolInfo.dataCapacity + block) symbolInfo.errorLengthForInterleavedBlock
          blockCount with
      | error e => rw [hcy] at h2; simp at h2
      | ok my =>
        rw [hcx] at h1
        rw [hcy] at h2
        simp only at h1 h2
        obtain ⟨hc, hlx, hly, hbx, hby⟩ := CreateECCBlock_xor x y mx my _ _ _ _ _ hlen hx hy
          hcx hcy
        rw [hc]
        simp only
        exact ih mx my ox oy (by rw [hlx, hly, hlen]) hbx hby h1 h2

theorem resize_xor (x y gx gy : ByteArray) (count : Int) (hlen : x.length = y.length)
    (h1 : resize x count = .ok gx) (h2 : resize y count = .ok gy) :
    resize (xorBytes x y) count = .ok (xorBytes gx gy) ∧ gx.length = gy.length := by
  have hl1 := resize_length h1
  have hl2 := resize_length h2
  have hgl : gx.length = gy.length := by omega
  obtain ⟨h0, hgx⟩ := resize_eq_ok h1
  obtain ⟨_, hgy⟩ := resize_eq_ok h2
  refine ⟨?_, hgl⟩
  unfold resize
  rw [if_neg (by omega)]
  congr 1
  apply ext_getD
  · rw [xorBytes_length gx gy hgl]
    simp only [List.length_append, List.length_take, List.length_replicate,
      xorBytes_length x y hlen]
    omega
  · intro k _
    rw [xorBytes_getD gx gy hgl, hgx, hgy]
    simp only [getD_append, List.length_take, getD_replicate_zero, xorBytes_length x y hlen,
      ← hlen]
    by_cases hk : k < min count.toNat x.length
    · simp only [hk, if_true, List.getD_eq_getElem?_getD]
      rw [List.getElem?_take_of_lt (by omega), List.getElem?_take_of_lt (by omega),
        List.getElem?_take_of_lt (by omega)]
      have := xorBytes_getD x y hlen k
      simpa [List.getD_eq_getElem?_getD] using this
    · simp [hk]

/-- The linearity of `EncodeECC200` on buffers of bytes. -/
theorem EncodeECC200_xor (u v ou ov : ByteArray) (symbolInfo : SymbolInfo)
    (hu : IsBytes u) (hv : IsBytes v)
    (h1 : EncodeECC200 u symbolInfo = (.ok (), ou))
    (h2 : EncodeECC200 v symbolInfo = (.ok (), ov)) :
    EncodeECC200 (xorBytes u v) symbolInfo = (.ok (), xorBytes ou ov) := by
  have hlu := (EncodeECC200_ok_inv h1).1
  have hlv := (EncodeECC200_ok_inv h2).1
  have hlen : u.length = v.length := by omega
  unfold EncodeECC200 at h1 h2 ⊢
  rw [if_neg (by simp [hlu])] at h1
  rw [if_neg (by simp [hlv])] at h2
  rw [if_neg (by rw [xorBytes_length u v hlen]; simp [hlu])]
  cases hru : resize u symbolInfo.codewordCount with
  | error e => rw [hru] at h1; simp at h1
  | ok gu =>
    cases hrv : resize v symbolInfo.codewordCount with
    | error e => rw [hrv] at h2; simp at h2
    | ok gv =>
      rw [hru] at h1
      rw [hrv] at h2
      simp only at h1 h2
      obtain ⟨hr, hgl⟩ := resize_xor u v gu gv _ hlen hru hrv
      have hbu : IsBytes gu := by
        rw [(resize_eq_ok hru).2]
        intro a ha
        rcases List.mem_append.mp ha with h | h
        · exact hu a (List.mem_of_mem_take h)
        · rw [List.eq_of_mem_replicate h]; decide
      have hbv : IsBytes gv := by
        rw [(resize_eq_ok hrv).2]
        intro a ha
        rcases List.mem_append.mp ha with h | h
        · exact hv a (List.mem_of_mem_take h)
        · rw [List.eq_of_mem_replicate h]; decide
      rw [hr]
      simp only
      by_cases hB : symbolInfo.interleavedBlockCount = 1
      · rw [if_pos hB] at h1 h2 ⊢
        cases hcu : CreateECCBlock gu 0 symbolInfo.dataCapacity symbolInfo.dataCapacity
            symbolInfo.errorCodewords 1 with
        | error e => rw [hcu] at h1; simp at h1
        | ok mu =>
          cases hcv : CreateECCBlock gv 0 symbolInfo.dataCapacity symbolInfo.dataCapacity
              symbolInfo.errorCodewords 1 with
          | error e => rw [hcv] at h2; simp at h2
          | ok mv =>
            rw [hcu] at h1
            rw [hcv] at h2
            simp only [Prod.mk.injEq, true_and] at h1 h2
            subst h1 h2
            rw [(CreateECCBlock_xor gu gv mu mv _ _ _ _ _ hgl hbu hbv hcu hcv).1]
      · rw [if_neg hB] at h1 h2 ⊢
        exact blockLoop_xor symbolInfo _ _ gu gv ou ov hgl hbu hbv h1 h2

/-! ## Packed tables -/

theorem packedEntry_packTable : ∀ (table : List Nat), IsBytes table → ∀ i : Nat,
    packedEntry (packTable table) i = table.getD i 0 := by
  intro table
  induction table with
  | nil =>
    intro _ i
    simp [packedEntry, packTable]
  | cons x rest ih =>
    intro hb i
    have hx : x < 256 := hb x (List.mem_cons_self _ _)
    have hrest : IsBytes rest := fun y hy => hb y (List.mem_cons_of_mem _ hy)
    have hpack : packTable (x :: rest) = x + 256 * packTable rest := rfl
    cases i with
    | zero =>
      rw [hpack]
      simp only [packedEntry, Nat.mul_zero, Nat.shiftRight_zero]
      rw [Nat.add_mul_mod_self_left, Nat.mod_eq_of_lt hx]
      rfl
    | succ i =>
      have h8 : 8 * (i + 1) = 8 + 8 * i := by ring
      have hdiv : (x + 256 * packTable rest) >>> 8 = packTable rest := by
        rw [Nat.shiftRight_eq_div_pow]
        have : (2 : Nat) ^ 8 = 256 := by norm_num
        rw [this, Nat.add_mul_div_left _ _ (by norm_num : 0 < 256), Nat.div_eq_of_lt hx,
          Nat.zero_add]
      have := ih hrest i
      unfold packedEntry at this ⊢
      rw [hpack, h8, Nat.shiftRight_add, hdiv, this]
      simp

theorem LOG_bytes : ∀ x ∈ LOG, x < 256 := by
  decide!

/-! ## The powers of 2 under `mult` -/

theorem powMult_two_eq_gfPow : ∀ j : Nat, powMult 2 j = gfPow 2 j := by
  intro j
  induction j with
  | zero => rfl
  | succ j ih =>
    have h1 : powMult 2 (j + 1) = mult 2 (powMult 2 j) := by
      simp only [powMult, Function.iterate_succ_apply']
    have h2 : gfPow 2 (j + 1) = gfMul 2 (gfPow 2 j) := by
      simp only [gfPow, Function.iterate_succ_apply']
    rw [h1, h2, ih, mult_eq_gfMul 2 _ (by decide) (gfPow_two_lt j)]

theorem powMult_two_lt (j : Nat) : powMult 2 j < 256 := by
  rw [powMult_two_eq_gfPow]
  exact gfPow_two_lt j

theorem scaleByPow_eq (j c : Nat) (hc : c < 256) :
    scaleByPow (packTable LOG) (packTable ALOG) j c = mult c (powMult 2 j) := by
  unfold scaleByPow
  by_cases h0 : c = 0
  · rw [if_pos h0, h0]
    simp [mult]
  · rw [if_neg h0, packedEntry_packTable LOG LOG_bytes, packedEntry_packTable ALOG ALOG_bytes,
      ALOG_eq_gfPow _ (by omega), ← gfPow_two_mod, ← gfPow_two_add, gfPow_two_LOG c hc h0,
      powMult_two_eq_gfPow, mult_eq_gfMul c _ hc (gfPow_two_lt j)]

theorem mulLinearLog_eq (j : Nat) (p : Poly) (hp : IsBytes p) :
    mulLinearLog (packTable LOG) (packTable ALOG) j p = mulLinear (powMult 2 j) p := by
  unfold mulLinearLog mulLinear
  congr 2
  apply List.map_congr_left
  intro c hc
  exact scaleByPow_eq j c (hp c hc)

/-! ## The product by a linear factor -/

theorem mulLinear_length (α : Nat) (p : Poly) : (mulLinear α p).length = p.length + 1 := by
  simp [mulLinear]

theorem mulLinear_getD (α : Nat) (p : Poly) (k : Nat) :
    (mulLinear α p).getD k 0
      = (if k = 0 then 0 else p.getD (k - 1) 0) ^^^ mult (p.getD k 0) α := by
  have hmult0 : mult 0 α = 0 := by simp [mult]
  by_cases hk : k < p.length + 1
  · have h1 : k < (0 :: p).length := by simpa using hk
    have h2 : k < (p.map (fun c => mult c α) ++ [0]).length := by simpa using hk
    have hA : (0 :: p).getD k 0 = if k = 0 then 0 else p.getD (k - 1) 0 := by
      cases k with
      | zero => rfl
      | succ k => simp
    have hB : (p.map (fun c => mult c α) ++ [0]).getD k 0 = mult (p.getD k 0) α := by
      rw [getD_append, List.length_map]
      by_cases hkp : k < p.length
      · rw [if_pos hkp]
        simp [List.getD_eq_getElem?_getD, List.getElem?_map, List.getElem?_eq_getElem hkp]
      · rw [if_neg hkp, getD_of_le p k (by omega), hmult0]
        have : k - p.length = 0 := by omega
        rw [this]
        rfl
    have hz := xorBytes_getD (0 :: p) (p.map (fun c => mult c α) ++ [0]) (by simp) k
    unfold xorBytes at hz
    unfold mulLinear
    rw [hz, hA, hB]
  · have hk1 : ¬ (k = 0) := by omega
    rw [getD_of_le _ _ (by rw [mulLinear_length]; omega), if_neg hk1, getD_of_le p _ (by omega),
      getD_of_le p _ (by omega), hmult0]
    rfl

theorem polyMul_linear_getD (α : Nat) : ∀ (p : Poly) (k : Nat),
    (polyMul p [α, 1]).getD k 0
      = mult (p.getD k 0) α ^^^ (if k = 0 then 0 else mult (p.getD (k - 1) 0) 1) := by
  have hmult0 : ∀ y, mult 0 y = 0 := by intro y; simp [mult]
  intro p
  induction p with
  | nil =>
    intro k
    simp only [polyMul, List.getD_nil, hmult0]
    split <;> rfl
  | cons c q ih =>
    intro k
    simp only [polyMul, polyAdd_getD, polyShift_getD, polyScale_getD]
    cases k with
    | zero => simp
    | succ k =>
      have h1 : ¬ (k + 1 < 1) := by omega
      have h2 : ¬ (k + 1 = 0) := by omega
      simp only [h1, h2, if_false, Nat.add_sub_cancel, List.getD_cons_succ]
      rw [ih k]
      cases k with
      | zero =>
        simp only [List.getD_cons_zero, if_true, Nat.xor_zero]
        rw [Nat.xor_comm]
      | succ k =>
        have h3 : ¬ (k + 1 = 0) := by omega
        simp only [h3, if_false, List.getD_nil, mult_zero_right, Nat.zero_xor, Nat.add_sub_cancel,
          List.getD_cons_succ]

theorem polyMul_linear_length (α : Nat) : ∀ (p : Poly), p ≠ [] →
    (polyMul p [α, 1]).length = p.length + 1 := by
  intro p
  induction p with
  | nil => intro h; exact absurd rfl h
  | cons c q ih =>
    intro _
    simp only [polyMul, polyAdd_length, polyShift_length, polyScale, List.length_map,
      List.length_cons, List.length_nil]
    cases q with
    | nil => simp [polyMul]
    | cons d q' =>
      rw [ih (by simp)]
      simp only [List.length_cons]
      omega

theorem polyMul_linear (α : Nat) (p : Poly) (hne : p ≠ []) (hp : IsBytes p) :
    polyMul p [α, 1] = mulLinear α p := by
  apply ext_getD
  · rw [polyMul_linear_length α p hne, mulLinear_length]
  · intro k _
    rw [polyMul_linear_getD, mulLinear_getD, Nat.xor_comm]
    congr 1
    by_cases h0 : k = 0
    · simp only [h0, if_true]
    · simp only [h0, if_false]
      exact mult_one_right _ (isBytes_getD hp _)

/-! ## The generator table holds the products of linear factors -/

theorem mulLinear_bytes (α : Nat) (p : Poly) (hp : IsBytes p) : IsBytes (mulLinear α p) := by
  apply isBytes_of_getD
  intro k
  rw [mulLinear_getD]
  apply xor_lt_256 _ (mult_lt _ _)
  split
  · decide
  · exact isBytes_getD hp _

theorem rsGenerator_succ_polyMul (n : Nat) :
    rsGenerator (n + 1) = polyMul (rsGenerator n) [powMult 2 (n + 1), 1] := by
  simp [rsGenerator, List.range_succ, List.foldl_append]

theorem rsGenerator_inv : ∀ n : Nat,
    (rsGenerator n).length = n + 1 ∧ IsBytes (rsGenerator n) ∧
    rsGenerator (n + 1) = mulLinear (powMult 2 (n + 1)) (rsGenerator n) := by
  intro n
  induction n with
  | zero =>
    have h0 : rsGenerator 0 = [1] := rfl
    have hb : IsBytes (rsGenerator 0) := by rw [h0]; decide
    refine ⟨by rw [h0]; rfl, hb, ?_⟩
    rw [rsGenerator_succ_polyMul, polyMul_linear _ _ (by rw [h0]; simp) hb]
  | succ n ih =>
    obtain ⟨hlen, hb, hs⟩ := ih
    have hlen' : (rsGenerator (n + 1)).length = n + 1 + 1 := by
      rw [hs, mulLinear_length, hlen]
    have hb' : IsBytes (rsGenerator (n + 1)) := by
      rw [hs]
      exact mulLinear_bytes _ _ hb
    refine ⟨hlen', hb', ?_⟩
    rw [rsGenerator_succ_polyMul, polyMul_linear _ _ ?_ hb']
    intro hc
    rw [hc] at hlen'
    simp at hlen'

theorem generatorChain_sound :
    ∀ (fuel j : Nat) (entries : List ByteArray),
      generatorChain (packTable LOG) (packTable ALOG) fuel j (rsGenerator j) entries = true →
      ∀ e ∈ entries, generator e = rsGenerator e.length := by
  intro fuel
  induction fuel with
  | zero =>
    intro j entries h e he
    simp only [generatorChain, List.isEmpty_eq_true] at h
    rw [h] at he
    simp at he
  | succ fuel ih =>
    intro j entries h e he
    cases entries with
    | nil => simp at he
    | cons e' rest =>
      unfold generatorChain at h
      by_cases hl : (rsGenerator j).length = e'.length + 1
      · rw [if_pos hl] at h
        simp only [Bool.and_eq_true, beq_iff_eq] at h
        rcases List.mem_cons.mp he with rfl | hrest
        · have hj : j = e.length := by
            have := (rsGenerator_inv j).1
            omega
          rw [← h.1, hj]
        · exact ih j rest h.2 e hrest
      · rw [if_neg hl] at h
        obtain ⟨_, hb, hs⟩ := rsGenerator_inv j
        rw [mulLinearLog_eq _ _ hb, ← hs] at h
        exact ih (j + 1) (e' :: rest) h e he

theorem FACTORS_generatorChain :
    generatorChain (packTable LOG) (packTable ALOG) 100 0 (rsGenerator 0) FACTORS = true := by
  decide!

theorem FACTORS_rsGenerator : ∀ poly ∈ FACTORS, generator poly = rsGenerator poly.length :=
  generatorChain_sound 100 0 FACTORS FACTORS_generatorChain

/-! ## `mult` is associative on bytes -/

theorem mult_zero_left (b : Nat) : mult 0 b = 0 := by
  simp [mult]

theorem mult_gfPow (a b : Nat) (ha : a < 256) (hb : b < 256) (ha0 : a ≠ 0) (hb0 : b ≠ 0) :
    mult a b = gfPow 2 (LOG.getD a 0 + LOG.getD b 0) := by
  rw [mult_eq_gfMul a b ha hb, ← gfPow_two_add, gfPow_two_LOG a ha ha0, gfPow_two_LOG b hb hb0]

theorem mult_gfPow_left (i b : Nat) (hb : b < 256) (hb0 : b ≠ 0) :
    mult (gfPow 2 i) b = gfPow 2 (i + LOG.getD b 0) := by
  rw [mult_eq_gfMul _ b (gfPow_two_lt i) hb, ← gfPow_two_add, gfPow_two_LOG b hb hb0]

theorem mult_gfPow_right (a j : Nat) (ha : a < 256) (ha0 : a ≠ 0) :
    mult a (gfPow 2 j) = gfPow 2 (LOG.getD a 0 + j) := by
  rw [mult_eq_gfMul a _ ha (gfPow_two_lt j), ← gfPow_two_add, gfPow_two_LOG a ha ha0]

theorem mult_assoc_bytes (a b c : Nat) (ha : a < 256) (hb : b < 256) (hc : c < 256) :
    mult (mult a b) c = mult a (mult b c) := by
  by_cases ha0 : a = 0
  · subst ha0; simp [mult_zero_left]
  by_cases hb0 : b = 0
  · subst hb0; simp [mult_zero_left, mult_zero_right]
  by_cases hc0 : c = 0
  · subst hc0; simp [mult_zero_right]
  rw [mult_gfPow a b ha hb ha0 hb0, mult_gfPow b c hb hc hb0 hc0, mult_gfPow_left _ c hc hc0,
    mult_gfPow_right a _ ha ha0, Nat.add_assoc]

theorem mult_left_comm_bytes (a b c : Nat) (ha : a < 256) (hb : b < 256) (hc : c < 256) :
    mult a (mult b c) = mult b (mult a c) := by
  rw [← mult_assoc_bytes a b c ha hb hc, mult_swap a b, mult_assoc_bytes b a c hb ha hc]

theorem mult_one_left (c : Nat) (hc : c < 256) : mult 1 c = c := by
  rw [mult_swap, mult_one_right c hc]

/-! ## Values of polynomials -/

theorem polyEval_lt (p : Poly) (x : Nat) (hp : IsBytes p) : polyEval p x < 256 := by
  cases p with
  | nil => simp [polyEval]
  | cons c p =>
    simp only [polyEval]
    exact xor_lt_256 (hp c (List.mem_cons_self _ _)) (mult_lt _ _)

theorem isBytes_tail {c : Nat} {p : Poly} (h : IsBytes (c :: p)) : IsBytes p :=
  fun y hy => h y (List.mem_cons_of_mem _ hy)

theorem polyEval_zero (x : Nat) : ∀ p : Poly, (∀ k : Nat, p.getD k 0 = 0) → polyEval p x = 0 := by
  intro p
  induction p with
  | nil => intro _; rfl
  | cons c p ih =>
    intro h
    have hc : c = 0 := by simpa using h 0
    have hp : ∀ k : Nat, p.getD k 0 = 0 := fun k => by simpa using h (k + 1)
    simp only [polyEval, hc, ih hp, mult_zero_right, Nat.xor_self]

/-- Two lists with the same coefficients have the same value. -/
theorem polyEval_congr (x : Nat) : ∀ p q : Poly, (∀ k : Nat, p.getD k 0 = q.getD k 0) →
    polyEval p x = polyEval q x := by
  intro p
  induction p with
  | nil =>
    intro q h
    rw [polyEval_zero x q (fun k => by rw [← h k]; rfl)]
    rfl
  | cons a p ih =>
    intro q h
    cases q with
    | nil =>
      rw [polyEval_zero x (a :: p) (fun k => by rw [h k]; rfl)]
      rfl
    | cons b q =>
      have hab : a = b := by simpa using h 0
      have hpq : ∀ k : Nat, p.getD k 0 = q.getD k 0 := fun k => by simpa using h (k + 1)
      simp only [polyEval, hab, ih q hpq]

theorem polyEval_add (x : Nat) (hx : x < 256) : ∀ p q : Poly, IsBytes p → IsBytes q →
    polyEval (polyAdd p q) x = polyEval p x ^^^ polyEval q x := by
  intro p
  induction p with
  | nil =>
    intro q _ _
    rw [polyEval_congr x (polyAdd [] q) q (fun k => by rw [polyAdd_getD]; simp)]
    simp [polyEval]
  | cons a p ih =>
    intro q hp hq
    cases q with
    | nil =>
      rw [polyEval_congr x (polyAdd (a :: p) []) (a :: p)
        (fun k => by rw [polyAdd_getD]; simp)]
      simp [polyEval]
    | cons b q =>
      have hcoef : ∀ k : Nat, (polyAdd (a :: p) (b :: q)).getD k 0
          = ((a ^^^ b) :: polyAdd p q).getD k 0 := by
        intro k
        rw [polyAdd_getD]
        cases k with
        | zero => simp
        | succ k =>
          simp only [List.getD_cons_succ]
          rw [polyAdd_getD]
      rw [polyEval_congr x _ _ hcoef]
      simp only [polyEval]
      rw [ih q (isBytes_tail hp) (isBytes_tail hq),
        mult_xor_right x _ _ hx (polyEval_lt p x (isBytes_tail hp))
          (polyEval_lt q x (isBytes_tail hq)), xor_xor_xor_swap]

theorem polyScale_bytes (c : Nat) (p : Poly) : IsBytes (polyScale c p) := by
  intro y hy
  unfold polyScale at hy
  obtain ⟨a, _, rfl⟩ := List.mem_map.mp hy
  exact mult_lt _ _

theorem polyEval_scale (x c : Nat) (hx : x < 256) (hc : c < 256) : ∀ p : Poly, IsBytes p →
    polyEval (polyScale c p) x = mult c (polyEval p x) := by
  intro p
  induction p with
  | nil => intro _; simp [polyScale, polyEval, mult_zero_right]
  | cons a p ih =>
    intro hp
    have ha : a < 256 := hp a (List.mem_cons_self _ _)
    have hcons : polyScale c (a :: p) = mult c a :: polyScale c p := rfl
    rw [hcons]
    simp only [polyEval]
    rw [ih (isBytes_tail hp), mult_xor_right c _ _ hc ha (mult_lt _ _),
      mult_left_comm_bytes x c _ hx hc (polyEval_lt p x (isBytes_tail hp))]

theorem polyEval_shift_one (x : Nat) (p : Poly) :
    polyEval (polyShift 1 p) x = mult x (polyEval p x) := by
  have : polyShift 1 p = 0 :: p := rfl
  rw [this]
  simp [polyEval]

theorem polyAdd_bytes (p q : Poly) (hp : IsBytes p) (hq : IsBytes q) : IsBytes (polyAdd p q) := by
  apply isBytes_of_getD
  intro k
  rw [polyAdd_getD]
  exact xor_lt_256 (isBytes_getD hp k) (isBytes_getD hq k)

theorem polyShift_bytes (n : Nat) (p : Poly) (hp : IsBytes p) : IsBytes (polyShift n p) := by
  intro y hy
  unfold polyShift at hy
  rcases List.mem_append.mp hy with h | h
  · rw [List.eq_of_mem_replicate h]; decide
  · exact hp y h

theorem polyMul_bytes (g : Poly) (hg : IsBytes g) : ∀ q : Poly, IsBytes (polyMul q g) := by
  have _ := hg
  intro q
  induction q with
  | nil => intro y hy; simp [polyMul] at hy
  | cons c q ih =>
    simp only [polyMul]
    exact polyAdd_bytes _ _ (polyScale_bytes c g) (polyShift_bytes 1 _ ih)

/-- The value of a product is the product of the values. -/
theorem polyEval_mul (x : Nat) (hx : x < 256) (g : Poly) (hg : IsBytes g) :
    ∀ q : Poly, IsBytes q →
      polyEval (polyMul q g) x = mult (polyEval q x) (polyEval g x) := by
  intro q
  induction q with
  | nil => intro _; simp [polyMul, polyEval, mult_zero_left]
  | cons c q ih =>
    intro hq
    have hc : c < 256 := hq c (List.mem_cons_self _ _)
    simp only [polyMul]
    rw [polyEval_add x hx _ _ (polyScale_bytes c g) (polyShift_bytes 1 _ (polyMul_bytes g hg q)),
      polyEval_scale x c hx hc g hg, polyEval_shift_one, ih (isBytes_tail hq)]
    simp only [polyEval]
    rw [mult_xor_left c _ _ hc (mult_lt _ _) (polyEval_lt g x hg),
      mult_assoc_bytes x _ _ hx (polyEval_lt q x (isBytes_tail hq)) (polyEval_lt g x hg)]

/-! ## The roots of the generators -/

theorem polyEval_linear (α x : Nat) (hα : α < 256) (hx : x < 256) :
    polyEval [α, 1] x = α ^^^ x := by
  have _ := hα
  simp only [polyEval, mult_zero_right, Nat.xor_zero, mult_one_right x hx]

theorem polyEval_rsGenerator_succ (n x : Nat) (hx : x < 256) :
    polyEval (rsGenerator (n + 1)) x
      = mult (polyEval (rsGenerator n) x) (powMult 2 (n + 1) ^^^ x) := by
  have hbl : IsBytes [powMult 2 (n + 1), 1] := by
    intro y hy
    simp only [List.mem_cons, List.mem_singleton, List.not_mem_nil, or_false] at hy
    rcases hy with rfl | rfl
    · exact powMult_two_lt _
    · decide
  rw [rsGenerator_succ_polyMul, polyEval_mul x hx _ hbl _ (rsGenerator_inv n).2.1,
    polyEval_linear _ x (powMult_two_lt _) hx]

/-- The powers `2 ^ 1` to `2 ^ n` are roots of the product of the `x + 2 ^ j`,
`j` from 1 to `n`. -/
theorem polyEval_rsGenerator_root : ∀ (n i : Nat), 1 ≤ i → i ≤ n →
    polyEval (rsGenerator n) (powMult 2 i) = 0 := by
  intro n
  induction n with
  | zero => intro i h1 h2; omega
  | succ n ih =>
    intro i h1 h2
    rw [polyEval_rsGenerator_succ n _ (powMult_two_lt i)]
    by_cases hi : i = n + 1
    · rw [hi, Nat.xor_self, mult_zero_right]
    · rw [ih i h1 (by omega), mult_zero_left]

/-! ## A codeword as a polynomial -/

theorem powMult_lt (x k : Nat) : powMult x k < 256 := by
  cases k with
  | zero => simp [powMult]
  | succ k =>
    simp only [powMult, Function.iterate_succ_apply']
    exact mult_lt _ _

theorem powMult_succ (x k : Nat) : powMult x (k + 1) = mult x (powMult x k) := by
  simp only [powMult, Function.iterate_succ_apply']

theorem polyEval_snoc (x a : Nat) (hx : x < 256) (ha : a < 256) : ∀ p : Poly, IsBytes p →
    polyEval (p ++ [a]) x = polyEval p x ^^^ mult a (powMult x p.length) := by
  intro p
  induction p with
  | nil =>
    intro _
    have h1 : powMult x 0 = 1 := rfl
    simp only [List.nil_append, polyEval, mult_zero_right, Nat.xor_zero, List.length_nil, h1,
      mult_one_right a ha, Nat.zero_xor]
  | cons c p ih =>
    intro hp
    simp only [List.cons_append, polyEval, List.length_cons, List.append_eq]
    rw [ih (isBytes_tail hp), mult_xor_right x _ _ hx (polyEval_lt p x (isBytes_tail hp))
      (mult_lt _ _), powMult_succ, mult_left_comm_bytes x a _ hx ha (powMult_lt x _),
      Nat.xor_assoc]

/-- The value of a codeword is the value, by Horner's rule, of the list of its
coefficients in ascending degree. -/
theorem codewordEval_eq_polyEval (x : Nat) (hx : x < 256) : ∀ c : ByteArray, IsBytes c →
    codewordEval c x = polyEval c.reverse x := by
  intro c
  induction c with
  | nil => intro _; rfl
  | cons a rest ih =>
    intro hc
    have ha : a < 256 := hc a (List.mem_cons_self _ _)
    have hrev : IsBytes rest.reverse := fun y hy => hc y (List.mem_cons_of_mem _ (List.mem_reverse.mp hy))
    simp only [codewordEval, List.reverse_cons]
    rw [polyEval_snoc x a hx ha _ hrev, List.length_reverse, ih (isBytes_tail hc), Nat.xor_comm]

/-! ## The quotient of the division has byte coefficients -/

theorem polyMod_quotient (poly : ByteArray) :
    ∀ (s : Nat) (a : Poly), a.length = poly.length + s → IsBytes a →
      ∃ q : Poly, q.length = s ∧ IsBytes q ∧
        ∀ k : Nat, a.getD k 0
          = (polyMul q (generator poly)).getD k 0 ^^^ (polyMod a (generator poly)).getD k 0 := by
  intro s
  induction s with
  | zero =>
    intro a ha _
    have h0 : a.length + 1 - (generator poly).length = 0 := by simp [generator, ha]
    refine ⟨[], rfl, by intro y hy; simp at hy, ?_⟩
    intro k
    unfold polyMod
    rw [h0]
    simp [polyMul]
  | succ s ih =>
    intro a ha hbytes
    have ha' : a.length = poly.length + s + 1 := by omega
    have hlenG : (generator poly).length = poly.length + 1 := by simp [generator]
    have hsteps : a.length + 1 - (generator poly).length = s + 1 := by
      rw [hlenG, ha]
      omega
    have hlen' := polyModStep_length poly a s ha'
    have hsteps' : (polyModStep (generator poly) a).length + 1 - (generator poly).length = s := by
      rw [hlenG, hlen']
      omega
    obtain ⟨q, hq, hqb, hdiv⟩ := ih (polyModStep (generator poly) a) hlen'
      (polyModStep_bytes poly a hbytes)
    have hmod : polyMod a (generator poly)
        = polyMod (polyModStep (generator poly) a) (generator poly) := by
      unfold polyMod
      rw [hsteps, hsteps', Function.iterate_succ_apply]
    have hlead : a.getLastD 0 < 256 := by
      rw [getLastD_eq_getD]
      exact isBytes_getD hbytes _
    refine ⟨q ++ [a.getLastD 0], by simp [hq], ?_, ?_⟩
    · intro y hy
      rcases List.mem_append.mp hy with h | h
      · exact hqb y h
      · rw [List.mem_singleton.mp h]
        exact hlead
    · intro k
      rw [hmod, polyMul_snoc_getD, hq, polyModStep_getD poly a s ha' hbytes k, hdiv k]
      rw [Nat.xor_assoc, Nat.xor_assoc, Nat.xor_comm ((polyMod _ _).getD k 0)]

/-! ## Two coefficients of the products of linear factors -/

theorem triangle_succ (n : Nat) : (n + 1) * (n + 1 + 1) / 2 = n * (n + 1) / 2 + (n + 1) := by
  have h : (n + 1) * (n + 1 + 1) = n * (n + 1) + 2 * (n + 1) := by ring
  rw [h, Nat.add_mul_div_left _ _ (by decide : 0 < 2)]

theorem rsGenerator_coeffs : ∀ n : Nat,
    (rsGenerator n).getD n 0 = 1 ∧
    (rsGenerator n).getD 0 0 = powMult 2 (n * (n + 1) / 2) ∧
    (rsGenerator (n + 1)).getD n 0
      = (List.range (n + 1)).foldl (fun acc j => acc ^^^ powMult 2 (j + 1)) 0 := by
  intro n
  induction n with
  | zero =>
    have h0 : rsGenerator 0 = [1] := rfl
    refine ⟨by rw [h0]; rfl, by rw [h0]; rfl, ?_⟩
    have hr1 : List.range (0 + 1) = [0] := rfl
    rw [(rsGenerator_inv 0).2.2, mulLinear_getD, h0, hr1]
    simp only [if_true, List.getD_cons_zero, Nat.zero_xor, List.foldl_cons, List.foldl_nil]
    exact mult_one_left _ (powMult_two_lt _)
  | succ n ih =>
    obtain ⟨hlead, hconst, hsub⟩ := ih
    obtain ⟨hlen, _, hs⟩ := rsGenerator_inv n
    obtain ⟨hlen1, _, hs1⟩ := rsGenerator_inv (n + 1)
    have hlead1 : (rsGenerator (n + 1)).getD (n + 1) 0 = 1 := by
      rw [hs, mulLinear_getD, if_neg (by omega), Nat.add_sub_cancel, hlead,
        getD_of_le _ _ (by omega : (rsGenerator n).length ≤ n + 1), mult_zero_left,
        Nat.xor_zero]
    refine ⟨hlead1, ?_, ?_⟩
    · rw [hs, mulLinear_getD, if_pos rfl, Nat.zero_xor, hconst, powMult_two_eq_gfPow,
        powMult_two_eq_gfPow, powMult_two_eq_gfPow,
        mult_eq_gfMul _ _ (gfPow_two_lt _) (gfPow_two_lt _), gfPow_two_add, triangle_succ]
    · rw [hs1, mulLinear_getD, if_neg (by omega), Nat.add_sub_cancel, hsub, hlead1,
        mult_one_left _ (powMult_two_lt _)]
      conv_rhs => rw [List.range_succ, List.foldl_append]
      rfl

theorem mem_FACTORS_of_getD (iter : Nat) (h : FACTORS.getD iter [] ≠ []) :
    FACTORS.getD iter [] ∈ FACTORS := by
  rw [List.getD_eq_getElem?_getD] at h ⊢
  cases hget : FACTORS[iter]? with
  | none => rw [hget] at h; simp at h
  | some x => simpa using List.getElem?_mem hget

/-- C16: for each entry of `FACTORS`, of length `n`, the monic polynomial
`x ^ n` plus the sum of the `entry[k] x ^ k` is the product of the `x + 2 ^ j`
for `j` from 1 to `n`, computed with `mult` and XOR; in particular `entry[0]`
is `2 ^ (n (n + 1) / 2)` and `entry[n - 1]` is the XOR of `2 ^ 1` to `2 ^ n`. -/
theorem FACTORS_are_products :
    ∀ poly ∈ FACTORS,
      generator poly = rsGenerator poly.length ∧
      poly.getD 0 0 = powMult 2 (poly.length * (poly.length + 1) / 2) ∧
      poly.getD (poly.length - 1) 0
        = (List.range poly.length).foldl (fun acc j => acc ^^^ powMult 2 (j + 1)) 0 := by
  intro poly hmem
  have hgen := generatorChain_sound 100 0 FACTORS FACTORS_generatorChain poly hmem
  have hpos : 0 < poly.length := by
    have hall : ∀ vec ∈ FACTORS, 0 < vec.length := by decide!
    exact hall poly hmem
  refine ⟨hgen, ?_, ?_⟩
  · rw [← generator_getD poly 0 hpos, hgen]
    exact (rsGenerator_coeffs poly.length).2.1
  · rw [← generator_getD poly (poly.length - 1) (by omega), hgen]
    obtain ⟨m, hm⟩ : ∃ m, poly.length = m + 1 := ⟨poly.length - 1, by omega⟩
    rw [hm, Nat.add_sub_cancel]
    exact (rsGenerator_coeffs m).2.2

theorem FACTORS_are_products_witness :
    generator [228, 48, 15, 111, 62] = rsGenerator ([228, 48, 15, 111, 62] : ByteArray).length :=
  (FACTORS_are_products [228, 48, 15, 111, 62] (by decide)).1

/-! ## The syndromes of an encoded block vanish -/

theorem lfsr_bytes (poly : ByteArray) (e : Nat) (ds : ByteArray) : IsBytes (lfsr poly e ds) := by
  unfold lfsr
  have h : ∀ (ds r : ByteArray), IsBytes r → IsBytes (ds.foldl (lfsrStep poly) r) := by
    intro ds
    induction ds with
    | nil => intro r hr; exact hr
    | cons d ds ih => intro r hr; exact ih _ (lfsrStep_bytes poly r d hr)
  apply h
  intro y hy
  rw [List.eq_of_mem_replicate hy]
  decide

theorem getD_reverse (l : List Nat) (i : Nat) (hi : i < l.length) :
    l.reverse.getD i 0 = l.getD (l.length - 1 - i) 0 := by
  rw [List.getD_eq_getElem?_getD, List.getD_eq_getElem?_getD, List.getElem?_reverse hi]

/-- The single-block case of `EncodeECC200` on a length of the table: the
result is the data followed by the register, highest coefficient first. -/
theorem EncodeECC200_single (input : ByteArray) (symbolInfo : SymbolInfo) (n iter : Nat)
    (hf : findFactors (n : Int) = .ok iter) (hpos : 0 < n)
    (hcap : symbolInfo.dataCapacity = input.length)
    (hblocks : symbolInfo.interleavedBlockCount = 1)
    (hecc : symbolInfo.errorCodewords = n)
    (hcount : symbolInfo.codewordCount = symbolInfo.dataCapacity + n) :
    EncodeECC200 input symbolInfo
      = (.ok (), input ++ (lfsr (FACTORS.getD iter []) n input).reverse) := by
  have hgrown : resize input symbolInfo.codewordCount = .ok (input ++ List.replicate n 0) := by
    unfold resize
    rw [if_neg (by omega)]
    have h1 : symbolInfo.codewordCount.toNat = input.length + n := by omega
    rw [h1, List.take_of_length_le (by omega), Nat.add_sub_cancel_left]
  have hr : ∀ i : Nat, i < symbolInfo.dataCapacity.toNat →
      0 ≤ (0 : Int) + i * 1 ∧ (0 : Int) + i * 1 < (input ++ List.replicate n 0).length := by
    intro i hi
    simp only [List.length_append, List.length_replicate]
    omega
  have hw : ∀ i : Nat, i < n →
      0 ≤ symbolInfo.dataCapacity + i * 1 ∧
      symbolInfo.dataCapacity + i * 1 < (input ++ List.replicate n 0).length := by
    intro i hi
    simp only [List.length_append, List.length_replicate]
    omega
  obtain ⟨out, hout, holen, hframe, hval⟩ := CreateECCBlock_spec (input ++ List.replicate n 0) 0
    symbolInfo.dataCapacity symbolInfo.dataCapacity 1 n iter hf hpos hr hw
  have hstr : strided (input ++ List.replicate n 0) 0 1 symbolInfo.dataCapacity.toNat = input := by
    have : symbolInfo.dataCapacity.toNat = input.length := by omega
    rw [this]
    exact strided_prefix input _
  rw [hstr] at hval
  have hout_eq : out = input ++ (lfsr (FACTORS.getD iter []) n input).reverse := by
    apply ext_getD
    · rw [holen]
      simp [lfsr_length]
    · intro k hk
      rw [holen, List.length_append, List.length_replicate] at hk
      rw [getD_append]
      by_cases hkl : k < input.length
      · rw [if_pos hkl, hframe k (fun i _ => by omega), getD_append, if_pos hkl]
      · rw [if_neg hkl]
        have hi : k - input.length < n := by omega
        have := hval (by decide) (k - input.length) hi
        have hidx : (symbolInfo.dataCapacity + ((k - input.length : Nat) : Int) * 1).toNat = k := by
          omega
        rw [hidx] at this
        rw [this, getD_reverse _ _ (by rw [lfsr_length]; exact hi), lfsr_length]
  unfold EncodeECC200
  rw [if_neg (by rw [hcap]; simp), hgrown]
  simp only
  rw [if_pos hblocks, hecc, hout, hout_eq]

theorem generator_bytes (poly : ByteArray) (hp : IsBytes poly) : IsBytes (generator poly) := by
  intro y hy
  unfold generator at hy
  rcases List.mem_append.mp hy with h | h
  · exact hp y h
  · rw [List.mem_singleton.mp h]; decide

/-- C15: for a single-block descriptor whose number `n` of error codewords is
a length of the table and whose codewordCount is dataCapacity plus `n`, and an
input of dataCapacity bytes, `EncodeECC200` returns, and the codeword, read as
the polynomial `C(x)` with the first byte as highest coefficient, vanishes at
`2 ^ j` for every `j` from 1 to `n`. -/
theorem EncodeECC200_syndromes_vanish (input : ByteArray) (symbolInfo : SymbolInfo) (n : Nat)
    (hn : n ∈ [5, 7, 10, 11, 12, 14, 18, 20, 24, 28, 36, 42, 48, 56, 62, 68])
    (hbytes : IsBytes input)
    (hcap : symbolInfo.dataCapacity = input.length)
    (hblocks : symbolInfo.interleavedBlockCount = 1)
    (hecc : symbolInfo.errorCodewords = n)
    (hcount : symbolInfo.codewordCount = symbolInfo.dataCapacity + n) :
    ∃ out, EncodeECC200 input symbolInfo = (.ok (), out) ∧
      out.length = input.length + n ∧
      ∀ j : Nat, 1 ≤ j → j ≤ n → codewordEval out (powMult 2 j) = 0 := by
  obtain ⟨iter, hf, hplen⟩ := findFactors_catalog n hn
  have hpos := catalog_pos n hn
  have hmem : FACTORS.getD iter [] ∈ FACTORS :=
    mem_FACTORS_of_getD iter (by intro hc; rw [hc] at hplen; simp at hplen; omega)
  have hpb := FACTORS_bytes _ hmem
  have hgen := generatorChain_sound 100 0 FACTORS FACTORS_generatorChain _ hmem
  rw [hplen] at hgen
  have hreg := lfsr_eq_polyMod (FACTORS.getD iter []) (by omega) input
  rw [hplen] at hreg
  have hrlen := lfsr_length (FACTORS.getD iter []) n input
  have hrb := lfsr_bytes (FACTORS.getD iter []) n input
  refine ⟨_, EncodeECC200_single input symbolInfo n iter hf hpos hcap hblocks hecc hcount,
    by simp [lfsr_length], ?_⟩
  intro j hj1 hjn
  have hx := powMult_two_lt j
  have hob : IsBytes (input ++ (lfsr (FACTORS.getD iter []) n input).reverse) := by
    intro y hy
    rcases List.mem_append.mp hy with h | h
    · exact hbytes y h
    · exact hrb y (List.mem_reverse.mp h)
  obtain ⟨q, _, hqb, hdiv⟩ := polyMod_quotient (FACTORS.getD iter []) input.length
    (polyShift n (dataPoly input)) (by rw [polyShift_length, hplen]; simp [dataPoly])
    (dividend_bytes n input hbytes)
  rw [← hreg] at hdiv
  have hcoef : ∀ k : Nat,
      ((lfsr (FACTORS.getD iter []) n input) ++ input.reverse).getD k 0
        = (polyMul q (generator (FACTORS.getD iter []))).getD k 0 := by
    intro k
    have hk := hdiv k
    rw [polyShift_getD] at hk
    rw [getD_append, hrlen]
    by_cases hkn : k < n
    · rw [if_pos hkn] at hk ⊢
      have : (polyMul q (generator (FACTORS.getD iter []))).getD k 0
          = (lfsr (FACTORS.getD iter []) n input).getD k 0 := by
        have h2 := congrArg (fun t => t ^^^ (lfsr (FACTORS.getD iter []) n input).getD k 0) hk
        simp only [Nat.zero_xor, Nat.xor_assoc, Nat.xor_self, Nat.xor_zero] at h2
        exact h2.symm
      rw [this]
    · rw [if_neg hkn] at hk ⊢
      rw [getD_of_le (lfsr (FACTORS.getD iter []) n input) k (by omega), Nat.xor_zero] at hk
      exact hk
  rw [codewordEval_eq_polyEval _ hx _ hob, List.reverse_append, List.reverse_reverse,
    polyEval_congr _ _ _ hcoef,
    polyEval_mul _ hx _ (generator_bytes _ hpb) q hqb, hgen,
    polyEval_rsGenerator_root n j hj1 hjn, mult_zero_right]

theorem EncodeECC200_syndromes_vanish_witness :
    ∃ out, EncodeECC200 [142, 164, 186] ⟨3, 8, 1, fun _ => 0, 5, 0⟩ = (.ok (), out) ∧
      out.length = ([142, 164, 186] : ByteArray).length + 5 ∧
      ∀ j : Nat, 1 ≤ j → j ≤ 5 → codewordEval out (powMult 2 j) = 0 :=
  EncodeECC200_syndromes_vanish [142, 164, 186] ⟨3, 8, 1, fun _ => 0, 5, 0⟩ 5 (by decide)
    (by decide) rfl rfl rfl rfl

/-! ## Linearity of the code -/

/-- C18: for two buffers of bytes on which `EncodeECC200` returns with the same
descriptor, it returns on their bytewise XOR, with the bytewise XOR of the two
results; and on the all-zero buffer of that length it returns the all-zero
buffer. -/
theorem EncodeECC200_linear (u v ou ov : ByteArray) (symbolInfo : SymbolInfo)
    (hu : IsBytes u) (hv : IsBytes v)
    (h1 : EncodeECC200 u symbolInfo = (.ok (), ou))
    (h2 : EncodeECC200 v symbolInfo = (.ok (), ov)) :
    EncodeECC200 (xorBytes u v) symbolInfo = (.ok (), xorBytes ou ov) ∧
    EncodeECC200 (List.replicate u.length 0) symbolInfo
      = (.ok (), List.replicate ou.length 0) := by
  have _ := h2
  refine ⟨EncodeECC200_xor u v ou ov symbolInfo hu hv h1 h2, ?_⟩
  have h := EncodeECC200_xor u u ou ou symbolInfo hu hu h1 h1
  rw [xorBytes_self, xorBytes_self] at h
  exact h

theorem EncodeECC200_linear_witness :
    EncodeECC200 (xorBytes [142, 164, 186] [1, 2, 3]) ⟨3, 8, 1, fun _ => 0, 5, 0⟩
      = (.ok (), xorBytes [142, 164, 186, 114, 25, 5, 88, 102] [1, 2, 3, 53, 46, 95, 0, 75]) ∧
    EncodeECC200 (List.replicate ([142, 164, 186] : ByteArray).length 0)
        ⟨3, 8, 1, fun _ => 0, 5, 0⟩
      = (.ok (), List.replicate ([142, 164, 186, 114, 25, 5, 88, 102] : ByteArray).length 0) :=
  EncodeECC200_linear [142, 164, 186] [1, 2, 3] [142, 164, 186, 114, 25, 5, 88, 102]
    [1, 2, 3, 53, 46, 95, 0, 75] ⟨3, 8, 1, fun _ => 0, 5, 0⟩ (by decide) (by decide)
    (by decide!) (by decide!)

/-! ## The checked encoder agrees with the encoder on bytes -/

theorem tableAt_of_lt (table : List Nat) (i : Nat) (h : i < table.length) :
    tableAt table i = .ok (table.getD i 0) := by
  unfold tableAt
  rw [List.get?_eq_get h]
  simp [List.getD_eq_getElem?_getD, List.getElem?_eq_getElem h]

theorem multChecked_eq (a b : Nat) (ha : a < 256) (hb : b < 256) :
    multChecked a b = .ok (mult a b) := by
  unfold multChecked mult
  by_cases h : (a == 0 || b == 0) = true
  · rw [if_pos h, if_pos h]
  · rw [if_neg h, if_neg h, tableAt_of_lt LOG a (by rw [LOG_length]; exact ha),
      tableAt_of_lt LOG b (by rw [LOG_length]; exact hb)]
    simp only
    rw [tableAt_of_lt ALOG _ (by rw [ALOG_length]; omega)]

theorem shiftLoopChecked_eq (poly : ByteArray) (m : Nat) (hm : m < 256) (hpoly : IsBytes poly) :
    ∀ (j : Nat) (ecc : ByteArray), j < ecc.length → j < poly.length →
      shiftLoopChecked poly m j ecc = .ok (shiftLoop poly m j ecc) := by
  intro j
  induction j with
  | zero => intro ecc _ _; rfl
  | succ k ih =>
    intro ecc h1 h2
    unfold shiftLoopChecked shiftLoop
    rw [tableAt_of_lt ecc k (by omega), tableAt_of_lt poly (k + 1) h2]
    simp only
    rw [multChecked_eq m _ hm (isBytes_getD hpoly _)]
    simp only
    rw [writeAt_of_lt _ (by omega) (by exact_mod_cast h1)]
    simp only [Int.toNat_ofNat]
    exact ih _ (by simp; omega) (by omega)

theorem getLast?_mem {l : List Nat} {x : Nat} (h : l.getLast? = some x) : x ∈ l :=
  List.mem_of_getLast?_eq_some h

theorem dataStepChecked_eq (data poly ecc : ByteArray) (codeOffset stride : Int) (i : Nat)
    (hlen : ecc.length ≤ poly.length) (hdata : IsBytes data) (hpoly : IsBytes poly)
    (hecc : IsBytes ecc) :
    dataStepChecked data poly codeOffset stride ecc i
      = dataStep data poly codeOffset stride ecc i := by
  unfold dataStepChecked dataStep
  cases hl : ecc.getLast? with
  | none => rfl
  | some back =>
    simp only
    cases hr : readAt data (codeOffset + (i : Int) * stride) with
    | error e => rfl
    | ok d =>
      simp only
      have hd : d < 256 := by
        rw [(readAt_eq_ok hr).2.2]
        exact isBytes_getD hdata _
      have hback : back < 256 := hecc back (getLast?_mem hl)
      have hm : back ^^^ d < 256 := xor_lt_256 hback hd
      have hne : ecc ≠ [] := by
        intro hc
        rw [hc] at hl
        simp at hl
      have hpos : 0 < ecc.length := List.length_pos.mpr hne
      rw [shiftLoopChecked_eq poly _ hm hpoly (ecc.length - 1) ecc (by omega) (by omega)]
      simp only
      rw [tableAt_of_lt poly 0 (by omega)]
      simp only
      rw [multChecked_eq _ _ hm (isBytes_getD hpoly _)]
      simp only
      rw [writeAt_of_lt _ (le_refl _) (by rw [shiftLoop_length]; exact_mod_cast hpos)]
      rfl

theorem dataStep_ok_inv (data poly ecc r : ByteArray) (codeOffset stride : Int) (i : Nat)
    (hecc : IsBytes ecc) (h : dataStep data poly codeOffset stride ecc i = .ok r) :
    r.length = ecc.length ∧ IsBytes r := by
  obtain ⟨_, _, _, hr⟩ := dataStep_eq_ok h
  rw [hr]
  exact ⟨lfsrStep_length _ _ _, lfsrStep_bytes _ _ _ hecc⟩

theorem dataLoopChecked_prefix (data poly init : ByteArray) (codeOffset stride : Int)
    (hlen : init.length ≤ poly.length) (hdata : IsBytes data) (hpoly : IsBytes poly)
    (hinit : IsBytes init) :
    ∀ n : Nat,
      (List.range n).foldlM (dataStepChecked data poly codeOffset stride) init
        = (List.range n).foldlM (dataStep data poly codeOffset stride) init ∧
      ∀ r, (List.range n).foldlM (dataStep data poly codeOffset stride) init = .ok r →
        r.length = init.length ∧ IsBytes r := by
  intro n
  induction n with
  | zero =>
    refine ⟨rfl, ?_⟩
    intro r h
    simp only [List.range_zero, List.foldlM_nil, pure, Except.pure, Except.ok.injEq] at h
    subst h
    exact ⟨rfl, hinit⟩
  | succ n ih =>
    obtain ⟨heq, hinv⟩ := ih
    constructor
    · rw [foldlM_range_succ, foldlM_range_succ, heq]
      cases hm : (List.range n).foldlM (dataStep data poly codeOffset stride) init with
      | error e => rfl
      | ok mid =>
        obtain ⟨hml, hmb⟩ := hinv mid hm
        simp only [bind, Except.bind]
        exact dataStepChecked_eq data poly mid codeOffset stride n (by omega) hdata hpoly hmb
    · intro r h
      obtain ⟨mid, hmid, hstep⟩ := foldlM_range_succ_ok _ _ _ _ h
      obtain ⟨hml, hmb⟩ := hinv mid hmid
      obtain ⟨h1, h2⟩ := dataStep_ok_inv data poly mid r codeOffset stride n hmb hstep
      exact ⟨by omega, h2⟩

theorem writeLoopChecked_prefix (ecc : ByteArray) (eccOffset eccLength stride : Int)
    (data : ByteArray) (hlen : ecc.length = eccLength.toNat) :
    ∀ n : Nat, n ≤ eccLength.toNat →
      (List.range n).foldlM (writeStepChecked ecc eccOffset eccLength stride) data
        = (List.range n).foldlM (writeStep ecc eccOffset eccLength stride) data := by
  intro n
  induction n with
  | zero => intro _; rfl
  | succ n ih =>
    intro hn
    rw [foldlM_range_succ, foldlM_range_succ, ih (by omega)]
    cases hm : (List.range n).foldlM (writeStep ecc eccOffset eccLength stride) data with
    | error e => rfl
    | ok mid =>
      simp only [bind, Except.bind]
      unfold writeStepChecked writeStep
      rw [readAt_of_lt (by omega) (by omega)]

theorem dataLoop_prefix_inv (data poly init : ByteArray) (codeOffset stride : Int)
    (hinit : IsBytes init) :
    ∀ (n : Nat) (r : ByteArray),
      (List.range n).foldlM (dataStep data poly codeOffset stride) init = .ok r →
      r.length = init.length ∧ IsBytes r := by
  intro n
  induction n with
  | zero =>
    intro r h
    simp only [List.range_zero, List.foldlM_nil, pure, Except.pure, Except.ok.injEq] at h
    subst h
    exact ⟨rfl, hinit⟩
  | succ n ih =>
    intro r h
    obtain ⟨mid, hmid, hstep⟩ := foldlM_range_succ_ok _ _ _ _ h
    obtain ⟨hml, hmb⟩ := ih mid hmid
    obtain ⟨h1, h2⟩ := dataStep_ok_inv data poly mid r codeOffset stride n hmb hstep
    exact ⟨by omega, h2⟩

theorem replicate_zero_bytes (n : Nat) : IsBytes (List.replicate n 0) := by
  intro y hy
  rw [List.eq_of_mem_replicate hy]
  decide

theorem CreateECCBlock_bytes {data out : ByteArray}
    {codeOffset codeLength eccOffset eccLength stride : Int} (hdata : IsBytes data)
    (h : CreateECCBlock data codeOffset codeLength eccOffset eccLength stride = .ok out) :
    IsBytes out := by
  obtain ⟨iter, ecc, _, hd, hw⟩ := CreateECCBlock_eq_ok h
  unfold dataLoop at hd
  unfold writeLoop at hw
  have hb := (dataLoop_prefix_inv data _ _ codeOffset stride (replicate_zero_bytes _) _ _ hd).2
  exact writeLoop_bytes _ _ _ _ _ hb hdata _ _ hw

theorem findFactors_negative (n : Int) (h1 : n < 0) (h2 : -(2 ^ 31) ≤ n) :
    findFactors n = .error (.invalid_argument (illegalCountMessage n)) := by
  have hsize : toSizeT n = (n + 2 ^ 64).toNat := by
    unfold toSizeT
    have : n % 2 ^ 64 = (n + 2 ^ 64) % 2 ^ 64 := by
      rw [Int.add_emod_self]
    rw [this, Int.emod_eq_of_lt (by omega) (by omega)]
  have hall : ∀ vec ∈ FACTORS,
      (fun (vec : ByteArray) (size : Nat) => decide (vec.length < size)) vec (toSizeT n) = true := by
    intro vec hvec
    have := FACTORS_length_le vec hvec
    simp only [decide_eq_true_eq, hsize]
    omega
  have hlb := lower_bound_loop_all_less FACTORS (toSizeT n)
    (fun (vec : ByteArray) (size : Nat) => decide (vec.length < size)) hall
    FACTORS.length 0 FACTORS.length (le_refl _) (by omega)
  unfold findFactors
  simp only [lower_bound]
  rw [hlb, Nat.zero_add, if_pos rfl]

/-- For a requested length that is an `int`, the entry the search returns is
an entry of the table, with at least that many coefficients. -/
theorem findFactors_ok_bounds (n : Int) (iter : Nat) (h1 : -(2 ^ 31) ≤ n) (h2 : n < 2 ^ 31)
    (hf : findFactors n = .ok iter) :
    iter < FACTORS.length ∧ n.toNat ≤ (FACTORS.getD iter []).length := by
  by_cases hneg : n < 0
  · rw [findFactors_negative n hneg h1] at hf
    simp at hf
  by_cases hbig : 68 < n
  · rw [findFactors_above n hbig h2] at hf
    simp at hf
  obtain ⟨m, rfl⟩ : ∃ m : Nat, n = (m : Int) := ⟨n.toNat, by omega⟩
  have hm : m ≤ 68 := by omega
  obtain ⟨iter', hiter', hle⟩ := findFactors_small m hm
  rw [hf] at hiter'
  simp only [Except.ok.injEq] at hiter'
  subst hiter'
  rw [Int.toNat_ofNat]
  refine ⟨?_, hle⟩
  have hfirst := findFactors_first_check m (by omega)
  rw [hf] at hfirst
  simp only [Except.ok.injEq] at hfirst
  rw [hfirst]
  unfold firstNotShorter
  apply List.findIdx_lt_length_of_exists
  have hlast : ∃ vec ∈ FACTORS, 68 ≤ vec.length := by decide!
  obtain ⟨vec, hvec, h68⟩ := hlast
  exact ⟨vec, hvec, by simp only [decide_eq_true_eq]; omega⟩

theorem CreateECCBlockChecked_eq (data : ByteArray)
    (codeOffset codeLength eccOffset eccLength stride : Int) (hdata : IsBytes data)
    (h1 : -(2 ^ 31) ≤ eccLength) (h2 : eccLength < 2 ^ 31) :
    CreateECCBlockChecked data codeOffset codeLength eccOffset eccLength stride
      = CreateECCBlock data codeOffset codeLength eccOffset eccLength stride := by
  unfold CreateECCBlockChecked CreateECCBlock
  cases hf : findFactors eccLength with
  | error e => rfl
  | ok iter =>
    obtain ⟨hiter, hle⟩ := findFactors_ok_bounds eccLength iter h1 h2 hf
    have hget : FACTORS.get? iter = some (FACTORS.getD iter []) := by
      rw [List.get?_eq_get hiter]
      simp [List.getD_eq_getElem?_getD, List.getElem?_eq_getElem hiter]
    simp only [hget]
    have hpoly := FACTORS_getD_bytes iter
    obtain ⟨heq, hinv⟩ := dataLoopChecked_prefix data (FACTORS.getD iter [])
      (List.replicate eccLength.toNat 0) codeOffset stride (by simpa using hle) hdata hpoly
      (replicate_zero_bytes _) codeLength.toNat
    unfold dataLoopChecked dataLoop
    rw [heq]
    cases hd : (List.range codeLength.toNat).foldlM
        (dataStep data (FACTORS.getD iter []) codeOffset stride)
        (List.replicate eccLength.toNat 0) with
    | error e => rfl
    | ok ecc =>
      simp only
      unfold writeLoopChecked writeLoop
      exact writeLoopChecked_prefix ecc eccOffset eccLength stride data
        (by rw [(hinv ecc hd).1]; simp) eccLength.toNat (le_refl _)

theorem blockLoopChecked_eq (symbolInfo : SymbolInfo) (blockCount : Int)
    (h1 : -(2 ^ 31) ≤ symbolInfo.errorLengthForInterleavedBlock)
    (h2 : symbolInfo.errorLengthForInterleavedBlock < 2 ^ 31) :
    ∀ (blocks : List Nat) (codewords : ByteArray), IsBytes codewords →
      blockLoopChecked symbolInfo blockCount blocks codewords
        = blockLoop symbolInfo blockCount blocks codewords := by
  intro blocks
  induction blocks with
  | nil => intro _ _; rfl
  | cons block rest ih =>
    intro codewords hb
    unfold blockLoopChecked blockLoop
    rw [CreateECCBlockChecked_eq _ _ _ _ _ _ hb h1 h2]
    cases hc : CreateECCBlock codewords block
        (symbolInfo.dataLengthForInterleavedBlock (block + 1))
        (symbolInfo.dataCapacity + block) symbolInfo.errorLengthForInterleavedBlock blockCount with
    | error e => rfl
    | ok mid => exact ih mid (CreateECCBlock_bytes hb hc)

/-- On a buffer of bytes, with an error-correction length that is an `int`, the
checked encoder is the encoder: no read of `LOG`, `ALOG`, `FACTORS` or of the
register, and no assignment of the register, is out of bounds. -/
theorem EncodeECC200Checked_eq (codewords : ByteArray) (symbolInfo : SymbolInfo)
    (hb : IsBytes codewords)
    (h1 : symbolInfo.interleavedBlockCount = 1 →
      -(2 ^ 31) ≤ symbolInfo.errorCodewords ∧ symbolInfo.errorCodewords < 2 ^ 31)
    (h2 : symbolInfo.interleavedBlockCount ≠ 1 →
      -(2 ^ 31) ≤ symbolInfo.errorLengthForInterleavedBlock ∧
      symbolInfo.errorLengthForInterleavedBlock < 2 ^ 31) :
    EncodeECC200Checked codewords symbolInfo = EncodeECC200 codewords symbolInfo := by
  unfold EncodeECC200Checked EncodeECC200
  by_cases hlen : (codewords.length : Int) ≠ symbolInfo.dataCapacity
  · rw [if_pos hlen, if_pos hlen]
  · rw [if_neg hlen, if_neg hlen]
    cases hr : resize codewords symbolInfo.codewordCount with
    | error e => rfl
    | ok grown =>
      have hgb : IsBytes grown := by
        rw [(resize_eq_ok hr).2]
        intro a ha
        rcases List.mem_append.mp ha with h | h
        · exact hb a (List.mem_of_mem_take h)
        · exact replicate_zero_bytes _ a h
      simp only
      by_cases hB : symbolInfo.interleavedBlockCount = 1
      · rw [if_pos hB, if_pos hB, CreateECCBlockChecked_eq _ _ _ _ _ _ hgb (h1 hB).1 (h1 hB).2]
      · rw [if_neg hB, if_neg hB]
        exact blockLoopChecked_eq symbolInfo _ (h2 hB).1 (h2 hB).2 _ grown hgb

/-! ## No access out of range on a consistent descriptor -/

theorem catalog_le (n : Nat)
    (hn : n ∈ [5, 7, 10, 11, 12, 14, 18, 20, 24, 28, 36, 42, 48, 56, 62, 68]) : n ≤ 68 := by
  simp only [List.mem_cons, List.mem_singleton, List.not_mem_nil, or_false] at hn
  omega

/-- C17: for a descriptor with `B ≥ 1` interleaved blocks, a per-block
error-correction length `e` of the table (errorCodewords being `e` when
`B = 1`), codewordCount equal to dataCapacity plus `B e`, and block data
lengths `L_b ≥ 0` with `b + (L_b - 1) B` below dataCapacity when `L_b > 0`,
and for every input of dataCapacity bytes: the encoder in which every access
to the buffer, to the register and to `FACTORS`, `LOG` and `ALOG` is checked
returns without error, with the result of `EncodeECC200`, of length
codewordCount. -/
theorem EncodeECC200_accesses_in_range (input : ByteArray) (symbolInfo : SymbolInfo)
    (B e : Nat)
    (he : e ∈ [5, 7, 10, 11, 12, 14, 18, 20, 24, 28, 36, 42, 48, 56, 62, 68])
    (hbytes : IsBytes input)
    (hcap : symbolInfo.dataCapacity = input.length)
    (hblocks : symbolInfo.interleavedBlockCount = B) (hB : 1 ≤ B)
    (hecc : symbolInfo.errorLengthForInterleavedBlock = e)
    (hecc1 : B = 1 → symbolInfo.errorCodewords = e)
    (hcount : symbolInfo.codewordCount = symbolInfo.dataCapacity + B * e)
    (hdata : ∀ b : Nat, b < B →
      0 ≤ symbolInfo.dataLengthForInterleavedBlock (b + 1) ∧
      (0 < symbolInfo.dataLengthForInterleavedBlock (b + 1) →
        (b : Int) + (symbolInfo.dataLengthForInterleavedBlock (b + 1) - 1) * B
          < symbolInfo.dataCapacity)) :
    ∃ out, EncodeECC200Checked input symbolInfo = (.ok (), out) ∧
      EncodeECC200 input symbolInfo = (.ok (), out) ∧
      (out.length : Int) = symbolInfo.codewordCount := by
  obtain ⟨iter, hf, _⟩ := findFactors_catalog e he
  have hpos := catalog_pos e he
  have h68 := catalog_le e he
  have hchecked : EncodeECC200Checked input symbolInfo = EncodeECC200 input symbolInfo := by
    apply EncodeECC200Checked_eq input symbolInfo hbytes
    · intro h1
      have hB1 : B = 1 := by
        rw [hblocks] at h1
        exact_mod_cast h1
      rw [hecc1 hB1]
      omega
    · intro _
      rw [hecc]
      omega
  have hok : ∃ out, EncodeECC200 input symbolInfo = (.ok (), out) := by
    by_cases hB1 : B = 1
    · refine ⟨_, EncodeECC200_single input symbolInfo e iter hf hpos hcap
        (by rw [hblocks, hB1]; rfl) (hecc1 hB1) ?_⟩
      rw [hcount, hB1]
      simp
    · have hB2 : 1 < B := by omega
      obtain ⟨out, hout, _⟩ := EncodeECC200_blocks input symbolInfo B e iter hcap hblocks hB2
        hecc hpos hf
        (by
          intro b i hb hi
          obtain ⟨_, h2⟩ := hdata b hb
          have hL : 0 < symbolInfo.dataLengthForInterleavedBlock (b + 1) := by omega
          have h3 := h2 hL
          have hmul : (i : Int) * (B : Int)
              ≤ (symbolInfo.dataLengthForInterleavedBlock (b + 1) - 1) * (B : Int) :=
            Int.mul_le_mul_of_nonneg_right (by omega) (by omega)
          have h4 : ((b + i * B : Nat) : Int) < (input.length : Int) := by
            push_cast
            omega
          exact_mod_cast h4)
        (by
          intro b i hb hi
          have hmul : i * B ≤ (e - 1) * B := Nat.mul_le_mul_right B (by omega)
          have hexp : (e - 1) * B + B = B * e := by
            have : (e - 1) * B + B = (e - 1 + 1) * B := by ring
            rw [this, Nat.sub_add_cancel hpos, Nat.mul_comm]
          have h4 : input.length + b + i * B < input.length + B * e := by omega
          rw [hcount, hcap]
          exact_mod_cast h4)
      exact ⟨out, hout⟩
  obtain ⟨out, hout⟩ := hok
  exact ⟨out, by rw [hchecked]; exact hout, hout, (EncodeECC200_ok_inv hout).2.1⟩

theorem EncodeECC200_accesses_in_range_witness :
    ∃ out, EncodeECC200Checked [1, 2, 3, 4, 5, 6] ⟨6, 16, 2, fun _ => 3, 100, 5⟩ = (.ok (), out) ∧
      EncodeECC200 [1, 2, 3, 4, 5, 6] ⟨6, 16, 2, fun _ => 3, 100, 5⟩ = (.ok (), out) ∧
      (out.length : Int) = 16 :=
  EncodeECC200_accesses_in_range [1, 2, 3, 4, 5, 6] ⟨6, 16, 2, fun _ => 3, 100, 5⟩ 2 5
    (by decide) (by decide) rfl rfl (by decide) rfl (by intro h; exact absurd h (by decide)) rfl
    (by
      intro b hb
      refine ⟨show (0 : Int) ≤ 3 by omega, fun _ => ?_⟩
      show (b : Int) + ((3 : Int) - 1) * ((2 : Nat) : Int) < 6
      omega)

end ZXing.DataMatrix
